import Mathlib

/-!
SingleLinkedList (single-linked-list.h): a shallow embedding.

The C++ class template `SingleLinkedList<Type>` keeps a sentinel node `head_`
inside the list object and a chain of nodes created with `new`.  The embedding
makes the memory explicit:

* `State.nodes` is the free store: the live nodes created by `new`, by address;
* `State.lists` holds the live list objects (`head_.next_node` and `size_`),
  by object address; a method receives `this` as such an address;
* a `Node*` is a `NodePtr`: `nullptr`, the address of a list's sentinel
  `&obj.head_`, or the address of a node of the free store.

Every operation returns `Except Fault _`: an `assert` that fires, a null or
dangling dereference and the exhaustion of the fuel of a loop are reported as
faults.  Assertions are taken to be enabled; what they guard against is
undefined behaviour in the source, which is a fault here as well.  Loops
(`Clear`, `Assign`, the standard algorithms) take a fuel argument: fuel `n`
allows `n` iterations of the loop body.

`size_` is a `size_t`; it is embedded as a natural number.  It counts live
nodes, each of which occupies storage, so `++size_` cannot wrap around, and
`--size_` is only reached with `size_ = 0` when a precondition is broken.
`new` is taken to succeed (no `std::bad_alloc`); it may hand out again the
address of a node that was deleted.
-/

namespace SLL

/-! ## Memory -/

/-- Ways in which an execution can go wrong. -/
inductive Fault where
  /-- an `assert` of the source fired -/
  | assertion
  /-- `->` applied to `nullptr` -/
  | nullDeref
  /-- access to a node or list object that is not live -/
  | dangling
  /-- read of `head_.value`, which holds no element -/
  | sentinelValue
  /-- `delete` applied to something that `new` did not return -/
  | badDelete
  /-- a loop used up its fuel -/
  | outOfFuel
  deriving DecidableEq, Repr

/-- A value of type `Node*`. -/
inductive NodePtr where
  /-- `nullptr` -/
  | null
  /-- `&obj.head_`, the sentinel inside the list object at address `obj` -/
  | head (obj : Nat)
  /-- a node of the free store -/
  | heap (addr : Nat)
  deriving DecidableEq, Repr

/-- `struct Node { Type value; Node *next_node = nullptr; }`. -/
structure Node (α : Type) where
  value : α
  next_node : NodePtr
  deriving DecidableEq, Repr

/-- The data members of a `SingleLinkedList` object: the sentinel `head_`, of
which only the link `head_.next_node` is ever used, and `size_`. -/
structure SingleLinkedList where
  head_next_node : NodePtr
  size_ : Nat
  deriving DecidableEq, Repr

/-- Look an address up in a store; a later binding shadows an earlier one. -/
def lookup {β : Type} : List (Nat × β) → Nat → Option β
  | [], _ => none
  | (k, v) :: m, a => if k = a then some v else lookup m a

/-- Remove every binding of an address from a store. -/
def remove {β : Type} : List (Nat × β) → Nat → List (Nat × β)
  | [], _ => []
  | (k, v) :: m, a => if k = a then remove m a else (k, v) :: remove m a

/-- An address that is not bound in the store: one more than the largest bound one. -/
def fresh {β : Type} : List (Nat × β) → Nat
  | [] => 0
  | (k, _) :: m => max (k + 1) (fresh m)

/-- The memory: the nodes of the free store and the list objects. -/
structure State (α : Type) where
  nodes : List (Nat × Node α)
  lists : List (Nat × SingleLinkedList)
  deriving DecidableEq, Repr

/-- The memory with no node and no list object. -/
def State.empty {α : Type} : State α := ⟨[], []⟩

/-- Read the node at a free-store address. -/
def readNode {α : Type} (s : State α) (a : Nat) : Except Fault (Node α) :=
  match lookup s.nodes a with
  | some n => .ok n
  | none => .error .dangling

/-- Read the list object at an address. -/
def readList {α : Type} (s : State α) (obj : Nat) : Except Fault SingleLinkedList :=
  match lookup s.lists obj with
  | some l => .ok l
  | none => .error .dangling

/-- Overwrite the list object at an address. -/
def writeList {α : Type} (s : State α) (obj : Nat) (l : SingleLinkedList) : State α :=
  { s with lists := (obj, l) :: s.lists }

/-- Overwrite the node at a free-store address. -/
def writeNode {α : Type} (s : State α) (a : Nat) (n : Node α) : State α :=
  { s with nodes := (a, n) :: s.nodes }

/-- The read `p->next_node`. -/
def getNext {α : Type} (s : State α) : NodePtr → Except Fault NodePtr
  | .null => .error .nullDeref
  | .head obj => do
    let l ← readList s obj
    pure l.head_next_node
  | .heap a => do
    let n ← readNode s a
    pure n.next_node

/-- The assignment `p->next_node = q`. -/
def setNext {α : Type} (s : State α) (p q : NodePtr) : Except Fault (State α) :=
  match p with
  | .null => .error .nullDeref
  | .head obj => do
    let l ← readList s obj
    pure (writeList s obj { l with head_next_node := q })
  | .heap a => do
    let n ← readNode s a
    pure (writeNode s a { n with next_node := q })

/-- The read `p->value`. -/
def getValue {α : Type} (s : State α) : NodePtr → Except Fault α
  | .null => .error .nullDeref
  | .head _ => .error .sentinelValue
  | .heap a => do
    let n ← readNode s a
    pure n.value

/-- The expression `new Node(val, next)`: the node is placed at an address that is not
live, and that address is returned. -/
def newNode {α : Type} (s : State α) (val : α) (next : NodePtr) : Nat × State α :=
  (fresh s.nodes, writeNode s (fresh s.nodes) ⟨val, next⟩)

/-- The statement `delete p`. -/
def deleteNode {α : Type} (s : State α) : NodePtr → Except Fault (State α)
  | .null => .ok s
  | .head _ => .error .badDelete
  | .heap a =>
    match lookup s.nodes a with
    | some _ => .ok { s with nodes := remove s.nodes a }
    | none => .error .dangling

/-- The statement `++size_` of the list object `this`. -/
def incSize {α : Type} (s : State α) (this : Nat) : Except Fault (State α) := do
  let l ← readList s this
  pure (writeList s this { l with size_ := l.size_ + 1 })

/-- The statement `--size_` of the list object `this`. -/
def decSize {α : Type} (s : State α) (this : Nat) : Except Fault (State α) := do
  let l ← readList s this
  pure (writeList s this { l with size_ := l.size_ - 1 })

/-! ## BasicIterator -/

/-- The class `BasicIterator<ValueType>`: its only data member is `node_`.  `Iterator` and
`ConstIterator` differ in the constness of the reference they hand out, not in their
state, and share this embedding. -/
structure BasicIterator where
  node_ : NodePtr
  deriving DecidableEq, Repr

/-- `BasicIterator::operator==`. -/
def BasicIterator.eq (lhs rhs : BasicIterator) : Bool :=
  decide (lhs.node_ = rhs.node_)

/-- `BasicIterator::operator!=`. -/
def BasicIterator.ne (lhs rhs : BasicIterator) : Bool :=
  !(decide (lhs.node_ = rhs.node_))

/-- Pre-increment `BasicIterator::operator++()`; the result is the iterator after the
move. -/
def BasicIterator.preInc {α : Type} (s : State α) (it : BasicIterator) :
    Except Fault BasicIterator :=
  if it.node_ = .null then .error .assertion
  else do
    let n ← getNext s it.node_
    pure ⟨n⟩

/-- Post-increment `BasicIterator::operator++(int)`; the result is the pair of the
returned old value and the iterator after the move. -/
def BasicIterator.postInc {α : Type} (s : State α) (it : BasicIterator) :
    Except Fault (BasicIterator × BasicIterator) := do
  let old_value := it
  let n ← getNext s it.node_
  pure (old_value, ⟨n⟩)

/-- Dereference `BasicIterator::operator*`. -/
def BasicIterator.deref {α : Type} (s : State α) (it : BasicIterator) : Except Fault α :=
  if it.node_ = .null then .error .assertion
  else getValue s it.node_

/-! ## SingleLinkedList -/

/-- The default constructor `SingleLinkedList()`, run on the storage at address `this`:
the default member initialisers give a null `head_.next_node` and `size_ = 0`. -/
def construct {α : Type} (s : State α) (this : Nat) : State α :=
  writeList s this ⟨.null, 0⟩

/-- `SingleLinkedList::GetSize`. -/
def GetSize {α : Type} (s : State α) (this : Nat) : Except Fault Nat := do
  let l ← readList s this
  pure l.size_

/-- `SingleLinkedList::IsEmpty`. -/
def IsEmpty {α : Type} (s : State α) (this : Nat) : Except Fault Bool := do
  let l ← readList s this
  pure (decide (l.size_ = 0))

/-- `SingleLinkedList::PushFront`. -/
def PushFront {α : Type} (s : State α) (this : Nat) (value : α) : Except Fault (State α) := do
  let old ← getNext s (.head this)
  let (a, s1) := newNode s value old
  let s2 ← setNext s1 (.head this) (.heap a)
  incSize s2 this

/-- The loop of `SingleLinkedList::Clear`. -/
def Clear.loop {α : Type} (this : Nat) : Nat → State α → Except Fault (State α)
  | 0, s => do
    let h ← getNext s (.head this)
    if h ≠ .null then .error .outOfFuel else pure s
  | fuel + 1, s => do
    let h ← getNext s (.head this)
    if h ≠ .null then
      let new_head ← getNext s h
      let s1 ← deleteNode s h
      let s2 ← setNext s1 (.head this) new_head
      Clear.loop this fuel s2
    else pure s

/-- `SingleLinkedList::Clear`. -/
def Clear {α : Type} (fuel : Nat) (s : State α) (this : Nat) : Except Fault (State α) := do
  let s1 ← Clear.loop this fuel s
  let l ← readList s1 this
  pure (writeList s1 this { l with size_ := 0 })

/-- `SingleLinkedList::PopFront`. -/
def PopFront {α : Type} (s : State α) (this : Nat) : Except Fault (State α) := do
  let e ← IsEmpty s this
  if e then .error .assertion
  else
    let h ← getNext s (.head this)
    let new_head ← getNext s h
    let s1 ← deleteNode s h
    let s2 ← setNext s1 (.head this) new_head
    decSize s2 this

/-- `SingleLinkedList::InsertAfter`; the result is the returned iterator and the new
memory. -/
def InsertAfter {α : Type} (s : State α) (this : Nat) (pos : BasicIterator) (value : α) :
    Except Fault (BasicIterator × State α) :=
  if pos.node_ = .null then .error .assertion
  else do
    let old ← getNext s pos.node_
    let (a, s1) := newNode s value old
    let s2 ← setNext s1 pos.node_ (.heap a)
    let s3 ← incSize s2 this
    let r ← getNext s3 pos.node_
    pure (⟨r⟩, s3)

/-- `SingleLinkedList::EraseAfter`; the result is the returned iterator and the new
memory. -/
def EraseAfter {α : Type} (s : State α) (this : Nat) (pos : BasicIterator) :
    Except Fault (BasicIterator × State α) :=
  if pos.node_ = .null then .error .assertion
  else do
    let n ← getNext s pos.node_
    if n = .null then .error .assertion
    else
      let temp ← getNext s n
      let s1 ← deleteNode s n
      let s2 ← setNext s1 pos.node_ temp
      let s3 ← decSize s2 this
      let r ← getNext s3 pos.node_
      pure (⟨r⟩, s3)

/-- The destructor `~SingleLinkedList()`: `Clear()`, after which the object at `this`
ceases to exist. -/
def destruct {α : Type} (fuel : Nat) (s : State α) (this : Nat) : Except Fault (State α) := do
  let s1 ← Clear fuel s this
  pure { s1 with lists := remove s1.lists this }

/-- `SingleLinkedList::begin` (both overloads) and `cbegin`. -/
def begin_ {α : Type} (s : State α) (this : Nat) : Except Fault BasicIterator := do
  let h ← getNext s (.head this)
  pure ⟨h⟩

/-- `SingleLinkedList::end` (both overloads) and `cend`. -/
def end_ (_this : Nat) : BasicIterator := ⟨.null⟩

/-- `SingleLinkedList::before_begin` (both overloads) and `cbefore_begin`. -/
def before_begin (this : Nat) : BasicIterator := ⟨.head this⟩

/-- `SingleLinkedList::swap`. -/
def swap {α : Type} (s : State α) (this other : Nat) : Except Fault (State α) := do
  let a ← getNext s (.head other)
  let b ← getNext s (.head this)
  let s1 ← setNext s (.head other) b
  let s2 ← setNext s1 (.head this) a
  let lo ← readList s2 other
  let lt ← readList s2 this
  let s3 := writeList s2 other { lo with size_ := lt.size_ }
  pure (writeList s3 this { lt with size_ := lo.size_ })

/-- The operations that the template `Assign` uses of its `InputIterator` type: `!=`,
unary `*` and pre-increment.  Dereferencing and incrementing may read the memory. -/
structure InputIterator (α : Type) (I : Type) where
  ne : I → I → Bool
  deref : State α → I → Except Fault α
  inc : State α → I → Except Fault I

/-- An iterator of a `std::initializer_list<Type>`: a pointer into its backing array,
given by the array and an index. -/
structure ArrayIterator (α : Type) where
  arr : List α
  idx : Nat

/-- The iterator operations of `const Type*` over the backing array. -/
def arrayOps (α : Type) : InputIterator α (ArrayIterator α) where
  ne := fun a b => !(decide (a.idx = b.idx))
  deref := fun _ a =>
    match a.arr.get? a.idx with
    | some v => .ok v
    | none => .error .dangling
  inc := fun _ a => .ok ⟨a.arr, a.idx + 1⟩

/-- The iterator operations of `ConstIterator`. -/
def listOps (α : Type) : InputIterator α BasicIterator where
  ne := BasicIterator.ne
  deref := fun s it => it.deref s
  inc := fun s it => it.preInc s

/-- The loop of `SingleLinkedList::Assign`.  `node_ptr` has type `Node**`: it addresses
the `next_node` member of a node and is represented by the pointer to that node. -/
def Assign.loop {α I : Type} (ops : InputIterator α I) (tmp : Nat) :
    Nat → State α → NodePtr → I → I → Except Fault (State α)
  | 0, s, _, from_, to_ =>
    if ops.ne from_ to_ then .error .outOfFuel else pure s
  | fuel + 1, s, node_ptr, from_, to_ =>
    if ops.ne from_ to_ then do
      let cur ← getNext s node_ptr
      if cur ≠ .null then .error .assertion
      else
        let v ← ops.deref s from_
        let (a, s1) := newNode s v .null
        let s2 ← setNext s1 node_ptr (.heap a)
        let s3 ← incSize s2 tmp
        let node_ptr1 ← getNext s3 node_ptr
        if node_ptr1 = .null then .error .nullDeref
        else
          let from1 ← ops.inc s3 from_
          Assign.loop ops tmp fuel s3 node_ptr1 from1 to_
    else pure s

/-- `SingleLinkedList::Assign`.  The local list `tmp` is constructed at an unused object
address and destroyed when the function returns. -/
def Assign {α I : Type} (ops : InputIterator α I) (fuel : Nat) (s : State α) (this : Nat)
    (from_ to_ : I) : Except Fault (State α) := do
  let tmp := fresh s.lists
  let s0 := construct s tmp
  let s1 ← Assign.loop ops tmp fuel s0 (.head tmp) from_ to_
  let s2 ← swap s1 this tmp
  destruct fuel s2 tmp

/-- The constructor `SingleLinkedList(std::initializer_list<Type> values)`, run on the
storage at address `this`. -/
def construct_values {α : Type} (fuel : Nat) (s : State α) (this : Nat) (values : List α) :
    Except Fault (State α) :=
  Assign (arrayOps α) fuel (construct s this) this ⟨values, 0⟩ ⟨values, values.length⟩

/-- The copy constructor `SingleLinkedList(const SingleLinkedList &other)`, run on the
storage at address `this`. -/
def construct_copy {α : Type} (fuel : Nat) (s : State α) (this other : Nat) :
    Except Fault (State α) := do
  let s0 := construct s this
  let b ← begin_ s0 other
  Assign (listOps α) fuel s0 this b (end_ other)

/-- The copy assignment `SingleLinkedList::operator=`. -/
def copy_assign {α : Type} (fuel : Nat) (s : State α) (this rhs : Nat) :
    Except Fault (State α) :=
  if this ≠ rhs then do
    let tmp := fresh s.lists
    let s1 ← construct_copy fuel s tmp rhs
    let s2 ← swap s1 this tmp
    destruct fuel s2 tmp
  else pure s

/-! ## Free functions -/

/-- The free function `swap(lhs, rhs)`. -/
def swap_free {α : Type} (s : State α) (lhs rhs : Nat) : Except Fault (State α) :=
  swap s lhs rhs

/-- The algorithm `std::equal(first1, last1, first2, last2)` on forward iterators: walk
both ranges together, stop at the first differing pair, and require both ranges to end
together. -/
def std_equal {α : Type} [DecidableEq α] (s : State α) :
    Nat → BasicIterator → BasicIterator → BasicIterator → BasicIterator → Except Fault Bool
  | 0, first1, last1, first2, last2 =>
    if first1.ne last1 && first2.ne last2 then .error .outOfFuel
    else pure (first1.eq last1 && first2.eq last2)
  | fuel + 1, first1, last1, first2, last2 =>
    if first1.ne last1 && first2.ne last2 then do
      let x ← first1.deref s
      let y ← first2.deref s
      if x = y then
        let next1 ← first1.preInc s
        let next2 ← first2.preInc s
        std_equal s fuel next1 last1 next2 last2
      else pure false
    else pure (first1.eq last1 && first2.eq last2)

/-- The algorithm `std::lexicographical_compare(first1, last1, first2, last2)`. -/
def std_lexicographical_compare {α : Type} [LT α] [DecidableRel (fun a b : α => a < b)]
    (s : State α) :
    Nat → BasicIterator → BasicIterator → BasicIterator → BasicIterator → Except Fault Bool
  | 0, first1, last1, first2, last2 =>
    if first1.ne last1 && first2.ne last2 then .error .outOfFuel
    else pure (first1.eq last1 && first2.ne last2)
  | fuel + 1, first1, last1, first2, last2 =>
    if first1.ne last1 && first2.ne last2 then do
      let x ← first1.deref s
      let y ← first2.deref s
      if x < y then pure true
      else if y < x then pure false
      else
        let next1 ← first1.preInc s
        let next2 ← first2.preInc s
        std_lexicographical_compare s fuel next1 last1 next2 last2
    else pure (first1.eq last1 && first2.ne last2)

/-- The free `operator==` on lists: the value of `std::equal` is computed and dropped,
and `true` is returned. -/
def operator_eq {α : Type} [DecidableEq α] (fuel : Nat) (s : State α) (lhs rhs : Nat) :
    Except Fault Bool := do
  let b1 ← begin_ s lhs
  let b2 ← begin_ s rhs
  let _ ← std_equal s fuel b1 (end_ lhs) b2 (end_ lhs)
  pure true

/-- The free `operator!=` on lists. -/
def operator_ne {α : Type} [DecidableEq α] (fuel : Nat) (s : State α) (lhs rhs : Nat) :
    Except Fault Bool := do
  let r ← operator_eq fuel s lhs rhs
  pure (!r)

/-- The free `operator<` on lists: the value of `std::lexicographical_compare` is
computed and dropped, and `true` is returned. -/
def operator_lt {α : Type} [LT α] [DecidableRel (fun a b : α => a < b)]
    (fuel : Nat) (s : State α) (lhs rhs : Nat) : Except Fault Bool := do
  let b1 ← begin_ s lhs
  let b2 ← begin_ s rhs
  let _ ← std_lexicographical_compare s fuel b1 (end_ lhs) b2 (end_ rhs)
  pure true

/-- The free `operator<=` on lists: `return rhs < lhs;`. -/
def operator_le {α : Type} [LT α] [DecidableRel (fun a b : α => a < b)]
    (fuel : Nat) (s : State α) (lhs rhs : Nat) : Except Fault Bool :=
  operator_lt fuel s rhs lhs

/-- The free `operator>` on lists: `return rhs < lhs;`. -/
def operator_gt {α : Type} [LT α] [DecidableRel (fun a b : α => a < b)]
    (fuel : Nat) (s : State α) (lhs rhs : Nat) : Except Fault Bool :=
  operator_lt fuel s rhs lhs

/-- The free `operator>=` on lists: `return rhs < lhs;`. -/
def operator_ge {α : Type} [LT α] [DecidableRel (fun a b : α => a < b)]
    (fuel : Nat) (s : State α) (lhs rhs : Nat) : Except Fault Bool :=
  operator_lt fuel s rhs lhs

/-! ## Observing a list -/

/-- The client loop `for (; it != last; ++it) out.push_back(*it);`. -/
def iterate {α : Type} (s : State α) :
    Nat → BasicIterator → BasicIterator → Except Fault (List α)
  | 0, it, last => if it.ne last then .error .outOfFuel else pure []
  | fuel + 1, it, last =>
    if it.ne last then do
      let v ← it.deref s
      let next ← it.preInc s
      let rest ← iterate s fuel next last
      pure (v :: rest)
    else pure []

/-- Forward iteration of the list `this` from `begin()` to `end()`. -/
def toList {α : Type} (fuel : Nat) (s : State α) (this : Nat) : Except Fault (List α) := do
  let b ← begin_ s this
  iterate s fuel b (end_ this)

/-- The iterator reached from `it` by `k` pre-increments. -/
def advance {α : Type} (s : State α) : Nat → BasicIterator → Except Fault BasicIterator
  | 0, it => pure it
  | k + 1, it => do
    let next ← it.preInc s
    advance s k next

/-- A position of a list as a caller names it: `before_begin()`, or the iterator that
refers to the element of index `k`, reached from `begin()` by `k` increments. -/
inductive Position where
  | beforeBegin
  | element (k : Nat)
  deriving DecidableEq, Repr

/-- The iterator that a position of the list `this` stands for. -/
def Position.iterator {α : Type} (s : State α) (this : Nat) : Position → Except Fault BasicIterator
  | .beforeBegin => pure (before_begin this)
  | .element k => do
    let b ← begin_ s this
    advance s k b

/-- The index of the element that follows a position: `0` after `before_begin()` and
`k + 1` after the element of index `k`. -/
def Position.index : Position → Nat
  | .beforeBegin => 0
  | .element k => k + 1

/-- The client loop
`while (!L.IsEmpty()) { out.push_back(*L.begin()); L.PopFront(); ++calls; }`;
the result is the values seen, the number of calls of `PopFront` and the final memory. -/
def popAll {α : Type} (this : Nat) : Nat → State α → Except Fault (List α × Nat × State α)
  | 0, s => do
    let e ← IsEmpty s this
    if e then pure ([], 0, s) else .error .outOfFuel
  | fuel + 1, s => do
    let e ← IsEmpty s this
    if e then pure ([], 0, s)
    else
      let b ← begin_ s this
      let v ← b.deref s
      let s1 ← PopFront s this
      let (vs, calls, s2) ← popAll this fuel s1
      pure (v :: vs, calls + 1, s2)

/-- One call of a mutating member function, with its arguments. -/
inductive Mutation (α : Type) where
  | pushFront (value : α)
  | popFront
  | insertAfter (pos : Position) (value : α)
  | eraseAfter (pos : Position)
  | clear (fuel : Nat)

/-- Run one mutating call on the list `this`. -/
def Mutation.run {α : Type} (s : State α) (this : Nat) : Mutation α → Except Fault (State α)
  | .pushFront value => PushFront s this value
  | .popFront => PopFront s this
  | .insertAfter pos value => do
    let it ← pos.iterator s this
    let (_, s1) ← InsertAfter s this it value
    pure s1
  | .eraseAfter pos => do
    let it ← pos.iterator s this
    let (_, s1) ← EraseAfter s this it
    pure s1
  | .clear fuel => Clear fuel s this

/-- Run a sequence of mutating calls on the list `this`, one after the other. -/
def Mutation.runAll {α : Type} (this : Nat) : List (Mutation α) → State α → Except Fault (State α)
  | [], s => pure s
  | m :: ms, s => do
    let s1 ← m.run s this
    Mutation.runAll this ms s1

/-! ## Representation -/

/-- The cells `cs` (address and value of each node) are linked in this order from the
pointer `p` up to the pointer `q`. -/
def Seg {α : Type} (s : State α) : NodePtr → List (Nat × α) → NodePtr → Prop
  | p, [], q => p = q
  | p, (a, x) :: cs, q => p = .heap a ∧ ∃ nx, lookup s.nodes a = some ⟨x, nx⟩ ∧ Seg s nx cs q

/-- The list object at `this` is live, its chain of nodes consists of the cells `cs` in
this order and ends with a null link, and its `size_` is the number of cells. -/
def Owns {α : Type} (s : State α) (this : Nat) (cs : List (Nat × α)) : Prop :=
  ∃ l, lookup s.lists this = some l ∧ l.size_ = cs.length ∧ Seg s l.head_next_node cs .null

/-- The element values of a list of cells. -/
def values {α : Type} (cs : List (Nat × α)) : List α := cs.map Prod.snd

/-- The node addresses of a list of cells. -/
def addrs {α : Type} (cs : List (Nat × α)) : List Nat := cs.map Prod.fst

/-- What a step from memory `s` to memory `t` leaves alone: every list object other than
those in `objs`, and every node that is live in `s` and not among the addresses `A`. -/
def Frame {α : Type} (s t : State α) (objs : List Nat) (A : List Nat) : Prop :=
  (∀ o, o ∉ objs → lookup t.lists o = lookup s.lists o) ∧
  (∀ a, a ∉ A → lookup s.nodes a ≠ none → lookup t.nodes a = lookup s.nodes a)

/-- The value of `node_ptr` in `Assign` once the cells `cs` have been appended to the list
`tmp`: it addresses the link of the last node, or of the sentinel when there is none. -/
def lastPtr {α : Type} (tmp : Nat) (cs : List (Nat × α)) : NodePtr :=
  match cs.getLast? with
  | none => .head tmp
  | some c => .heap c.1

/-- The memory with the list `[1, 2]` at address `0` and the list `[1, 2, 3]` at address
`1`, both built by the initializer-list constructor. -/
def twoLists : Except Fault (State Int) := do
  let s ← construct_values 2 State.empty 0 [1, 2]
  construct_values 3 s 1 [1, 2, 3]

/-- A step from memory `s` to memory `t` that turns the cells `cs` of the list `this` into
the cells `ds`: the list owns `ds` afterwards, the step touches no other list object and
no live node outside `cs`, and every node of `ds` is one of `cs` or was not live before. -/
def Step {α : Type} (s t : State α) (this : Nat) (cs ds : List (Nat × α)) : Prop :=
  Owns t this ds ∧ Frame s t [this] (addrs cs) ∧
    ∀ a ∈ addrs ds, a ∈ addrs cs ∨ lookup s.nodes a = none

/-- The memory that the initializer-list constructor leaves when it builds the list
`[1, 2, 3]` at address `0` in the empty memory. -/
def exampleState : State Int :=
  match construct_values 3 State.empty 0 [1, 2, 3] with
  | .ok s => s
  | .error _ => State.empty

/-- The memory that `twoLists` leaves: `[1, 2]` at address `0`, `[1, 2, 3]` at address `1`. -/
def twoListsState : State Int :=
  match twoLists with
  | .ok s => s
  | .error _ => State.empty

/-- Two memories with the same contents: every node address and every list address holds
the same thing in both. -/
def SameContents {α : Type} (s t : State α) : Prop :=
  (∀ a, lookup t.nodes a = lookup s.nodes a) ∧ (∀ o, lookup t.lists o = lookup s.lists o)

/-- The scenario of the specification, first stage: start from an empty list of integers
(at address `0`), then `PushFront(3)`, `PushFront(2)`, `PushFront(1)`. -/
def scenarioPushed : Except Fault (State Int) := do
  let s0 := construct State.empty 0
  let s1 ← PushFront s0 0 3
  let s2 ← PushFront s1 0 2
  PushFront s2 0 1

/-- The scenario, second stage: then `InsertAfter(begin(), 99)`. -/
def scenarioInserted : Except Fault (State Int) := do
  let s ← scenarioPushed
  let b ← begin_ s 0
  let (_, t) ← InsertAfter s 0 b 99
  pure t

/-- The scenario, third stage: then `EraseAfter(begin())`. -/
def scenarioErased : Except Fault (State Int) := do
  let s ← scenarioInserted
  let b ← begin_ s 0
  let (_, t) ← EraseAfter s 0 b
  pure t

/-- The scenario, last stage: then `PopFront()`. -/
def scenarioPopped : Except Fault (State Int) := do
  let s ← scenarioErased
  PopFront s 0

/-- A well-behaved input range for `Assign`, run from memory `s`.  `Good f vs` says that
the range from the iterator `f` up to `to_` delivers the values `vs`: when `vs` is empty
`f` equals `to_`; otherwise `f` differs from `to_`, dereferences to the first value and
increments to an iterator that delivers the rest.  Reading the range may depend on the
nodes at the addresses `B`, which are live in `s`, and on nothing else of the memory. -/
def RangeSpec {α I : Type} (ops : InputIterator α I) (to_ : I) (B : List Nat) (s : State α)
    (Good : I → List α → Prop) : Prop :=
  (∀ f, Good f [] → ops.ne f to_ = false) ∧
  (∀ (t : State α) (f : I) (v : α) (vs : List α),
    (∀ a ∈ B, lookup t.nodes a = lookup s.nodes a) → Good f (v :: vs) →
    ops.ne f to_ = true ∧ ops.deref t f = .ok v ∧ ∃ f1, ops.inc t f = .ok f1 ∧ Good f1 vs) ∧
  (∀ a ∈ B, lookup s.nodes a ≠ none)

/-- The array iterator `f` points into the backing array `vs` of an initializer list and
the values from it to the end of the array are `ws`. -/
def arrayDelivers {α : Type} (vs : List α) (f : ArrayIterator α) (ws : List α) : Prop :=
  f.arr = vs ∧ f.idx + ws.length = vs.length ∧ vs.drop f.idx = ws

/-- The invariant of a whole memory: every live list object is well formed, and no two
list objects share a node. -/
def WellFormed {α : Type} (s : State α) : Prop :=
  (∀ o l, lookup s.lists o = some l → ∃ cs, Owns s o cs) ∧
  (∀ o1 o2 c1 c2, o1 ≠ o2 → Owns s o1 c1 → Owns s o2 c2 → ∀ a ∈ addrs c1, a ∉ addrs c2)

/-- The memories that a program reaches from the empty memory: it constructs lists in
unused storage (default, initializer-list and copy constructor), calls `PushFront`,
`PopFront`, `InsertAfter`, `EraseAfter` and `Clear` (the five kinds of `Mutation`, with
positions of the list itself), `swap` and the copy assignment on live lists, and destroys
lists; every call has returned. -/
inductive Reachable {α : Type} : State α → Prop where
  | empty : Reachable State.empty
  | construct (s : State α) (this : Nat) :
    Reachable s → lookup s.lists this = none → Reachable (construct s this)
  | construct_values (fuel : Nat) (s : State α) (this : Nat) (vs : List α) (t : State α) :
    Reachable s → lookup s.lists this = none →
    construct_values fuel s this vs = .ok t → Reachable t
  | construct_copy (fuel : Nat) (s : State α) (this other : Nat) (t : State α) :
    Reachable s → lookup s.lists this = none → lookup s.lists other ≠ none →
    construct_copy fuel s this other = .ok t → Reachable t
  | mutation (s : State α) (this : Nat) (m : Mutation α) (t : State α) :
    Reachable s → m.run s this = .ok t → Reachable t
  | swap (s : State α) (this other : Nat) (t : State α) :
    Reachable s → swap s this other = .ok t → Reachable t
  | copy_assign (fuel : Nat) (s : State α) (this rhs : Nat) (t : State α) :
    Reachable s → lookup s.lists this ≠ none → lookup s.lists rhs ≠ none →
    copy_assign fuel s this rhs = .ok t → Reachable t
  | destruct (fuel : Nat) (s : State α) (this : Nat) (t : State α) :
    Reachable s → destruct fuel s this = .ok t → Reachable t

/-! ## Lemmas on stores -/

theorem lookup_lt_fresh {β : Type} (m : List (Nat × β)) (a : Nat) (v : β)
    (h : lookup m a = some v) : a < fresh m := by
  induction m with
  | nil => simp [lookup] at h
  | cons kv m ih =>
    obtain ⟨k, w⟩ := kv
    simp only [lookup] at h
    simp only [fresh]
    by_cases hk : k = a
    · subst hk; omega
    · simp only [hk, if_false] at h
      have := ih h
      omega

theorem lookup_fresh {β : Type} (m : List (Nat × β)) : lookup m (fresh m) = none := by
  cases h : lookup m (fresh m) with
  | none => rfl
  | some v => exact absurd (lookup_lt_fresh m _ v h) (lt_irrefl _)

theorem lookup_remove_same {β : Type} (m : List (Nat × β)) (a : Nat) :
    lookup (remove m a) a = none := by
  induction m with
  | nil => rfl
  | cons kv m ih =>
    obtain ⟨k, w⟩ := kv
    by_cases hk : k = a
    · simp [remove, hk, ih]
    · simp [remove, hk, lookup, ih]

theorem lookup_remove_other {β : Type} (m : List (Nat × β)) (a b : Nat) (h : a ≠ b) :
    lookup (remove m a) b = lookup m b := by
  induction m with
  | nil => rfl
  | cons kv m ih =>
    obtain ⟨k, w⟩ := kv
    by_cases hk : k = a
    · have hkb : k ≠ b := by rw [hk]; exact h
      simp [remove, hk, lookup, ih, h]
    · by_cases hkb : k = b
      · subst hkb
        simp [remove, hk, lookup]
      · simp [remove, hk, lookup, hkb, ih]

@[simp] theorem ok_bind {β γ : Type} (a : β) (f : β → Except Fault γ) :
    (Except.ok a >>= f) = f a := rfl

@[simp] theorem error_bind {β γ : Type} (e : Fault) (f : β → Except Fault γ) :
    ((Except.error e : Except Fault β) >>= f) = Except.error e := rfl

@[simp] theorem pure_eq_ok {β : Type} (a : β) : (pure a : Except Fault β) = Except.ok a := rfl

/-! ## Lemmas on chains -/

theorem Seg_frame {α : Type} (s t : State α) (cs : List (Nat × α)) :
    ∀ (p q : NodePtr), (∀ a ∈ addrs cs, lookup t.nodes a = lookup s.nodes a) →
      Seg s p cs q → Seg t p cs q := by
  induction cs with
  | nil => intro p q _ h; exact h
  | cons c cs ih =>
    obtain ⟨a, x⟩ := c
    intro p q hfr h
    obtain ⟨hp, nx, hn, hrest⟩ := h
    refine ⟨hp, nx, ?_, ih nx q ?_ hrest⟩
    · rw [hfr a (by simp [addrs])]; exact hn
    · intro b hb
      exact hfr b (by simp [addrs] at hb ⊢; exact Or.inr hb)

theorem Seg_append {α : Type} (s : State α) (c1 c2 : List (Nat × α)) :
    ∀ (p q : NodePtr), Seg s p (c1 ++ c2) q ↔ ∃ m, Seg s p c1 m ∧ Seg s m c2 q := by
  induction c1 with
  | nil =>
    intro p q
    constructor
    · intro h; exact ⟨p, rfl, h⟩
    · rintro ⟨m, hm, h⟩
      have : p = m := hm
      subst this; exact h
  | cons c c1 ih =>
    obtain ⟨a, x⟩ := c
    intro p q
    constructor
    · rintro ⟨hp, nx, hn, hrest⟩
      obtain ⟨m, h1, h2⟩ := (ih nx q).1 hrest
      exact ⟨m, ⟨hp, nx, hn, h1⟩, h2⟩
    · rintro ⟨m, ⟨hp, nx, hn, h1⟩, h2⟩
      exact ⟨hp, nx, hn, (ih nx q).2 ⟨m, h1, h2⟩⟩

/-- A chain that ends with a null link is determined by its first pointer. -/
theorem Seg_null_unique {α : Type} (s : State α) (cs : List (Nat × α)) :
    ∀ (p : NodePtr) (ds : List (Nat × α)), Seg s p cs .null → Seg s p ds .null → cs = ds := by
  induction cs with
  | nil =>
    intro p ds h1 h2
    have hp : p = .null := h1
    subst hp
    cases ds with
    | nil => rfl
    | cons d ds => obtain ⟨a, x⟩ := d; exact absurd h2.1 (by simp)
  | cons c cs ih =>
    obtain ⟨a, x⟩ := c
    intro p ds h1 h2
    obtain ⟨hp, nx, hn, hrest⟩ := h1
    subst hp
    cases ds with
    | nil => exact absurd h2 (by simp [Seg])
    | cons d ds =>
      obtain ⟨b, y⟩ := d
      obtain ⟨hp2, ny, hn2, hrest2⟩ := h2
      have hab : a = b := by injection hp2
      subst hab
      rw [hn] at hn2
      have hnode : (⟨x, nx⟩ : Node α) = ⟨y, ny⟩ := Option.some.inj hn2
      have hx : x = y := congrArg Node.value hnode
      have hnx : nx = ny := congrArg Node.next_node hnode
      subst hx; subst hnx
      rw [ih nx ds hrest hrest2]

/-- No node occurs twice in a chain that ends with a null link. -/
theorem Seg_null_nodup {α : Type} (s : State α) (cs : List (Nat × α)) :
    ∀ (p : NodePtr), Seg s p cs .null → (addrs cs).Nodup := by
  induction cs with
  | nil => intro p _; simp [addrs]
  | cons c cs ih =>
    obtain ⟨a, x⟩ := c
    intro p h
    obtain ⟨hp, nx, hn, hrest⟩ := h
    have hnd := ih nx hrest
    simp only [addrs, List.map_cons, List.nodup_cons]
    refine ⟨?_, hnd⟩
    intro hmem
    obtain ⟨c, hc, hca⟩ := List.mem_map.1 hmem
    obtain ⟨pre, post, hsplit⟩ := List.append_of_mem hc
    obtain ⟨b, y⟩ := c
    simp only at hca
    subst hca
    rw [hsplit] at hrest
    obtain ⟨m, _, h2⟩ := (Seg_append s pre ((b, y) :: post) nx .null).1 hrest
    obtain ⟨_, ny, hn2, hpost⟩ := h2
    rw [hn] at hn2
    have hnode : (⟨x, nx⟩ : Node α) = ⟨y, ny⟩ := Option.some.inj hn2
    have hnx : nx = ny := congrArg Node.next_node hnode
    subst hnx
    have := Seg_null_unique s _ nx _ hpost hrest
    have hlen := congrArg List.length this
    simp at hlen
    omega

theorem readNode_of_lookup {α : Type} (s : State α) (a : Nat) (n : Node α)
    (h : lookup s.nodes a = some n) : readNode s a = .ok n := by
  simp [readNode, h]

theorem readList_of_lookup {α : Type} (s : State α) (o : Nat) (l : SingleLinkedList)
    (h : lookup s.lists o = some l) : readList s o = .ok l := by
  simp [readList, h]

theorem iterate_of_Seg {α : Type} (s : State α) (t : Nat) (cs : List (Nat × α)) :
    ∀ (fuel : Nat) (p : NodePtr), Seg s p cs .null → cs.length ≤ fuel →
      iterate s fuel ⟨p⟩ (end_ t) = .ok (values cs) := by
  induction cs with
  | nil =>
    intro fuel p h _
    have hp : p = .null := h
    subst hp
    cases fuel <;> simp [iterate, BasicIterator.ne, end_, values]
  | cons c cs ih =>
    obtain ⟨a, x⟩ := c
    intro fuel p h hlen
    obtain ⟨hp, nx, hn, hrest⟩ := h
    subst hp
    cases fuel with
    | zero => simp at hlen
    | succ fuel =>
      have hlen2 : cs.length ≤ fuel := by simp at hlen; omega
      simp [iterate, BasicIterator.ne, end_, BasicIterator.deref, getValue,
        readNode_of_lookup s a _ hn, BasicIterator.preInc, getNext]
      have := ih fuel nx hrest hlen2
      simp [end_] at this
      simp [this, values]

theorem toList_of_Owns {α : Type} (s : State α) (this : Nat) (cs : List (Nat × α))
    (fuel : Nat) (h : Owns s this cs) (hlen : cs.length ≤ fuel) :
    toList fuel s this = .ok (values cs) := by
  obtain ⟨l, hl, _, hseg⟩ := h
  simp [toList, begin_, getNext, readList_of_lookup s this l hl]
  exact iterate_of_Seg s this cs fuel _ hseg hlen

theorem GetSize_of_Owns {α : Type} (s : State α) (this : Nat) (cs : List (Nat × α))
    (h : Owns s this cs) : GetSize s this = .ok cs.length := by
  obtain ⟨l, hl, hsz, _⟩ := h
  simp [GetSize, readList_of_lookup s this l hl, hsz]

theorem Seg_live {α : Type} (s : State α) (cs : List (Nat × α)) :
    ∀ (p q : NodePtr), Seg s p cs q → ∀ a ∈ addrs cs, lookup s.nodes a ≠ none := by
  induction cs with
  | nil => intro p q _ a ha; simp [addrs] at ha
  | cons c cs ih =>
    obtain ⟨b, x⟩ := c
    intro p q h a ha
    obtain ⟨_, nx, hn, hrest⟩ := h
    simp [addrs] at ha
    rcases ha with ha | ha
    · subst ha; simp [hn]
    · exact ih nx q hrest a (by simpa [addrs] using ha)

theorem PushFront_eval {α : Type} (s : State α) (this : Nat) (l : SingleLinkedList) (v : α)
    (hl : lookup s.lists this = some l) :
    PushFront s this v = .ok
      ⟨(fresh s.nodes, ⟨v, l.head_next_node⟩) :: s.nodes,
       (this, ⟨.heap (fresh s.nodes), l.size_ + 1⟩) ::
         (this, ⟨.heap (fresh s.nodes), l.size_⟩) :: s.lists⟩ := by
  simp [PushFront, getNext, readList, newNode, setNext, writeNode, lookup, hl, incSize,
    writeList]

theorem fresh_ne_of_live {β : Type} (m : List (Nat × β)) (a : Nat) (h : lookup m a ≠ none) :
    fresh m ≠ a := by
  intro he; rw [← he, lookup_fresh] at h; exact h rfl

theorem PushFront_Owns {α : Type} (s : State α) (this : Nat) (cs : List (Nat × α)) (v : α)
    (h : Owns s this cs) :
    ∃ s1, PushFront s this v = .ok s1 ∧ Owns s1 this ((fresh s.nodes, v) :: cs) := by
  obtain ⟨l, hl, hsz, hseg⟩ := h
  refine ⟨_, PushFront_eval s this l v hl, ?_⟩
  refine ⟨⟨.heap (fresh s.nodes), l.size_ + 1⟩, by simp [lookup], by simp [hsz], ?_⟩
  refine ⟨rfl, l.head_next_node, by simp [lookup], ?_⟩
  apply Seg_frame s _ cs _ _ _ hseg
  intro a ha
  have hne := fresh_ne_of_live _ a (Seg_live s cs _ _ hseg a ha)
  simp [lookup, hne]

/-! ## Lemmas on frames -/

theorem Frame_refl {α : Type} (s : State α) (objs A : List Nat) : Frame s s objs A :=
  ⟨fun _ _ => rfl, fun _ _ _ => rfl⟩

theorem Frame_trans {α : Type} (s t u : State α) (objs A B : List Nat)
    (h1 : Frame s t objs A) (h2 : Frame t u objs B) : Frame s u objs (A ++ B) := by
  refine ⟨fun o ho => ?_, fun a ha hlive => ?_⟩
  · rw [h2.1 o ho, h1.1 o ho]
  · have ha1 : a ∉ A := fun h => ha (List.mem_append_left _ h)
    have ha2 : a ∉ B := fun h => ha (List.mem_append_right _ h)
    have e1 := h1.2 a ha1 hlive
    rw [h2.2 a ha2 (by rw [e1]; exact hlive), e1]

theorem Frame_mono {α : Type} (s t : State α) (objs objs2 A B : List Nat)
    (h : Frame s t objs A) (ho : ∀ o ∈ objs, o ∈ objs2) (hA : ∀ a ∈ A, a ∈ B) :
    Frame s t objs2 B :=
  ⟨fun o hn => h.1 o (fun hm => hn (ho o hm)), fun a hn hl => h.2 a (fun hm => hn (hA a hm)) hl⟩

theorem Seg_frame_of_Frame {α : Type} (s t : State α) (objs A : List Nat) (cs : List (Nat × α))
    (p q : NodePtr) (hf : Frame s t objs A) (hd : ∀ a ∈ addrs cs, a ∉ A)
    (h : Seg s p cs q) : Seg t p cs q :=
  Seg_frame s t cs p q (fun a ha => hf.2 a (hd a ha) (Seg_live s cs p q h a ha)) h

/-- A list that a step does not touch is still the same list afterwards. -/
theorem Owns_frame {α : Type} (s t : State α) (objs A : List Nat) (o : Nat)
    (cs : List (Nat × α)) (hf : Frame s t objs A) (ho : o ∉ objs)
    (hd : ∀ a ∈ addrs cs, a ∉ A) (h : Owns s o cs) : Owns t o cs := by
  obtain ⟨l, hl, hsz, hseg⟩ := h
  exact ⟨l, by rw [hf.1 o ho]; exact hl, hsz, Seg_frame_of_Frame s t objs A cs _ _ hf hd hseg⟩

/-! ## Evaluation of the member functions -/

theorem PopFront_eval {α : Type} (s : State α) (this : Nat) (l : SingleLinkedList) (a : Nat)
    (n : Node α) (hl : lookup s.lists this = some l) (hsz : l.size_ ≠ 0)
    (hh : l.head_next_node = .heap a) (hn : lookup s.nodes a = some n) :
    PopFront s this = .ok
      ⟨remove s.nodes a,
       (this, ⟨n.next_node, l.size_ - 1⟩) :: (this, ⟨n.next_node, l.size_⟩) :: s.lists⟩ := by
  simp [PopFront, IsEmpty, getNext, readList, readNode, deleteNode, setNext, writeNode, lookup,
    hl, hsz, hh, hn, decSize, writeList]

theorem InsertAfter_eval_head {α : Type} (s : State α) (this : Nat) (l : SingleLinkedList)
    (v : α) (hl : lookup s.lists this = some l) :
    InsertAfter s this (before_begin this) v = .ok
      (⟨.heap (fresh s.nodes)⟩,
       ⟨(fresh s.nodes, ⟨v, l.head_next_node⟩) :: s.nodes,
        (this, ⟨.heap (fresh s.nodes), l.size_ + 1⟩) ::
          (this, ⟨.heap (fresh s.nodes), l.size_⟩) :: s.lists⟩) := by
  simp [InsertAfter, before_begin, getNext, readList, newNode, setNext, writeNode, lookup, hl,
    incSize, writeList]

theorem InsertAfter_eval_heap {α : Type} (s : State α) (this : Nat) (l : SingleLinkedList)
    (a : Nat) (n : Node α) (v : α) (hl : lookup s.lists this = some l)
    (hn : lookup s.nodes a = some n) :
    InsertAfter s this ⟨.heap a⟩ v = .ok
      (⟨.heap (fresh s.nodes)⟩,
       ⟨(a, ⟨n.value, .heap (fresh s.nodes)⟩) :: (fresh s.nodes, ⟨v, n.next_node⟩) :: s.nodes,
        (this, ⟨l.head_next_node, l.size_ + 1⟩) :: s.lists⟩) := by
  have hne : fresh s.nodes ≠ a := fresh_ne_of_live _ a (by simp [hn])
  simp [InsertAfter, getNext, readList, readNode, newNode, setNext, writeNode, lookup, hl, hn,
    hne, incSize, writeList]

theorem EraseAfter_eval_head {α : Type} (s : State α) (this : Nat) (l : SingleLinkedList)
    (a : Nat) (n : Node α) (hl : lookup s.lists this = some l)
    (hh : l.head_next_node = .heap a) (hn : lookup s.nodes a = some n) :
    EraseAfter s this (before_begin this) = .ok
      (⟨n.next_node⟩,
       ⟨remove s.nodes a,
        (this, ⟨n.next_node, l.size_ - 1⟩) :: (this, ⟨n.next_node, l.size_⟩) :: s.lists⟩) := by
  simp [EraseAfter, before_begin, getNext, readList, readNode, deleteNode, setNext, writeNode,
    lookup, hl, hh, hn, decSize, writeList]

theorem EraseAfter_eval_heap {α : Type} (s : State α) (this : Nat) (l : SingleLinkedList)
    (a b : Nat) (n m : Node α) (hl : lookup s.lists this = some l)
    (hn : lookup s.nodes a = some n) (hnb : n.next_node = .heap b)
    (hm : lookup s.nodes b = some m) (hab : b ≠ a) :
    EraseAfter s this ⟨.heap a⟩ = .ok
      (⟨m.next_node⟩,
       ⟨(a, ⟨n.value, m.next_node⟩) :: remove s.nodes b,
        (this, ⟨l.head_next_node, l.size_ - 1⟩) :: s.lists⟩) := by
  simp [EraseAfter, getNext, readList, readNode, deleteNode, setNext, writeNode,
    lookup, hl, hn, hnb, hm, decSize, writeList, lookup_remove_other _ b a hab]

/-! ## One call of a member function on a well-formed list -/

theorem PushFront_step {α : Type} (s : State α) (this : Nat) (cs : List (Nat × α)) (v : α)
    (h : Owns s this cs) :
    ∃ t, PushFront s this v = .ok t ∧ Step s t this cs ((fresh s.nodes, v) :: cs) := by
  obtain ⟨t, ht, ho⟩ := PushFront_Owns s this cs v h
  obtain ⟨l, hl, _, _⟩ := h
  have hev := PushFront_eval s this l v hl
  rw [hev] at ht
  have hts : t = _ := (Except.ok.inj ht).symm
  refine ⟨t, by rw [hev, hts], ho, ⟨?_, ?_⟩, ?_⟩
  · intro o ho
    have : this ≠ o := fun e => ho (by simp [e])
    simp [hts, lookup, this]
  · intro a _ hlive
    simp [hts, lookup, fresh_ne_of_live _ a hlive]
  · intro a ha
    simp only [addrs, List.map_cons, List.mem_cons] at ha
    rcases ha with ha | ha
    · right; rw [ha]; exact lookup_fresh _
    · left; exact ha

theorem nodup_cons_addrs {α : Type} (a : Nat) (x : α) (cs : List (Nat × α))
    (h : (addrs ((a, x) :: cs)).Nodup) : a ∉ addrs cs ∧ (addrs cs).Nodup := by
  simpa [addrs] using h

theorem PopFront_step {α : Type} (s : State α) (this : Nat) (a : Nat) (x : α)
    (cs : List (Nat × α)) (h : Owns s this ((a, x) :: cs)) :
    ∃ t, PopFront s this = .ok t ∧ Step s t this ((a, x) :: cs) cs := by
  obtain ⟨l, hl, hsz, hseg⟩ := h
  have hnd := nodup_cons_addrs a x cs (Seg_null_nodup s _ _ hseg)
  obtain ⟨hh, nx, hn, hrest⟩ := hseg
  have hsz0 : l.size_ ≠ 0 := by rw [hsz]; simp
  refine ⟨_, PopFront_eval s this l a _ hl hsz0 hh hn, ?_, ⟨?_, ?_⟩, ?_⟩
  · refine ⟨⟨nx, l.size_ - 1⟩, by simp [lookup], by simp [hsz], ?_⟩
    apply Seg_frame s _ cs _ _ _ hrest
    intro b hb
    have hne : a ≠ b := fun e => hnd.1 (e ▸ hb)
    simp [lookup_remove_other _ a b hne]
  · intro o ho
    have : this ≠ o := fun e => ho (by simp [e])
    simp [lookup, this]
  · intro b hb _
    have hne : a ≠ b := fun e => hb (by simp [addrs, e])
    simp [lookup_remove_other _ a b hne]
  · intro b hb
    left; simp [addrs] at hb ⊢; exact Or.inr hb

theorem PopFront_empty {α : Type} (s : State α) (this : Nat) (h : Owns s this ([] : List (Nat × α))) :
    PopFront s this = .error .assertion := by
  obtain ⟨l, hl, hsz, _⟩ := h
  simp at hsz
  simp [PopFront, IsEmpty, readList, hl, hsz]

theorem split_at_index {β : Type} (cs : List β) (k : Nat) (h : k < cs.length) :
    ∃ pre c post, cs = pre ++ c :: post ∧ pre.length = k := by
  refine ⟨cs.take k, cs[k], cs.drop (k + 1), ?_, ?_⟩
  · rw [← List.drop_eq_getElem_cons h, List.take_append_drop]
  · simp; omega

theorem advance_of_Seg {α : Type} (s : State α) (pre : List (Nat × α)) :
    ∀ (p q : NodePtr), Seg s p pre q → advance s pre.length ⟨p⟩ = .ok ⟨q⟩ := by
  induction pre with
  | nil => intro p q h; have : p = q := h; subst this; rfl
  | cons c pre ih =>
    obtain ⟨a, x⟩ := c
    intro p q h
    obtain ⟨hp, nx, hn, hrest⟩ := h
    subst hp
    simp [advance, BasicIterator.preInc, getNext, readNode, hn, ih nx q hrest]

/-- Past the last element, `advance` reaches `end()` after exactly `size` increments and
trips the assertion of `operator++` later. -/
theorem advance_past {α : Type} (s : State α) (cs : List (Nat × α)) :
    ∀ (p : NodePtr) (k : Nat), Seg s p cs .null → cs.length ≤ k →
      advance s k ⟨p⟩ = if k = cs.length then .ok ⟨.null⟩ else .error .assertion := by
  induction cs with
  | nil =>
    intro p k h _
    have : p = .null := h
    subst this
    cases k with
    | zero => rfl
    | succ k => simp [advance, BasicIterator.preInc]
  | cons c cs ih =>
    obtain ⟨a, x⟩ := c
    intro p k h hk
    obtain ⟨hp, nx, hn, hrest⟩ := h
    subst hp
    cases k with
    | zero => simp at hk
    | succ k =>
      have hk2 : cs.length ≤ k := by simp at hk; omega
      simp [advance, BasicIterator.preInc, getNext, readNode, hn, ih nx k hrest hk2]

theorem iterator_element {α : Type} (s : State α) (this : Nat) (pre post : List (Nat × α))
    (a : Nat) (x : α) (h : Owns s this (pre ++ (a, x) :: post)) :
    Position.iterator s this (.element pre.length) = .ok ⟨.heap a⟩ := by
  obtain ⟨l, hl, _, hseg⟩ := h
  obtain ⟨m, h1, h2⟩ := (Seg_append s pre _ _ _).1 hseg
  have hm : m = .heap a := h2.1
  subst hm
  simp [Position.iterator, begin_, getNext, readList, hl, advance_of_Seg s pre _ _ h1]

theorem iterator_past {α : Type} (s : State α) (this : Nat) (cs : List (Nat × α)) (k : Nat)
    (h : Owns s this cs) (hk : cs.length ≤ k) :
    Position.iterator s this (.element k) =
      if k = cs.length then .ok ⟨.null⟩ else .error .assertion := by
  obtain ⟨l, hl, _, hseg⟩ := h
  simp [Position.iterator, begin_, getNext, readList, hl, advance_past s cs _ k hseg hk]

theorem nodup_split {α : Type} (pre post : List (Nat × α)) (a : Nat) (x : α)
    (h : (addrs (pre ++ (a, x) :: post)).Nodup) : a ∉ addrs pre ∧ a ∉ addrs post := by
  simp only [addrs, List.map_append, List.map_cons] at h
  have h1 := List.nodup_append.1 h
  obtain ⟨_, h2, h3⟩ := h1
  simp only [List.nodup_cons] at h2
  refine ⟨fun hm => ?_, h2.1⟩
  exact h3 hm (List.mem_cons_self _ _)

theorem Seg_null_iff {α : Type} (s : State α) (p : NodePtr) (cs : List (Nat × α))
    (h : Seg s p cs .null) : p = .null ↔ cs = [] := by
  cases cs with
  | nil => exact ⟨fun _ => rfl, fun _ => h⟩
  | cons c cs =>
    obtain ⟨a, x⟩ := c
    obtain ⟨hp, _⟩ := h
    simp [hp]

theorem InsertAfter_step_head {α : Type} (s : State α) (this : Nat) (cs : List (Nat × α))
    (v : α) (h : Owns s this cs) :
    ∃ t, InsertAfter s this (before_begin this) v = .ok (⟨.heap (fresh s.nodes)⟩, t) ∧
      PushFront s this v = .ok t ∧
      Step s t this cs ((fresh s.nodes, v) :: cs) ∧
      (before_begin this).preInc t = .ok ⟨.heap (fresh s.nodes)⟩ := by
  obtain ⟨t, ht, hstep⟩ := PushFront_step s this cs v h
  obtain ⟨l, hl, _, _⟩ := h
  have hev := PushFront_eval s this l v hl
  rw [hev] at ht
  have hts : t = _ := (Except.ok.inj ht).symm
  refine ⟨t, ?_, by rw [hev, hts], hstep, ?_⟩
  · rw [InsertAfter_eval_head s this l v hl, hts]
  · simp [hts, BasicIterator.preInc, before_begin, getNext, readList, lookup]

theorem InsertAfter_step_heap {α : Type} (s : State α) (this : Nat)
    (pre post : List (Nat × α)) (a : Nat) (x v : α)
    (h : Owns s this (pre ++ (a, x) :: post)) :
    ∃ t, InsertAfter s this ⟨.heap a⟩ v = .ok (⟨.heap (fresh s.nodes)⟩, t) ∧
      Step s t this (pre ++ (a, x) :: post) (pre ++ (a, x) :: (fresh s.nodes, v) :: post) ∧
      (⟨.heap a⟩ : BasicIterator).preInc t = .ok ⟨.heap (fresh s.nodes)⟩ := by
  obtain ⟨l, hl, hsz, hseg⟩ := h
  have hnd := nodup_split pre post a x (Seg_null_nodup s _ _ hseg)
  have hlive := Seg_live s _ _ _ hseg
  obtain ⟨m, h1, h2⟩ := (Seg_append s pre _ _ _).1 hseg
  obtain ⟨hm, nx, hn, hpost⟩ := h2
  subst hm
  have hfa : fresh s.nodes ≠ a := fresh_ne_of_live _ a (by simp [hn])
  have hev := InsertAfter_eval_heap s this l a ⟨x, nx⟩ v hl hn
  simp only at hev
  have key : ∀ c, c ≠ a → lookup s.nodes c ≠ none →
      lookup ((a, (⟨x, .heap (fresh s.nodes)⟩ : Node α)) ::
        (fresh s.nodes, ⟨v, nx⟩) :: s.nodes) c = lookup s.nodes c := by
    intro c hca hc
    have h1 : a ≠ c := fun e => hca e.symm
    simp [lookup, h1, fresh_ne_of_live _ c hc]
  refine ⟨_, hev, ⟨?_, ⟨?_, ?_⟩, ?_⟩, ?_⟩
  · refine ⟨⟨l.head_next_node, l.size_ + 1⟩, by simp [lookup], by simp [hsz]; omega, ?_⟩
    refine (Seg_append _ pre _ _ _).2 ⟨.heap a, ?_, rfl, .heap (fresh s.nodes), by simp [lookup],
      rfl, nx, by simp [lookup, Ne.symm hfa], ?_⟩
    · apply Seg_frame s _ pre _ _ _ h1
      intro c hc
      exact key c (fun e => hnd.1 (e ▸ hc)) (hlive c (by simp [addrs] at hc ⊢; tauto))
    · apply Seg_frame s _ post _ _ _ hpost
      intro c hc
      exact key c (fun e => hnd.2 (e ▸ hc)) (hlive c (by simp [addrs] at hc ⊢; tauto))
  · intro o ho
    have : this ≠ o := fun e => ho (by simp [e])
    simp [lookup, this]
  · intro c hc hcl
    exact key c (fun e => hc (by simp [addrs, e])) hcl
  · intro c hc
    simp only [addrs, List.map_append, List.map_cons, List.mem_append, List.mem_cons] at hc ⊢
    rcases hc with hc | hc | hc | hc
    · exact Or.inl (Or.inl hc)
    · exact Or.inl (Or.inr (Or.inl hc))
    · right; rw [hc]; exact lookup_fresh _
    · exact Or.inl (Or.inr (Or.inr hc))
  · simp [BasicIterator.preInc, getNext, readNode, lookup]

theorem EraseAfter_step_head {α : Type} (s : State α) (this : Nat) (a : Nat) (x : α)
    (cs : List (Nat × α)) (h : Owns s this ((a, x) :: cs)) :
    ∃ r t, EraseAfter s this (before_begin this) = .ok (r, t) ∧
      PopFront s this = .ok t ∧
      Step s t this ((a, x) :: cs) cs ∧ Seg t r.node_ cs .null ∧
      (before_begin this).preInc t = .ok r ∧ begin_ t this = .ok r := by
  obtain ⟨t, ht, hstep⟩ := PopFront_step s this a x cs h
  obtain ⟨l, hl, hsz, hseg⟩ := h
  obtain ⟨hh, nx, hn, hrest⟩ := hseg
  have hsz0 : l.size_ ≠ 0 := by rw [hsz]; simp
  have hev := PopFront_eval s this l a _ hl hsz0 hh hn
  rw [hev] at ht
  have hts : t = _ := (Except.ok.inj ht).symm
  refine ⟨⟨nx⟩, t, ?_, by rw [hev, hts], hstep, ?_, ?_, ?_⟩
  · rw [EraseAfter_eval_head s this l a _ hl hh hn, hts]
  · obtain ⟨l2, hl2, _, hseg2⟩ := hstep.1
    rw [hts] at hl2
    simp [lookup] at hl2
    rw [← hl2] at hseg2
    exact hseg2
  · simp [hts, BasicIterator.preInc, before_begin, getNext, readList, lookup]
  · simp [hts, begin_, getNext, readList, lookup]

theorem EraseAfter_step_heap {α : Type} (s : State α) (this : Nat)
    (pre post : List (Nat × α)) (a b : Nat) (x y : α)
    (h : Owns s this (pre ++ (a, x) :: (b, y) :: post)) :
    ∃ r t, EraseAfter s this ⟨.heap a⟩ = .ok (r, t) ∧
      Step s t this (pre ++ (a, x) :: (b, y) :: post) (pre ++ (a, x) :: post) ∧
      Seg t r.node_ post .null ∧
      (⟨.heap a⟩ : BasicIterator).preInc t = .ok r := by
  obtain ⟨l, hl, hsz, hseg⟩ := h
  have hnd := Seg_null_nodup s _ _ hseg
  have hnda := nodup_split pre ((b, y) :: post) a x hnd
  have hndb := nodup_split (pre ++ [(a, x)]) post b y (by simpa using hnd)
  have hlive := Seg_live s _ _ _ hseg
  obtain ⟨m, h1, h2⟩ := (Seg_append s pre _ _ _).1 hseg
  obtain ⟨hm, nx, hn, h3⟩ := h2
  obtain ⟨hnx, ny, hnb, hpost⟩ := h3
  subst hm; subst hnx
  have hba : b ≠ a := by
    intro e; apply hnda.2; simp [addrs, e]
  have hev := EraseAfter_eval_heap s this l a b ⟨x, .heap b⟩ ⟨y, ny⟩ hl hn rfl hnb hba
  simp only at hev
  have key : ∀ c, c ≠ a → c ≠ b →
      lookup ((a, (⟨x, ny⟩ : Node α)) :: remove s.nodes b) c = lookup s.nodes c := by
    intro c hca hcb
    have h1 : a ≠ c := fun e => hca e.symm
    simp [lookup, h1, lookup_remove_other _ b c (Ne.symm hcb)]
  have hpre : ∀ c ∈ addrs pre, c ≠ a ∧ c ≠ b := by
    intro c hc
    refine ⟨fun e => hnda.1 (e ▸ hc), fun e => hndb.1 ?_⟩
    rw [← e]; simp [addrs] at hc ⊢; exact Or.inl hc
  have hpst : ∀ c ∈ addrs post, c ≠ a ∧ c ≠ b := by
    intro c hc
    refine ⟨fun e => hnda.2 ?_, fun e => hndb.2 (e ▸ hc)⟩
    rw [← e]; simp [addrs] at hc ⊢; exact Or.inr hc
  have hsegt : Seg ⟨(a, (⟨x, ny⟩ : Node α)) :: remove s.nodes b,
      (this, ⟨l.head_next_node, l.size_ - 1⟩) :: s.lists⟩ ny post .null := by
    apply Seg_frame s _ post _ _ _ hpost
    intro c hc
    exact key c (hpst c hc).1 (hpst c hc).2
  refine ⟨⟨ny⟩, _, hev, ⟨?_, ⟨?_, ?_⟩, ?_⟩, hsegt, ?_⟩
  · refine ⟨⟨l.head_next_node, l.size_ - 1⟩, by simp [lookup], by simp [hsz], ?_⟩
    refine (Seg_append _ pre _ _ _).2 ⟨.heap a, ?_, rfl, ny, by simp [lookup], hsegt⟩
    apply Seg_frame s _ pre _ _ _ h1
    intro c hc
    exact key c (hpre c hc).1 (hpre c hc).2
  · intro o ho
    have : this ≠ o := fun e => ho (by simp [e])
    simp [lookup, this]
  · intro c hc _
    exact key c (fun e => hc (by simp [addrs, e])) (fun e => hc (by simp [addrs, e]))
  · intro c hc
    left
    simp only [addrs, List.map_append, List.map_cons, List.mem_append, List.mem_cons] at hc ⊢
    tauto
  · simp [BasicIterator.preInc, getNext, readNode, lookup]

theorem EraseAfter_head_empty {α : Type} (s : State α) (this : Nat)
    (h : Owns s this ([] : List (Nat × α))) :
    EraseAfter s this (before_begin this) = .error .assertion := by
  obtain ⟨l, hl, _, hseg⟩ := h
  have hh : l.head_next_node = .null := hseg
  simp [EraseAfter, before_begin, getNext, readList, hl, hh]

theorem EraseAfter_last {α : Type} (s : State α) (this : Nat) (pre : List (Nat × α))
    (a : Nat) (x : α) (h : Owns s this (pre ++ [(a, x)])) :
    EraseAfter s this ⟨.heap a⟩ = .error .assertion := by
  obtain ⟨l, hl, _, hseg⟩ := h
  obtain ⟨m, _, h2⟩ := (Seg_append s pre _ _ _).1 hseg
  obtain ⟨_, nx, hn, hnull⟩ := h2
  have hnx : nx = .null := hnull
  subst hnx
  simp [EraseAfter, getNext, readNode, hn]

theorem Step_trans {α : Type} (s t u : State α) (this : Nat) (cs ds es : List (Nat × α))
    (h1 : Step s t this cs ds) (h2 : Step t u this ds es) : Step s u this cs es := by
  obtain ⟨_, f1, n1⟩ := h1
  obtain ⟨o2, f2, n2⟩ := h2
  have keep : ∀ a, a ∉ addrs cs → lookup s.nodes a ≠ none →
      lookup t.nodes a = lookup s.nodes a ∧ a ∉ addrs ds := by
    intro a ha hl
    refine ⟨f1.2 a ha hl, fun hd => ?_⟩
    rcases n1 a hd with h | h
    · exact ha h
    · exact hl h
  refine ⟨o2, ⟨fun o ho => ?_, fun a ha hl => ?_⟩, fun a ha => ?_⟩
  · rw [f2.1 o ho, f1.1 o ho]
  · obtain ⟨e1, hd⟩ := keep a ha hl
    rw [f2.2 a hd (by rw [e1]; exact hl), e1]
  · by_cases hc : a ∈ addrs cs
    · exact Or.inl hc
    · right
      by_contra hl
      obtain ⟨e1, hd⟩ := keep a hc hl
      rcases n2 a ha with h | h
      · exact hd h
      · rw [e1] at h; exact hl h

theorem Step_refl {α : Type} (s : State α) (this : Nat) (cs : List (Nat × α))
    (h : Owns s this cs) : Step s s this cs cs :=
  ⟨h, Frame_refl s _ _, fun _ ha => Or.inl ha⟩

/-- A list other than the one a step works on, and sharing no node with it, is untouched
by the step and shares no node with the result. -/
theorem Step_other {α : Type} (s t : State α) (this o : Nat) (cs ds es : List (Nat × α))
    (h : Step s t this cs ds) (ho : o ≠ this) (hown : Owns s o es)
    (hd : ∀ a ∈ addrs es, a ∉ addrs cs) :
    Owns t o es ∧ ∀ a ∈ addrs es, a ∉ addrs ds := by
  refine ⟨Owns_frame s t [this] (addrs cs) o es h.2.1 (by simpa using ho) hd hown, ?_⟩
  intro a ha hds
  obtain ⟨l, _, _, hseg⟩ := hown
  rcases h.2.2 a hds with h1 | h1
  · exact hd a ha h1
  · exact Seg_live s es _ _ hseg a ha h1

theorem Clear_loop_spec {α : Type} (this : Nat) (cs : List (Nat × α)) :
    ∀ (fuel : Nat) (s : State α) (l : SingleLinkedList), lookup s.lists this = some l →
      Seg s l.head_next_node cs .null →
      (cs.length ≤ fuel → ∃ t, Clear.loop this fuel s = .ok t ∧
        lookup t.lists this = some ⟨.null, l.size_⟩ ∧ Frame s t [this] (addrs cs)) ∧
      (fuel < cs.length → Clear.loop this fuel s = .error .outOfFuel) := by
  induction cs with
  | nil =>
    intro fuel s l hl hseg
    have hh : l.head_next_node = .null := hseg
    have hs : Clear.loop this fuel s = .ok s := by
      cases fuel <;> simp [Clear.loop, getNext, readList, hl, hh]
    refine ⟨fun _ => ⟨s, hs, ?_, Frame_refl s _ _⟩, fun h => by simp at h⟩
    rw [hl, ← hh]
  | cons c cs ih =>
    obtain ⟨a, x⟩ := c
    intro fuel s l hl hseg
    have hnd := nodup_cons_addrs a x cs (Seg_null_nodup s _ _ hseg)
    obtain ⟨hh, nx, hn, hrest⟩ := hseg
    cases fuel with
    | zero =>
      refine ⟨fun h => by simp at h, fun _ => ?_⟩
      simp [Clear.loop, getNext, readList, hl, hh]
    | succ fuel =>
      have hstep : Clear.loop this (fuel + 1) s =
          Clear.loop this fuel ⟨remove s.nodes a, (this, ⟨nx, l.size_⟩) :: s.lists⟩ := by
        simp [Clear.loop, getNext, readList, readNode, deleteNode, setNext, writeList, hl, hh, hn]
      have hseg2 : Seg (⟨remove s.nodes a, (this, ⟨nx, l.size_⟩) :: s.lists⟩ : State α)
          nx cs .null := by
        apply Seg_frame s _ cs _ _ _ hrest
        intro b hb
        have hne : a ≠ b := fun e => hnd.1 (e ▸ hb)
        simp [lookup_remove_other _ a b hne]
      obtain ⟨ih1, ih2⟩ := ih fuel ⟨remove s.nodes a, (this, ⟨nx, l.size_⟩) :: s.lists⟩
        ⟨nx, l.size_⟩ (by simp [lookup]) hseg2
      refine ⟨fun hlen => ?_, fun hlen => ?_⟩
      · obtain ⟨t, ht, hlt, hfr⟩ := ih1 (by simp at hlen; omega)
        refine ⟨t, by rw [hstep, ht], hlt, ⟨fun o ho => ?_, fun b hb hlive => ?_⟩⟩
        · rw [hfr.1 o ho]
          have : this ≠ o := fun e => ho (by simp [e])
          simp [lookup, this]
        · have hba : a ≠ b := fun e => hb (by simp [addrs, e])
          have hbcs : b ∉ addrs cs := fun h => hb (by simp [addrs] at h ⊢; exact Or.inr h)
          have e1 : lookup (remove s.nodes a) b = lookup s.nodes b :=
            lookup_remove_other _ a b hba
          rw [hfr.2 b hbcs (by simpa [e1] using hlive)]
          exact e1
      · rw [hstep]
        exact ih2 (by simp at hlen; omega)

theorem Clear_step {α : Type} (fuel : Nat) (s : State α) (this : Nat) (cs : List (Nat × α))
    (h : Owns s this cs) (hfuel : cs.length ≤ fuel) :
    ∃ t, Clear fuel s this = .ok t ∧ Step s t this cs [] := by
  obtain ⟨l, hl, _, hseg⟩ := h
  obtain ⟨t, ht, hlt, hfr⟩ := (Clear_loop_spec this cs fuel s l hl hseg).1 hfuel
  refine ⟨writeList t this ⟨.null, 0⟩, by simp [Clear, ht, readList, hlt], ?_, ⟨?_, ?_⟩, ?_⟩
  · exact ⟨⟨.null, 0⟩, by simp [writeList, lookup], rfl, rfl⟩
  · intro o ho
    have : this ≠ o := fun e => ho (by simp [e])
    simp [writeList, lookup, this, hfr.1 o ho]
  · intro a ha hlive
    simpa [writeList] using hfr.2 a ha hlive
  · intro a ha; simp [addrs] at ha

theorem Clear_short {α : Type} (fuel : Nat) (s : State α) (this : Nat) (cs : List (Nat × α))
    (h : Owns s this cs) (hfuel : fuel < cs.length) :
    Clear fuel s this = .error .outOfFuel := by
  obtain ⟨l, hl, _, hseg⟩ := h
  simp [Clear, (Clear_loop_spec this cs fuel s l hl hseg).2 hfuel]

/-- The destructor of a well-formed list frees its nodes and the object. -/
theorem destruct_spec {α : Type} (fuel : Nat) (s : State α) (this : Nat) (cs : List (Nat × α))
    (h : Owns s this cs) (hfuel : cs.length ≤ fuel) :
    ∃ t, destruct fuel s this = .ok t ∧ lookup t.lists this = none ∧
      Frame s t [this] (addrs cs) := by
  obtain ⟨t, ht, hstep⟩ := Clear_step fuel s this cs h hfuel
  refine ⟨⟨t.nodes, remove t.lists this⟩, by simp [destruct, ht],
    by simp [lookup_remove_same], ⟨?_, ?_⟩⟩
  · intro o ho
    have hne : this ≠ o := fun e => ho (by simp [e])
    simp [lookup_remove_other _ this o hne, hstep.2.1.1 o ho]
  · intro a ha hlive
    simpa using hstep.2.1.2 a ha hlive

theorem swap_spec {α : Type} (s : State α) (this other : Nat) (lt lo : SingleLinkedList)
    (hne : this ≠ other) (ht : lookup s.lists this = some lt)
    (ho : lookup s.lists other = some lo) :
    ∃ t, swap s this other = .ok t ∧ t.nodes = s.nodes ∧ lookup t.lists this = some lo ∧
      lookup t.lists other = some lt ∧
      ∀ o, o ≠ this → o ≠ other → lookup t.lists o = lookup s.lists o := by
  have hne2 : other ≠ this := Ne.symm hne
  refine ⟨⟨s.nodes, (this, ⟨lo.head_next_node, lo.size_⟩) ::
    (other, ⟨lt.head_next_node, lt.size_⟩) :: (this, ⟨lo.head_next_node, lt.size_⟩) ::
    (other, ⟨lt.head_next_node, lo.size_⟩) :: s.lists⟩, ?_, ?_, ?_, ?_, ?_⟩
  · simp [swap, getNext, setNext, readList, writeList, lookup, ht, ho, hne, hne2]
  · rfl
  · simp [lookup]
  · simp [lookup, hne]
  · intro o h1 h2
    simp [lookup, Ne.symm h1, Ne.symm h2]

/-! ## Assign -/

theorem lastPtr_nil {α : Type} (tmp : Nat) : lastPtr tmp ([] : List (Nat × α)) = .head tmp := rfl

theorem lastPtr_concat {α : Type} (tmp : Nat) (pre : List (Nat × α)) (a : Nat) (x : α) :
    lastPtr tmp (pre ++ [(a, x)]) = .heap a := by
  simp [lastPtr]

theorem getNext_lastPtr {α : Type} (s : State α) (tmp : Nat) (cs : List (Nat × α))
    (h : Owns s tmp cs) : getNext s (lastPtr tmp cs) = .ok .null := by
  obtain ⟨l, hl, _, hseg⟩ := h
  rcases List.eq_nil_or_concat cs with hc | ⟨pre, c, hc⟩
  · subst hc
    have hh : l.head_next_node = .null := hseg
    simp [lastPtr_nil, getNext, readList, hl, hh]
  · obtain ⟨a, x⟩ := c
    rw [List.concat_eq_append] at hc
    subst hc
    obtain ⟨m, _, h2⟩ := (Seg_append s pre _ _ _).1 hseg
    obtain ⟨_, nx, hn, hnull⟩ := h2
    have hnx : nx = .null := hnull
    subst hnx
    simp [lastPtr_concat, getNext, readNode, hn]

/-- Appending a node at the tail link is `InsertAfter` at the last position. -/
theorem InsertAfter_lastPtr {α : Type} (s : State α) (tmp : Nat) (cs : List (Nat × α)) (v : α)
    (h : Owns s tmp cs) :
    ∃ t, InsertAfter s tmp ⟨lastPtr tmp cs⟩ v = .ok (⟨.heap (fresh s.nodes)⟩, t) ∧
      Step s t tmp cs (cs ++ [(fresh s.nodes, v)]) := by
  rcases List.eq_nil_or_concat cs with hc | ⟨pre, c, hc⟩
  · subst hc
    obtain ⟨t, ht, _, hstep, _⟩ := InsertAfter_step_head s tmp [] v h
    exact ⟨t, ht, hstep⟩
  · obtain ⟨a, x⟩ := c
    rw [List.concat_eq_append] at hc
    subst hc
    obtain ⟨t, ht, hstep, _⟩ := InsertAfter_step_heap s tmp pre [] a x v h
    refine ⟨t, by rw [lastPtr_concat]; exact ht, ?_⟩
    simpa using hstep

theorem Assign_loop_succ {α I : Type} (ops : InputIterator α I) (tmp : Nat) (fuel : Nat)
    (s t : State α) (np : NodePtr) (f f1 to_ : I) (v : α)
    (hne : ops.ne f to_ = true) (hnull : getNext s np = .ok .null)
    (hv : ops.deref s f = .ok v)
    (hins : InsertAfter s tmp ⟨np⟩ v = .ok (⟨.heap (fresh s.nodes)⟩, t))
    (hinc : ops.inc t f = .ok f1) :
    Assign.loop ops tmp (fuel + 1) s np f to_ =
      Assign.loop ops tmp fuel t (.heap (fresh s.nodes)) f1 to_ := by
  have hnp : np ≠ .null := by
    intro e; rw [e] at hnull; simp [getNext] at hnull
  simp only [InsertAfter, hnp, if_false, hnull, ok_bind] at hins
  cases h2 : setNext (newNode s v .null).2 np (.heap (newNode s v .null).1) with
  | error e => simp [h2] at hins
  | ok s2 =>
    simp only [h2, ok_bind] at hins
    cases h3 : incSize s2 tmp with
    | error e => simp [h3] at hins
    | ok s3 =>
      simp only [h3, ok_bind] at hins
      cases h4 : getNext s3 np with
      | error e => simp [h4] at hins
      | ok r =>
        simp only [h4, ok_bind, pure_eq_ok] at hins
        have hins2 := Except.ok.inj hins
        have hr : r = .heap (fresh s.nodes) := by
          have := congrArg (fun p => p.1.node_) hins2
          simpa using this
        have hs3 : s3 = t := by
          have := congrArg (fun p => p.2) hins2
          simpa using this
        subst hs3
        simp [Assign.loop, hne, hnull, hv, h2, h3, h4, hr, hinc]

/-- The loop of `Assign` on an input range that delivers the values `vs`: it appends one
new node per value to the list `tmp`.  `Good f vs` says that the range from `f` delivers
`vs`; reading the range may depend on the nodes at the addresses `B`, whose contents in
the store `N` the loop leaves alone. -/
theorem Assign_loop_spec {α I : Type} (ops : InputIterator α I) (to_ : I) (tmp : Nat)
    (B : List Nat) (N : List (Nat × Node α)) (Good : I → List α → Prop)
    (hnil : ∀ f, Good f [] → ops.ne f to_ = false)
    (hcons : ∀ (t : State α) (f : I) (v : α) (vs : List α),
      (∀ a ∈ B, lookup t.nodes a = lookup N a) → Good f (v :: vs) →
      ops.ne f to_ = true ∧ ops.deref t f = .ok v ∧ ∃ f1, ops.inc t f = .ok f1 ∧ Good f1 vs)
    (hBlive : ∀ a ∈ B, lookup N a ≠ none) (vs : List α) :
    ∀ (fuel : Nat) (s : State α) (done : List (Nat × α)) (f : I),
      vs.length ≤ fuel → Good f vs → Owns s tmp done →
      (∀ a ∈ B, lookup s.nodes a = lookup N a) → (∀ a ∈ B, a ∉ addrs done) →
      ∃ t new, Assign.loop ops tmp fuel s (lastPtr tmp done) f to_ = .ok t ∧
        Step s t tmp done (done ++ new) ∧ values new = vs := by
  induction vs with
  | nil =>
    intro fuel s done f _ hg hown _ _
    refine ⟨s, [], ?_, by simpa using Step_refl s tmp done hown, rfl⟩
    cases fuel <;> simp [Assign.loop, hnil f hg]
  | cons v vs ih =>
    intro fuel s done f hfuel hg hown hB hBd
    cases fuel with
    | zero => simp at hfuel
    | succ fuel =>
      obtain ⟨hne, hv, _, _, _⟩ := hcons s f v vs hB hg
      obtain ⟨s3, hins, hstep⟩ := InsertAfter_lastPtr s tmp done v hown
      have hB3 : ∀ a ∈ B, lookup s3.nodes a = lookup N a := by
        intro a ha
        rw [hstep.2.1.2 a (hBd a ha) (by rw [hB a ha]; exact hBlive a ha)]
        exact hB a ha
      obtain ⟨_, _, f1, hinc, hg1⟩ := hcons s3 f v vs hB3 hg
      have hBd3 : ∀ a ∈ B, a ∉ addrs (done ++ [(fresh s.nodes, v)]) := by
        intro a ha hmem
        rcases hstep.2.2 a hmem with h | h
        · exact hBd a ha h
        · rw [hB a ha] at h; exact hBlive a ha h
      obtain ⟨t, new, hloop, hstep2, hval⟩ := ih fuel s3 (done ++ [(fresh s.nodes, v)]) f1
        (by simp at hfuel; omega) hg1 hstep.1 hB3 hBd3
      rw [lastPtr_concat] at hloop
      refine ⟨t, (fresh s.nodes, v) :: new, ?_, ?_, by simp [values] at hval ⊢; exact hval⟩
      · rw [Assign_loop_succ ops tmp fuel s s3 _ f f1 to_ v hne
          (getNext_lastPtr s tmp done hown) hv hins hinc]
        exact hloop
      · have := Step_trans s s3 t tmp _ _ _ hstep hstep2
        simpa using this

theorem ne_fresh_of_lookup {β : Type} (m : List (Nat × β)) (a : Nat) (v : β)
    (h : lookup m a = some v) : a ≠ fresh m := by
  intro e; rw [e, lookup_fresh] at h; simp at h

/-- The function `Assign` on a well-formed list with cells `old` and an input range that
delivers the values `vs`: the list ends up with new nodes holding `vs` in order, and the
old nodes are freed. -/
theorem Assign_spec {α I : Type} (ops : InputIterator α I) (to_ : I)
    (B : List Nat) (Good : I → List α → Prop) (s : State α)
    (hnil : ∀ f, Good f [] → ops.ne f to_ = false)
    (hcons : ∀ (t : State α) (f : I) (v : α) (vs : List α),
      (∀ a ∈ B, lookup t.nodes a = lookup s.nodes a) → Good f (v :: vs) →
      ops.ne f to_ = true ∧ ops.deref t f = .ok v ∧ ∃ f1, ops.inc t f = .ok f1 ∧ Good f1 vs)
    (hBlive : ∀ a ∈ B, lookup s.nodes a ≠ none)
    (this : Nat) (old : List (Nat × α)) (f : I) (vs : List α) (fuel : Nat)
    (hown : Owns s this old) (hg : Good f vs) (hBd : ∀ a ∈ B, a ∉ addrs old)
    (hf1 : vs.length ≤ fuel) (hf2 : old.length ≤ fuel) :
    ∃ t new, Assign ops fuel s this f to_ = .ok t ∧ Step s t this old new ∧
      values new = vs ∧ (∀ a ∈ addrs new, lookup s.nodes a = none) ∧
      (∀ a ∈ B, lookup t.nodes a = lookup s.nodes a) := by
  obtain ⟨lthis, hlthis, hszthis, hsegthis⟩ := hown
  have hown : Owns s this old := ⟨lthis, hlthis, hszthis, hsegthis⟩
  have htmp : this ≠ fresh s.lists := ne_fresh_of_lookup _ _ _ hlthis
  have hown0 : Owns (construct s (fresh s.lists)) (fresh s.lists) ([] : List (Nat × α)) :=
    ⟨⟨.null, 0⟩, by simp [construct, writeList, lookup], rfl, rfl⟩
  obtain ⟨s1, new, hloop, hstep1, hval⟩ := Assign_loop_spec ops to_ (fresh s.lists) B s.nodes
    Good hnil hcons hBlive vs fuel (construct s (fresh s.lists)) [] f hf1 hg hown0
    (fun _ _ => rfl) (fun _ _ => by simp [addrs])
  rw [lastPtr_nil] at hloop
  simp only [List.nil_append] at hstep1
  obtain ⟨⟨ltmp, hltmp, hsztmp, hsegtmp⟩, hfr1, hnew1⟩ := hstep1
  have hfr0 : Frame s (construct s (fresh s.lists)) [fresh s.lists] [] := by
    refine ⟨fun o ho => ?_, fun _ _ _ => rfl⟩
    have : fresh s.lists ≠ o := fun e => ho (by simp [e])
    simp [construct, writeList, lookup, this]
  have hfr01 : Frame s s1 [fresh s.lists] [] := by
    simpa using Frame_trans _ _ _ _ _ _ hfr0 hfr1
  have hnewfresh : ∀ a ∈ addrs new, lookup s.nodes a = none := by
    intro a ha
    rcases hnew1 a ha with h | h
    · simp [addrs] at h
    · exact h
  have hlthis1 : lookup s1.lists this = some lthis := by
    rw [hfr01.1 this (by simpa using htmp)]; exact hlthis
  obtain ⟨s2, hswap, hn2, hl2this, hl2tmp, hl2o⟩ :=
    swap_spec s1 this (fresh s.lists) lthis ltmp htmp hlthis1 hltmp
  have hseg_old1 : Seg s1 lthis.head_next_node old .null :=
    Seg_frame_of_Frame s s1 _ [] old _ _ hfr01 (fun _ _ => by simp) hsegthis
  have hsame : ∀ (p q : NodePtr) (cs : List (Nat × α)), Seg s1 p cs q → Seg s2 p cs q :=
    fun p q cs h => Seg_frame s1 s2 cs p q (fun a _ => by rw [hn2]) h
  have hown2tmp : Owns s2 (fresh s.lists) old :=
    ⟨lthis, hl2tmp, hszthis, hsame _ _ _ hseg_old1⟩
  obtain ⟨t, hdes, hltmp3, hfr3⟩ := destruct_spec fuel s2 (fresh s.lists) old hown2tmp hf2
  have hdisj : ∀ a ∈ addrs new, a ∉ addrs old := by
    intro a ha hold
    exact Seg_live s old _ _ hsegthis a hold (hnewfresh a ha)
  have hown2this : Owns s2 this new := ⟨ltmp, hl2this, hsztmp, hsame _ _ _ hsegtmp⟩
  have hownt : Owns t this new :=
    Owns_frame s2 t [fresh s.lists] (addrs old) this new hfr3 (by simpa using htmp) hdisj
      hown2this
  have hnodes : ∀ a, a ∉ addrs old → lookup s.nodes a ≠ none →
      lookup t.nodes a = lookup s.nodes a := by
    intro a ha hlive
    have e1 : lookup s1.nodes a = lookup s.nodes a := hfr01.2 a (by simp) hlive
    rw [hfr3.2 a ha (by rw [hn2, e1]; exact hlive), hn2, e1]
  refine ⟨t, new, ?_, ⟨hownt, ⟨fun o ho => ?_, hnodes⟩, fun a ha => Or.inr (hnewfresh a ha)⟩,
    hval, hnewfresh, fun a ha => hnodes a (hBd a ha) (hBlive a ha)⟩
  · simp [Assign, hloop, hswap, hdes]
  · have hot : o ≠ this := fun e => ho (by simp [e])
    by_cases hotmp : o = fresh s.lists
    · rw [hotmp, hltmp3, lookup_fresh]
    · rw [hfr3.1 o (by simpa using hotmp), hl2o o hot hotmp, hfr01.1 o (by simpa using hotmp)]

/-! ## The constructors and the copy assignment -/

theorem Owns_construct {α : Type} (s : State α) (this : Nat) :
    Owns (construct s this) this ([] : List (Nat × α)) :=
  ⟨⟨.null, 0⟩, by simp [construct, writeList, lookup], rfl, rfl⟩

theorem Frame_construct {α : Type} (s : State α) (this : Nat) :
    Frame s (construct s this) [this] [] := by
  refine ⟨fun o ho => ?_, fun _ _ _ => rfl⟩
  have : this ≠ o := fun e => ho (by simp [e])
  simp [construct, writeList, lookup, this]

theorem construct_values_spec {α : Type} (fuel : Nat) (s : State α) (this : Nat)
    (vs : List α) (hfuel : vs.length ≤ fuel) :
    ∃ t new, construct_values fuel s this vs = .ok t ∧ Owns t this new ∧ values new = vs ∧
      Frame s t [this] [] ∧ ∀ a ∈ addrs new, lookup s.nodes a = none := by
  obtain ⟨t, new, hass, hstep, hval, hfresh, _⟩ := Assign_spec (arrayOps α) ⟨vs, vs.length⟩ []
    (fun f ws => f.arr = vs ∧ f.idx + ws.length = vs.length ∧ vs.drop f.idx = ws)
    (construct s this)
    (by
      rintro f ⟨_, h2, _⟩
      simp at h2
      simp [arrayOps, h2])
    (by
      rintro t f v ws _ ⟨h1, h2, h3⟩
      have hidx : f.idx ≠ vs.length := by simp at h2; omega
      have hget : f.arr.get? f.idx = some v := by
        have := List.getElem?_drop vs f.idx 0
        rw [h3] at this
        rw [h1]; simpa using this.symm
      refine ⟨by simp [arrayOps, hidx], by simp only [arrayOps, hget], ⟨f.arr, f.idx + 1⟩,
        rfl, h1, by simp at h2 ⊢; omega, ?_⟩
      have := List.tail_drop vs f.idx
      rw [h3] at this
      simpa using this.symm)
    (fun _ h => by simp at h) this [] ⟨vs, 0⟩ vs fuel (Owns_construct s this)
    ⟨rfl, by simp, by simp⟩ (fun _ h => by simp at h) hfuel (by simp)
  refine ⟨t, new, hass, hstep.1, hval, ?_, hfresh⟩
  simpa using Frame_trans _ _ _ _ _ _ (Frame_construct s this) hstep.2.1

theorem construct_copy_spec {α : Type} (fuel : Nat) (s : State α) (this other : Nat)
    (cs : List (Nat × α)) (hne : this ≠ other) (hown : Owns s other cs)
    (hfuel : cs.length ≤ fuel) :
    ∃ t new, construct_copy fuel s this other = .ok t ∧ Owns t this new ∧
      values new = values cs ∧ Owns t other cs ∧ (∀ a ∈ addrs cs, a ∉ addrs new) ∧
      Frame s t [this] [] ∧ ∀ a ∈ addrs new, lookup s.nodes a = none := by
  have hown0 : Owns (construct s this) other cs :=
    Owns_frame s _ [this] [] other cs (Frame_construct s this)
      (by simpa using Ne.symm hne) (fun _ _ => by simp) hown
  obtain ⟨lo, hlo, hszo, hsego⟩ := hown0
  obtain ⟨t, new, hass, hstep, hval, hfresh, _⟩ := Assign_spec (listOps α) (end_ other)
    (addrs cs)
    (fun f ws => ∃ ds, Seg (construct s this) f.node_ ds .null ∧ values ds = ws ∧
      ∀ a ∈ addrs ds, a ∈ addrs cs)
    (construct s this)
    (by
      rintro f ⟨ds, hseg, hv, _⟩
      have hds : ds = [] := by simpa [values] using hv
      subst hds
      have hf : f.node_ = .null := hseg
      simp [listOps, BasicIterator.ne, end_, hf])
    (by
      rintro t f v ws hB ⟨ds, hseg, hv, hsub⟩
      cases ds with
      | nil => simp [values] at hv
      | cons d ds =>
        obtain ⟨a, x⟩ := d
        obtain ⟨hf, nx, hn, hrest⟩ := hseg
        have hxv : x = v ∧ values ds = ws := by simpa [values] using hv
        have hnt : lookup t.nodes a = some ⟨x, nx⟩ := by
          rw [hB a (hsub a (by simp [addrs]))]; exact hn
        refine ⟨by simp [listOps, BasicIterator.ne, end_, hf], ?_, ⟨nx⟩, ?_, ds, hrest,
          hxv.2, fun b hb => hsub b (by simp [addrs] at hb ⊢; exact Or.inr hb)⟩
        · simp [listOps, BasicIterator.deref, getValue, readNode, hf, hnt, hxv.1]
        · simp [listOps, BasicIterator.preInc, getNext, readNode, hf, hnt])
    (fun a ha => Seg_live _ cs _ _ hsego a ha)
    this [] ⟨lo.head_next_node⟩ (values cs) fuel (Owns_construct s this)
    ⟨cs, hsego, rfl, fun _ h => h⟩ (fun _ _ => by simp [addrs])
    (by simpa [values] using hfuel) (by simp)
  have hoth := Step_other _ t this other [] new cs hstep (Ne.symm hne)
    ⟨lo, hlo, hszo, hsego⟩ (fun _ _ => by simp [addrs])
  refine ⟨t, new, ?_, hstep.1, hval, hoth.1, hoth.2, ?_, ?_⟩
  · simp [construct_copy, begin_, getNext, readList, hlo, hass]
  · simpa using Frame_trans _ _ _ _ _ _ (Frame_construct s this) hstep.2.1
  · intro a ha; simpa [construct, writeList] using hfresh a ha

theorem copy_assign_self {α : Type} (fuel : Nat) (s : State α) (this : Nat) :
    copy_assign fuel s this this = .ok s := by
  simp [copy_assign]

theorem copy_assign_step {α : Type} (fuel : Nat) (s : State α) (this rhs : Nat)
    (ca cb : List (Nat × α)) (hne : this ≠ rhs) (ha : Owns s this ca) (hb : Owns s rhs cb)
    (hdisj : ∀ x ∈ addrs ca, x ∉ addrs cb) (hfa : ca.length ≤ fuel) (hfb : cb.length ≤ fuel) :
    ∃ t new, copy_assign fuel s this rhs = .ok t ∧ Owns t this new ∧ values new = values cb ∧
      Owns t rhs cb ∧ (∀ x ∈ addrs cb, x ∉ addrs new) ∧
      Frame s t [this] (addrs ca) ∧ ∀ x ∈ addrs new, lookup s.nodes x = none := by
  obtain ⟨la, hla, hsza, hsega⟩ := ha
  obtain ⟨lb, hlb, hszb, hsegb⟩ := hb
  have ha : Owns s this ca := ⟨la, hla, hsza, hsega⟩
  have hb : Owns s rhs cb := ⟨lb, hlb, hszb, hsegb⟩
  have htmpa : this ≠ fresh s.lists := ne_fresh_of_lookup _ _ _ hla
  have htmpb : rhs ≠ fresh s.lists := ne_fresh_of_lookup _ _ _ hlb
  obtain ⟨s1, new, hcopy, hown1, hval, hownb1, hdisj1, hfr1, hfresh⟩ :=
    construct_copy_spec fuel s (fresh s.lists) rhs cb (Ne.symm htmpb) hb hfb
  obtain ⟨ltmp, hltmp, hsztmp, hsegtmp⟩ := hown1
  have hla1 : lookup s1.lists this = some la := by
    rw [hfr1.1 this (by simpa using htmpa)]; exact hla
  have hsega1 : Seg s1 la.head_next_node ca .null :=
    Seg_frame_of_Frame s s1 _ [] ca _ _ hfr1 (fun _ _ => by simp) hsega
  obtain ⟨s2, hswap, hn2, hl2this, hl2tmp, hl2o⟩ :=
    swap_spec s1 this (fresh s.lists) la ltmp htmpa hla1 hltmp
  have hsame : ∀ (p q : NodePtr) (cs : List (Nat × α)), Seg s1 p cs q → Seg s2 p cs q :=
    fun p q cs h => Seg_frame s1 s2 cs p q (fun a _ => by rw [hn2]) h
  have hown2tmp : Owns s2 (fresh s.lists) ca := ⟨la, hl2tmp, hsza, hsame _ _ _ hsega1⟩
  have hown2this : Owns s2 this new := ⟨ltmp, hl2this, hsztmp, hsame _ _ _ hsegtmp⟩
  have hown2b : Owns s2 rhs cb := by
    obtain ⟨l, hl, hsz, hseg⟩ := hownb1
    exact ⟨l, by rw [hl2o rhs (Ne.symm hne) htmpb]; exact hl, hsz, hsame _ _ _ hseg⟩
  obtain ⟨t, hdes, hltmp3, hfr3⟩ := destruct_spec fuel s2 (fresh s.lists) ca hown2tmp hfa
  have hnewca : ∀ x ∈ addrs new, x ∉ addrs ca := by
    intro x hx hca
    exact Seg_live s ca _ _ hsega x hca (hfresh x hx)
  refine ⟨t, new, ?_, ?_, hval, ?_, hdisj1, ⟨fun o ho => ?_, fun x hx hlive => ?_⟩, hfresh⟩
  · simp [copy_assign, hne, hcopy, hswap, hdes]
  · exact Owns_frame s2 t [fresh s.lists] (addrs ca) this new hfr3 (by simpa using htmpa)
      hnewca hown2this
  · exact Owns_frame s2 t [fresh s.lists] (addrs ca) rhs cb hfr3 (by simpa using htmpb)
      (fun x hx hca => hdisj x hca hx) hown2b
  · have hot : o ≠ this := fun e => ho (by simp [e])
    by_cases hotmp : o = fresh s.lists
    · rw [hotmp, hltmp3, lookup_fresh]
    · rw [hfr3.1 o (by simpa using hotmp), hl2o o hot hotmp, hfr1.1 o (by simpa using hotmp)]
  · have e1 : lookup s1.nodes x = lookup s.nodes x := hfr1.2 x (by simp) hlive
    rw [hfr3.2 x hx (by rw [hn2, e1]; exact hlive), hn2, e1]

/-! ## Mutating calls -/

theorem InsertAfter_null {α : Type} (s : State α) (this : Nat) (v : α) :
    InsertAfter s this ⟨.null⟩ v = .error .assertion := by
  simp [InsertAfter]

theorem EraseAfter_null {α : Type} (s : State α) (this : Nat) :
    EraseAfter s this ⟨.null⟩ = .error .assertion := by
  simp [EraseAfter]

/-- A mutating call that returns has turned the well-formed list into a well-formed
list, inside its own footprint. -/
theorem Mutation_run_step {α : Type} (s t : State α) (this : Nat) (cs : List (Nat × α))
    (m : Mutation α) (h : Owns s this cs) (hrun : m.run s this = .ok t) :
    ∃ ds, Step s t this cs ds := by
  cases m with
  | pushFront v =>
    obtain ⟨u, hu, hstep⟩ := PushFront_step s this cs v h
    simp only [Mutation.run, hu] at hrun
    exact ⟨_, (Except.ok.inj hrun) ▸ hstep⟩
  | popFront =>
    cases cs with
    | nil => simp [Mutation.run, PopFront_empty s this h] at hrun
    | cons c cs =>
      obtain ⟨a, x⟩ := c
      obtain ⟨u, hu, hstep⟩ := PopFront_step s this a x cs h
      simp only [Mutation.run, hu] at hrun
      exact ⟨_, (Except.ok.inj hrun) ▸ hstep⟩
  | insertAfter pos v =>
    cases pos with
    | beforeBegin =>
      obtain ⟨u, hu, _, hstep, _⟩ := InsertAfter_step_head s this cs v h
      simp only [Mutation.run, Position.iterator, pure_eq_ok, ok_bind, hu] at hrun
      exact ⟨_, (Except.ok.inj hrun) ▸ hstep⟩
    | element k =>
      by_cases hk : k < cs.length
      · obtain ⟨pre, c, post, hsplit, hlen⟩ := split_at_index cs k hk
        obtain ⟨a, x⟩ := c
        subst hsplit; subst hlen
        obtain ⟨u, hu, hstep, _⟩ := InsertAfter_step_heap s this pre post a x v h
        simp only [Mutation.run, iterator_element s this pre post a x h, ok_bind, hu,
          pure_eq_ok] at hrun
        exact ⟨_, (Except.ok.inj hrun) ▸ hstep⟩
      · have hpast := iterator_past s this cs k h (by omega)
        by_cases hkl : k = cs.length
        · subst hkl
          simp only [if_true] at hpast
          simp [Mutation.run, hpast, InsertAfter_null] at hrun
        · simp [Mutation.run, hpast, hkl] at hrun
  | eraseAfter pos =>
    cases pos with
    | beforeBegin =>
      cases cs with
      | nil =>
        simp [Mutation.run, Position.iterator, EraseAfter_head_empty s this h] at hrun
      | cons c cs =>
        obtain ⟨a, x⟩ := c
        obtain ⟨r, u, hu, _, hstep, _⟩ := EraseAfter_step_head s this a x cs h
        simp only [Mutation.run, Position.iterator, pure_eq_ok, ok_bind, hu] at hrun
        exact ⟨_, (Except.ok.inj hrun) ▸ hstep⟩
    | element k =>
      by_cases hk : k < cs.length
      · obtain ⟨pre, c, post, hsplit, hlen⟩ := split_at_index cs k hk
        obtain ⟨a, x⟩ := c
        subst hsplit; subst hlen
        cases post with
        | nil =>
          simp [Mutation.run, iterator_element s this pre [] a x h,
            EraseAfter_last s this pre a x h] at hrun
        | cons d post =>
          obtain ⟨b, y⟩ := d
          obtain ⟨r, u, hu, hstep, _⟩ := EraseAfter_step_heap s this pre post a b x y h
          simp only [Mutation.run, iterator_element s this pre _ a x h, ok_bind, hu,
            pure_eq_ok] at hrun
          exact ⟨_, (Except.ok.inj hrun) ▸ hstep⟩
      · have hpast := iterator_past s this cs k h (by omega)
        by_cases hkl : k = cs.length
        · subst hkl
          simp only [if_true] at hpast
          simp [Mutation.run, hpast, EraseAfter_null] at hrun
        · simp [Mutation.run, hpast, hkl] at hrun
  | clear fuel =>
    by_cases hf : cs.length ≤ fuel
    · obtain ⟨u, hu, hstep⟩ := Clear_step fuel s this cs h hf
      simp only [Mutation.run, hu] at hrun
      exact ⟨_, (Except.ok.inj hrun) ▸ hstep⟩
    · simp [Mutation.run, Clear_short fuel s this cs h (by omega)] at hrun

/-- Mutating calls on one list leave another list, which shares no node with it, as it
was. -/
theorem Mutation_runAll_other {α : Type} (this o : Nat) (es : List (Nat × α)) (ho : o ≠ this)
    (ms : List (Mutation α)) :
    ∀ (s t : State α) (cs : List (Nat × α)), Owns s this cs → Owns s o es →
      (∀ a ∈ addrs es, a ∉ addrs cs) → Mutation.runAll this ms s = .ok t → Owns t o es := by
  induction ms with
  | nil =>
    intro s t cs _ hoo _ hrun
    simp only [Mutation.runAll, pure_eq_ok] at hrun
    exact (Except.ok.inj hrun) ▸ hoo
  | cons m ms ih =>
    intro s t cs hown hoo hd hrun
    cases hm : m.run s this with
    | error e => simp [Mutation.runAll, hm] at hrun
    | ok u =>
      simp only [Mutation.runAll, hm, ok_bind] at hrun
      obtain ⟨ds, hstep⟩ := Mutation_run_step s u this cs m hown hm
      obtain ⟨hou, hdu⟩ := Step_other s u this o cs ds es hstep ho hoo hd
      exact ih u t ds hstep.1 hou hdu hrun

/-! ## Example memories -/

theorem exampleState_Owns : Owns exampleState 0 [(0, 1), (1, 2), (2, 3)] :=
  ⟨⟨.heap 0, 3⟩, rfl, rfl, rfl, .heap 1, rfl, rfl, .heap 2, rfl, rfl, .null, rfl, rfl⟩

theorem twoListsState_Owns_0 : Owns twoListsState 0 [(0, 1), (1, 2)] :=
  ⟨⟨.heap 0, 2⟩, rfl, rfl, rfl, .heap 1, rfl, rfl, .null, rfl, rfl⟩

theorem twoListsState_Owns_1 : Owns twoListsState 1 [(2, 1), (3, 2), (4, 3)] :=
  ⟨⟨.heap 2, 3⟩, rfl, rfl, rfl, .heap 3, rfl, rfl, .heap 4, rfl, rfl, .null, rfl, rfl⟩

/-! ## Lemmas on values -/

theorem values_append {α : Type} (c1 c2 : List (Nat × α)) :
    values (c1 ++ c2) = values c1 ++ values c2 := by
  simp [values]

theorem values_length {α : Type} (cs : List (Nat × α)) : (values cs).length = cs.length := by
  simp [values]

theorem take_split {β : Type} (pre post : List β) (c : β) :
    (pre ++ c :: post).take (pre.length + 1) = pre ++ [c] := by
  have : pre ++ c :: post = (pre ++ [c]) ++ post := by simp
  rw [this]
  exact List.take_left' (by simp)

theorem drop_split {β : Type} (pre post : List β) (c : β) :
    (pre ++ c :: post).drop (pre.length + 1) = post := by
  have : pre ++ c :: post = (pre ++ [c]) ++ post := by simp
  rw [this]
  exact List.drop_left' (by simp)

theorem deref_of_Owns {α : Type} (s : State α) (this : Nat) (pre post : List (Nat × α))
    (b : Nat) (v : α) (h : Owns s this (pre ++ (b, v) :: post)) :
    (⟨.heap b⟩ : BasicIterator).deref s = .ok v := by
  obtain ⟨l, _, _, hseg⟩ := h
  obtain ⟨m, _, h2⟩ := (Seg_append s pre _ _ _).1 hseg
  obtain ⟨_, nx, hn, _⟩ := h2
  simp [BasicIterator.deref, getValue, readNode, hn]

/-! ## The claims -/

/-- C1, which the code breaks: on the list `[1, 2]` (at address `0`) and the list
`[1, 2, 3]` (at address `1`) the algorithm `std::equal` computes `false`, but `operator==`
returns `true` and `operator!=` returns `false`. -/
theorem operator_eq_unequal_lists :
    toList 3 twoListsState 0 = .ok [1, 2] ∧
    toList 3 twoListsState 1 = .ok [1, 2, 3] ∧
    (do
      let b1 ← begin_ twoListsState 0
      let b2 ← begin_ twoListsState 1
      std_equal twoListsState 3 b1 (end_ 0) b2 (end_ 0)) = .ok false ∧
    operator_eq 3 twoListsState 0 1 = .ok true ∧
    operator_ne 3 twoListsState 0 1 = .ok false :=
  ⟨rfl, rfl, rfl, rfl, rfl⟩

/-- C2, which the code breaks: `operator<` returns `true` for the list `[1, 2]` against
itself and for `[1, 2, 3]` against `[1, 2]`, although `std::lexicographical_compare`
computes `false` in both cases. -/
theorem operator_lt_irreflexivity_fails :
    toList 3 twoListsState 0 = .ok [1, 2] ∧
    toList 3 twoListsState 1 = .ok [1, 2, 3] ∧
    (do
      let b1 ← begin_ twoListsState 0
      let b2 ← begin_ twoListsState 0
      std_lexicographical_compare twoListsState 3 b1 (end_ 0) b2 (end_ 0)) = .ok false ∧
    operator_lt 3 twoListsState 0 0 = .ok true ∧
    (do
      let b1 ← begin_ twoListsState 1
      let b2 ← begin_ twoListsState 0
      std_lexicographical_compare twoListsState 3 b1 (end_ 1) b2 (end_ 0)) = .ok false ∧
    operator_lt 3 twoListsState 1 0 = .ok true :=
  ⟨rfl, rfl, rfl, rfl, rfl, rfl⟩

/-- C3, which the code breaks: for `a = [1, 2]` and `b = [1, 2, 3]` the call `a <= b`
returns `true` although `b < a` returns `true` as well, so `a <= b` is not the negation
of `b < a`; and `a >= b` returns `true` although `a < b` returns `true`, so `a >= b` is
not the negation of `a < b`. -/
theorem operator_le_ge_not_negations :
    operator_le 3 twoListsState 0 1 = .ok true ∧
    operator_lt 3 twoListsState 1 0 = .ok true ∧
    operator_ge 3 twoListsState 0 1 = .ok true ∧
    operator_lt 3 twoListsState 0 1 = .ok true :=
  ⟨rfl, rfl, rfl, rfl⟩

/-- C4: on a well-formed list with cells `cs`, `PushFront(v)` returns, forward iteration
afterwards yields `v` followed by the former elements in their former order, `*begin()`
is `v`, and `GetSize()` has grown from the number of elements by exactly one. -/
theorem PushFront_spec {α : Type} (s : State α) (this : Nat) (cs : List (Nat × α)) (v : α)
    (h : Owns s this cs) :
    ∃ t, PushFront s this v = .ok t ∧
      toList cs.length s this = .ok (values cs) ∧
      toList (cs.length + 1) t this = .ok (v :: values cs) ∧
      (begin_ t this >>= fun b => b.deref t) = .ok v ∧
      GetSize s this = .ok cs.length ∧
      GetSize t this = .ok (cs.length + 1) := by
  obtain ⟨t, ht, hstep⟩ := PushFront_step s this cs v h
  have hown := hstep.1
  refine ⟨t, ht, toList_of_Owns s this cs _ h (le_refl _), ?_, ?_, GetSize_of_Owns s this cs h, ?_⟩
  · simpa [values] using toList_of_Owns t this _ (cs.length + 1) hown (by simp)
  · obtain ⟨l, hl, _, hseg⟩ := hown
    obtain ⟨hh, nx, hn, _⟩ := hseg
    simp [begin_, getNext, readList, hl, hh, BasicIterator.deref, getValue, readNode, hn]
  · simpa using GetSize_of_Owns t this _ hown

/-- Witness of `PushFront_spec`: pushing `7` onto the list `[1, 2, 3]`. -/
theorem PushFront_spec_witness :
    Owns exampleState 0 [(0, 1), (1, 2), (2, 3)] ∧
    ∃ t, PushFront exampleState 0 7 = .ok t ∧
      toList 3 exampleState 0 = .ok [1, 2, 3] ∧
      toList 4 t 0 = .ok [7, 1, 2, 3] ∧
      (begin_ t 0 >>= fun b => b.deref t) = .ok 7 ∧
      GetSize exampleState 0 = .ok 3 ∧
      GetSize t 0 = .ok 4 :=
  ⟨exampleState_Owns, PushFront_spec exampleState 0 [(0, 1), (1, 2), (2, 3)] 7 exampleState_Owns⟩

/-- C5: on a well-formed list with cells `cs` and a position `pos` that is
`before_begin()` or refers to an element of the list, `InsertAfter(pos, v)` returns; the
new sequence has `v` at the index right after `pos` (index `0` for `before_begin()`,
`k + 1` after the element of index `k`) and the other elements in their former order;
`GetSize()` has grown by exactly one; the returned iterator dereferences to `v` and is the
successor of `pos`. -/
theorem InsertAfter_spec {α : Type} (s : State α) (this : Nat) (cs : List (Nat × α))
    (pos : Position) (v : α) (h : Owns s this cs) (hpos : pos.index ≤ cs.length) :
    ∃ it r t, pos.iterator s this = .ok it ∧ InsertAfter s this it v = .ok (r, t) ∧
      toList cs.length s this = .ok (values cs) ∧
      toList (cs.length + 1) t this =
        .ok ((values cs).take pos.index ++ v :: (values cs).drop pos.index) ∧
      GetSize s this = .ok cs.length ∧
      GetSize t this = .ok (cs.length + 1) ∧
      r.deref t = .ok v ∧
      it.preInc t = .ok r := by
  have hbefore := toList_of_Owns s this cs _ h (le_refl _)
  have hsize := GetSize_of_Owns s this cs h
  cases pos with
  | beforeBegin =>
    obtain ⟨t, hins, _, hstep, hsucc⟩ := InsertAfter_step_head s this cs v h
    have hown := hstep.1
    refine ⟨before_begin this, ⟨.heap (fresh s.nodes)⟩, t, rfl, hins, hbefore, ?_, hsize, ?_,
      deref_of_Owns t this [] cs _ v hown, hsucc⟩
    · simpa [values, Position.index] using
        toList_of_Owns t this _ (cs.length + 1) hown (by simp)
    · simpa using GetSize_of_Owns t this _ hown
  | element k =>
    have hk : k < cs.length := by simp [Position.index] at hpos; omega
    obtain ⟨pre, c, post, hsplit, hlen⟩ := split_at_index cs k hk
    obtain ⟨a, x⟩ := c
    subst hsplit; subst hlen
    obtain ⟨t, hins, hstep, hsucc⟩ := InsertAfter_step_heap s this pre post a x v h
    have hown := hstep.1
    refine ⟨⟨.heap a⟩, ⟨.heap (fresh s.nodes)⟩, t, iterator_element s this pre post a x h, hins,
      hbefore, ?_, hsize, ?_, ?_, hsucc⟩
    · have hl := toList_of_Owns t this _ ((pre ++ (a, x) :: post).length + 1) hown
        (by simp; omega)
      rw [hl]
      have e1 : values (pre ++ (a, x) :: post) = values pre ++ x :: values post := by
        simp [values]
      have e2 : (values pre).length = pre.length := values_length pre
      simp only [Position.index, e1, ← e2, take_split, drop_split]
      simp [values]
    · have e4 := GetSize_of_Owns t this _ hown
      rw [e4]; simp; omega
    · have e3 : pre ++ (a, x) :: (fresh s.nodes, v) :: post =
          (pre ++ [(a, x)]) ++ (fresh s.nodes, v) :: post := by simp
      rw [e3] at hown
      exact deref_of_Owns t this _ post _ v hown

/-- Witness of `InsertAfter_spec`: inserting `99` after the element of index `1` of the
list `[1, 2, 3]`. -/
theorem InsertAfter_spec_witness :
    Owns exampleState 0 [(0, 1), (1, 2), (2, 3)] ∧
    ∃ it r t, (Position.element 1).iterator exampleState 0 = .ok it ∧
      InsertAfter exampleState 0 it 99 = .ok (r, t) ∧
      toList 3 exampleState 0 = .ok [1, 2, 3] ∧
      toList 4 t 0 = .ok [1, 2, 99, 3] ∧
      GetSize exampleState 0 = .ok 3 ∧
      GetSize t 0 = .ok 4 ∧
      r.deref t = .ok 99 ∧
      it.preInc t = .ok r :=
  ⟨exampleState_Owns,
    InsertAfter_spec exampleState 0 [(0, 1), (1, 2), (2, 3)] (.element 1) 99 exampleState_Owns
      (by decide)⟩

theorem drop_two {β : Type} (pre post : List β) (x y : β) :
    (pre ++ x :: y :: post).drop (pre.length + 1 + 1) = post := by
  have : pre ++ x :: y :: post = (pre ++ [x, y]) ++ post := by simp
  rw [this]
  exact List.drop_left' (by simp)

/-- C6: on a well-formed list with cells `cs` and a position `pos` (`before_begin()` or an
element) that has a successor, `EraseAfter(pos)` returns; the new sequence is the old one
without the element right after `pos`, in the former order; `GetSize()` has dropped by
exactly one; the returned iterator is the successor of `pos`, iterating from it yields
the elements that followed the erased one, and it equals `end()` exactly when the erased
element was the last. -/
theorem EraseAfter_spec {α : Type} (s : State α) (this : Nat) (cs : List (Nat × α))
    (pos : Position) (h : Owns s this cs) (hpos : pos.index < cs.length) :
    ∃ it r t, pos.iterator s this = .ok it ∧ EraseAfter s this it = .ok (r, t) ∧
      toList cs.length s this = .ok (values cs) ∧
      toList (cs.length - 1) t this =
        .ok ((values cs).take pos.index ++ (values cs).drop (pos.index + 1)) ∧
      GetSize s this = .ok cs.length ∧
      GetSize t this = .ok (cs.length - 1) ∧
      it.preInc t = .ok r ∧
      iterate t cs.length r (end_ this) = .ok ((values cs).drop (pos.index + 1)) ∧
      r.eq (end_ this) = decide (pos.index + 1 = cs.length) := by
  have hbefore := toList_of_Owns s this cs _ h (le_refl _)
  have hsize := GetSize_of_Owns s this cs h
  cases pos with
  | beforeBegin =>
    cases cs with
    | nil => simp [Position.index] at hpos
    | cons c rest =>
      obtain ⟨a, x⟩ := c
      obtain ⟨r, t, hers, _, hstep, hseg, hsucc, _⟩ := EraseAfter_step_head s this a x rest h
      have hown := hstep.1
      refine ⟨before_begin this, r, t, rfl, hers, hbefore, ?_, hsize, ?_, hsucc, ?_, ?_⟩
      · simpa [values, Position.index] using
          toList_of_Owns t this _ rest.length hown (le_refl _)
      · simpa using GetSize_of_Owns t this _ hown
      · simpa [values, Position.index] using
          iterate_of_Seg t this rest (rest.length + 1) _ hseg (by omega)
      · have := Seg_null_iff t _ rest hseg
        simp [BasicIterator.eq, end_, Position.index, this]
  | element k =>
    have hk : k < cs.length := by simp [Position.index] at hpos; omega
    obtain ⟨pre, c, post, hsplit, hlen⟩ := split_at_index cs k hk
    obtain ⟨a, x⟩ := c
    subst hsplit; subst hlen
    cases post with
    | nil => simp [Position.index] at hpos
    | cons d post =>
      obtain ⟨b, y⟩ := d
      obtain ⟨r, t, hers, hstep, hseg, hsucc⟩ := EraseAfter_step_heap s this pre post a b x y h
      have hown := hstep.1
      have e1 : values (pre ++ (a, x) :: (b, y) :: post) =
          values pre ++ x :: y :: values post := by simp [values]
      have e2 : (values pre).length = pre.length := values_length pre
      have e3 : values (pre ++ (a, x) :: post) = values pre ++ x :: values post := by
        simp [values]
      refine ⟨⟨.heap a⟩, r, t, iterator_element s this pre _ a x h, hers, hbefore, ?_, hsize,
        ?_, hsucc, ?_, ?_⟩
      · have hl := toList_of_Owns t this _ ((pre ++ (a, x) :: (b, y) :: post).length - 1) hown
          (by simp)
        rw [hl, e1, e3]
        simp only [Position.index]
        rw [← e2, take_split, drop_two]
        simp
      · have e5 := GetSize_of_Owns t this _ hown
        rw [e5]; simp
      · have hl := iterate_of_Seg t this post (pre ++ (a, x) :: (b, y) :: post).length _ hseg
          (by simp; omega)
        rw [hl, e1]
        simp only [Position.index]
        rw [← e2, drop_two]
      · have e6 := Seg_null_iff t _ post hseg
        cases post with
        | nil => simp [BasicIterator.eq, end_, Position.index, e6]
        | cons p post => simp [BasicIterator.eq, end_, Position.index, e6]; omega

/-- Witness of `EraseAfter_spec`: erasing after `before_begin()` in the list `[1, 2, 3]`. -/
theorem EraseAfter_spec_witness :
    Owns exampleState 0 [(0, 1), (1, 2), (2, 3)] ∧
    ∃ it r t, Position.beforeBegin.iterator exampleState 0 = .ok it ∧
      EraseAfter exampleState 0 it = .ok (r, t) ∧
      toList 3 exampleState 0 = .ok [1, 2, 3] ∧
      toList 2 t 0 = .ok [2, 3] ∧
      GetSize exampleState 0 = .ok 3 ∧
      GetSize t 0 = .ok 2 ∧
      it.preInc t = .ok r ∧
      iterate t 3 r (end_ 0) = .ok [2, 3] ∧
      r.eq (end_ 0) = false :=
  ⟨exampleState_Owns,
    EraseAfter_spec exampleState 0 [(0, 1), (1, 2), (2, 3)] .beforeBegin exampleState_Owns
      (by decide)⟩

theorem popAll_of_Owns {α : Type} (this : Nat) (cs : List (Nat × α)) :
    ∀ (fuel : Nat) (s : State α), Owns s this cs → cs.length ≤ fuel →
      ∃ t, popAll this fuel s = .ok (values cs, cs.length, t) ∧
        Owns t this ([] : List (Nat × α)) := by
  induction cs with
  | nil =>
    intro fuel s h _
    obtain ⟨l, hl, hsz, hseg⟩ := h
    simp at hsz
    refine ⟨s, ?_, ⟨l, hl, by simpa using hsz, hseg⟩⟩
    cases fuel <;> simp [popAll, IsEmpty, readList, hl, hsz, values]
  | cons c cs ih =>
    obtain ⟨a, x⟩ := c
    intro fuel s h hfuel
    cases fuel with
    | zero => simp at hfuel
    | succ fuel =>
      obtain ⟨t1, hpop, hstep⟩ := PopFront_step s this a x cs h
      obtain ⟨t, ht, hown⟩ := ih fuel t1 hstep.1 (by simp at hfuel; omega)
      obtain ⟨l, hl, hsz, hseg⟩ := h
      obtain ⟨hh, nx, hn, _⟩ := hseg
      have hsz0 : l.size_ ≠ 0 := by rw [hsz]; simp
      refine ⟨t, ?_, hown⟩
      simp [popAll, IsEmpty, readList, hl, hsz0, begin_, getNext, hh, BasicIterator.deref,
        getValue, readNode, hn, hpop, ht, values]

/-- C7: on a well-formed list with cells `cs`, popping the front until the list is empty
takes exactly as many calls of `PopFront` as the list has elements, and the first
elements seen before the calls are the elements in the order of forward iteration; and
one `PopFront()` on a non-empty list leaves the former elements but the first and a
`GetSize()` smaller by one. -/
theorem PopFront_drain_spec {α : Type} (s : State α) (this : Nat) (cs : List (Nat × α))
    (fuel : Nat) (h : Owns s this cs) (hfuel : cs.length ≤ fuel) :
    ∃ t, popAll this fuel s = .ok (values cs, cs.length, t) ∧
      IsEmpty t this = .ok true ∧
      toList cs.length s this = .ok (values cs) ∧
      GetSize s this = .ok cs.length ∧
      (cs = [] ∨ ∃ t1, PopFront s this = .ok t1 ∧
        toList (cs.length - 1) t1 this = .ok (values cs).tail ∧
        GetSize t1 this = .ok (cs.length - 1)) := by
  obtain ⟨t, ht, hown⟩ := popAll_of_Owns this cs fuel s h hfuel
  refine ⟨t, ht, ?_, toList_of_Owns s this cs _ h (le_refl _), GetSize_of_Owns s this cs h, ?_⟩
  · obtain ⟨l, hl, hsz, _⟩ := hown
    simp at hsz
    simp [IsEmpty, readList, hl, hsz]
  · cases cs with
    | nil => exact Or.inl rfl
    | cons c cs =>
      obtain ⟨a, x⟩ := c
      right
      obtain ⟨t1, hpop, hstep⟩ := PopFront_step s this a x cs h
      refine ⟨t1, hpop, ?_, ?_⟩
      · simpa [values] using toList_of_Owns t1 this cs cs.length hstep.1 (le_refl _)
      · simpa using GetSize_of_Owns t1 this cs hstep.1

/-- Witness of `PopFront_drain_spec`: draining the list `[1, 2, 3]`. -/
theorem PopFront_drain_spec_witness :
    Owns exampleState 0 [(0, 1), (1, 2), (2, 3)] ∧
    ∃ t, popAll 0 3 exampleState = .ok ([1, 2, 3], 3, t) ∧
      IsEmpty t 0 = .ok true ∧
      toList 3 exampleState 0 = .ok [1, 2, 3] ∧
      GetSize exampleState 0 = .ok 3 ∧
      (([(0, 1), (1, 2), (2, 3)] : List (Nat × Int)) = [] ∨
        ∃ t1, PopFront exampleState 0 = .ok t1 ∧
        toList 2 t1 0 = .ok [2, 3] ∧
        GetSize t1 0 = .ok 2) :=
  ⟨exampleState_Owns,
    PopFront_drain_spec exampleState 0 [(0, 1), (1, 2), (2, 3)] 3 exampleState_Owns
      (by decide)⟩

/-- C8: for every sequence of values `vs`, the empty one included, the initializer-list
constructor returns (with any fuel that covers the length), forward iteration of the new
list from `begin()` to `end()` yields exactly `vs`, and `GetSize()` is the length of
`vs`. -/
theorem construct_values_roundtrip {α : Type} (s : State α) (this : Nat) (vs : List α)
    (extra : Nat) :
    ∃ t, construct_values (vs.length + extra) s this vs = .ok t ∧
      toList vs.length t this = .ok vs ∧
      GetSize t this = .ok vs.length := by
  obtain ⟨t, new, ht, hown, hval, _, _⟩ :=
    construct_values_spec (vs.length + extra) s this vs (by omega)
  have hlen : new.length = vs.length := by rw [← hval]; exact (values_length new).symm
  refine ⟨t, ht, ?_, ?_⟩
  · rw [← hlen, ← hval]; exact toList_of_Owns t this new _ hown (le_refl _)
  · rw [← hlen]; exact GetSize_of_Owns t this new hown

/-- C9: copy-constructing a list at address `l2` from a well-formed list at address `l1`
with cells `cs` returns; the new list yields the same elements in the same order and has
the same `GetSize()`; the source still owns the very same cells; the two lists share no
node; and whatever sequence of `PushFront`, `PopFront`, `InsertAfter`, `EraseAfter` and
`Clear` calls is then run on the copy, the source still owns the same cells, yields the
same sequence and has the same size. -/
theorem construct_copy_independent {α : Type} (s : State α) (l1 l2 : Nat)
    (cs : List (Nat × α)) (fuel : Nat) (h : Owns s l1 cs) (hne : l2 ≠ l1)
    (hfuel : cs.length ≤ fuel) :
    ∃ t new, construct_copy fuel s l2 l1 = .ok t ∧
      toList cs.length t l2 = .ok (values cs) ∧
      GetSize t l2 = .ok cs.length ∧
      Owns t l1 cs ∧
      toList cs.length t l1 = .ok (values cs) ∧
      GetSize t l1 = .ok cs.length ∧
      Owns t l2 new ∧ (∀ a ∈ addrs cs, a ∉ addrs new) ∧
      ∀ (ms : List (Mutation α)) (u : State α), Mutation.runAll l2 ms t = .ok u →
        Owns u l1 cs ∧ toList cs.length u l1 = .ok (values cs) ∧
          GetSize u l1 = .ok cs.length := by
  obtain ⟨t, new, hcopy, hown2, hval, hown1, hdisj, _, _⟩ :=
    construct_copy_spec fuel s l2 l1 cs hne h hfuel
  have hlen : new.length = cs.length := by
    rw [← values_length new, hval, values_length]
  refine ⟨t, new, hcopy, ?_, ?_, hown1, toList_of_Owns t l1 cs _ hown1 (le_refl _),
    GetSize_of_Owns t l1 cs hown1, hown2, hdisj, ?_⟩
  · rw [← hval, ← hlen]; exact toList_of_Owns t l2 new _ hown2 (le_refl _)
  · rw [← hlen]; exact GetSize_of_Owns t l2 new hown2
  · intro ms u hrun
    have hu := Mutation_runAll_other l2 l1 cs (Ne.symm hne) ms t u new hown2 hown1 hdisj hrun
    exact ⟨hu, toList_of_Owns u l1 cs _ hu (le_refl _), GetSize_of_Owns u l1 cs hu⟩

/-- Witness of `construct_copy_independent`: copying the list `[1, 2, 3]` at address `0`
to address `1`. -/
theorem construct_copy_independent_witness :
    Owns exampleState 0 [(0, 1), (1, 2), (2, 3)] ∧
    ∃ t new, construct_copy 3 exampleState 1 0 = .ok t ∧
      toList 3 t 1 = .ok [1, 2, 3] ∧
      GetSize t 1 = .ok 3 ∧
      Owns t 0 [(0, 1), (1, 2), (2, 3)] ∧
      toList 3 t 0 = .ok [1, 2, 3] ∧
      GetSize t 0 = .ok 3 ∧
      Owns t 1 new ∧ (∀ a ∈ addrs [(0, (1 : Int)), (1, 2), (2, 3)], a ∉ addrs new) ∧
      ∀ (ms : List (Mutation Int)) (u : State Int), Mutation.runAll 1 ms t = .ok u →
        Owns u 0 [(0, 1), (1, 2), (2, 3)] ∧ toList 3 u 0 = .ok [1, 2, 3] ∧
          GetSize u 0 = .ok 3 :=
  ⟨exampleState_Owns,
    construct_copy_independent exampleState 0 1 [(0, 1), (1, 2), (2, 3)] 3 exampleState_Owns
      (by decide) (by decide)⟩

/-- C10: for two distinct well-formed lists `a` and `b` that share no node, the copy
assignment `a = b` returns, after it `a` yields the elements of `b` in the same order and
has the size of `b`, and `b` owns the same cells as before, so its sequence and size are
unchanged; and a self-assignment `a = a` returns and leaves the whole memory as it was. -/
theorem copy_assign_spec {α : Type} (s : State α) (a b : Nat) (ca cb : List (Nat × α))
    (fuel : Nat) (ha : Owns s a ca) (hb : Owns s b cb) (hne : a ≠ b)
    (hdisj : ∀ x ∈ addrs ca, x ∉ addrs cb) (hfa : ca.length ≤ fuel)
    (hfb : cb.length ≤ fuel) :
    (∃ t, copy_assign fuel s a b = .ok t ∧
      toList cb.length t a = .ok (values cb) ∧
      GetSize t a = .ok cb.length ∧
      Owns t b cb ∧
      toList cb.length s b = .ok (values cb) ∧
      toList cb.length t b = .ok (values cb) ∧
      GetSize s b = .ok cb.length ∧
      GetSize t b = .ok cb.length) ∧
    copy_assign fuel s a a = .ok s := by
  obtain ⟨t, new, hass, hown, hval, hownb, _, _, _⟩ :=
    copy_assign_step fuel s a b ca cb hne ha hb hdisj hfa hfb
  have hlen : new.length = cb.length := by
    rw [← values_length new, hval, values_length]
  refine ⟨⟨t, hass, ?_, ?_, hownb, toList_of_Owns s b cb _ hb (le_refl _),
    toList_of_Owns t b cb _ hownb (le_refl _), GetSize_of_Owns s b cb hb,
    GetSize_of_Owns t b cb hownb⟩, copy_assign_self fuel s a⟩
  · rw [← hval, ← hlen]; exact toList_of_Owns t a new _ hown (le_refl _)
  · rw [← hlen]; exact GetSize_of_Owns t a new hown

/-- Witness of `copy_assign_spec`: assigning the list `[1, 2, 3]` at address `1` to the
list `[1, 2]` at address `0`. -/
theorem copy_assign_spec_witness :
    Owns twoListsState 0 [(0, 1), (1, 2)] ∧
    Owns twoListsState 1 [(2, 1), (3, 2), (4, 3)] ∧
    (∃ t, copy_assign 3 twoListsState 0 1 = .ok t ∧
      toList 3 t 0 = .ok [1, 2, 3] ∧
      GetSize t 0 = .ok 3 ∧
      Owns t 1 [(2, 1), (3, 2), (4, 3)] ∧
      toList 3 twoListsState 1 = .ok [1, 2, 3] ∧
      toList 3 t 1 = .ok [1, 2, 3] ∧
      GetSize twoListsState 1 = .ok 3 ∧
      GetSize t 1 = .ok 3) ∧
    copy_assign 3 twoListsState 0 0 = .ok twoListsState :=
  ⟨twoListsState_Owns_0, twoListsState_Owns_1,
    copy_assign_spec twoListsState 0 1 [(0, 1), (1, 2)] [(2, 1), (3, 2), (4, 3)] 3
      twoListsState_Owns_0 twoListsState_Owns_1 (by decide) (by decide) (by decide)
      (by decide)⟩

/-! ## swap -/

theorem Owns_unique {α : Type} (s : State α) (this : Nat) (cs ds : List (Nat × α))
    (h1 : Owns s this cs) (h2 : Owns s this ds) : cs = ds := by
  obtain ⟨l, hl, _, hseg⟩ := h1
  obtain ⟨l2, hl2, _, hseg2⟩ := h2
  rw [hl] at hl2
  have : l = l2 := Option.some.inj hl2
  subst this
  exact Seg_null_unique s cs _ ds hseg hseg2

theorem swap_self {α : Type} (s : State α) (this : Nat) (l : SingleLinkedList)
    (hl : lookup s.lists this = some l) :
    ∃ t, swap s this this = .ok t ∧ t.nodes = s.nodes ∧ lookup t.lists this = some l ∧
      ∀ o, o ≠ this → lookup t.lists o = lookup s.lists o := by
  refine ⟨⟨s.nodes, (this, ⟨l.head_next_node, l.size_⟩) ::
    (this, ⟨l.head_next_node, l.size_⟩) :: (this, ⟨l.head_next_node, l.size_⟩) ::
    (this, ⟨l.head_next_node, l.size_⟩) :: s.lists⟩, ?_, rfl, ?_, ?_⟩
  · simp [swap, getNext, setNext, readList, writeList, lookup, hl]
  · simp [lookup]
  · intro o ho
    simp [lookup, Ne.symm ho]

/-- The member `swap` on two well-formed lists exchanges their chains and sizes and
touches nothing else. -/
theorem swap_Owns {α : Type} (s : State α) (a b : Nat) (ca cb : List (Nat × α))
    (ha : Owns s a ca) (hb : Owns s b cb) :
    ∃ t, swap s a b = .ok t ∧ Owns t a cb ∧ Owns t b ca ∧
      (∀ x, lookup t.nodes x = lookup s.nodes x) ∧
      ∀ o, o ≠ a → o ≠ b → lookup t.lists o = lookup s.lists o := by
  by_cases hab : a = b
  · subst hab
    have hc := Owns_unique s a ca cb ha hb
    subst hc
    obtain ⟨l, hl, hsz, hseg⟩ := ha
    obtain ⟨t, ht, hn, hlt, hot⟩ := swap_self s a l hl
    have hown : Owns t a ca :=
      ⟨l, hlt, hsz, Seg_frame s t ca _ _ (fun x _ => by rw [hn]) hseg⟩
    exact ⟨t, ht, hown, hown, fun x => by rw [hn], fun o h1 _ => hot o h1⟩
  · obtain ⟨la, hla, hsza, hsega⟩ := ha
    obtain ⟨lb, hlb, hszb, hsegb⟩ := hb
    obtain ⟨t, ht, hn, hlta, hltb, hot⟩ := swap_spec s a b la lb hab hla hlb
    exact ⟨t, ht, ⟨lb, hlta, hszb, Seg_frame s t cb _ _ (fun x _ => by rw [hn]) hsegb⟩,
      ⟨la, hltb, hsza, Seg_frame s t ca _ _ (fun x _ => by rw [hn]) hsega⟩,
      fun x => by rw [hn], hot⟩

/-- C11: for two well-formed lists `a` and `b`, the member `swap` (and the free function
`swap`, which is the same call) returns; afterwards `a` owns the former cells of `b`,
so it yields the former sequence of `b` and has its former size, and `b` owns the former
cells of `a`; a second swap returns and gives both lists their original cells back. -/
theorem swap_exchanges {α : Type} (s : State α) (a b : Nat) (ca cb : List (Nat × α))
    (ha : Owns s a ca) (hb : Owns s b cb) :
    ∃ t, swap s a b = .ok t ∧ swap_free s a b = .ok t ∧
      Owns t a cb ∧ Owns t b ca ∧
      toList cb.length s b = .ok (values cb) ∧
      toList cb.length t a = .ok (values cb) ∧
      GetSize s b = .ok cb.length ∧
      GetSize t a = .ok cb.length ∧
      toList ca.length s a = .ok (values ca) ∧
      toList ca.length t b = .ok (values ca) ∧
      GetSize s a = .ok ca.length ∧
      GetSize t b = .ok ca.length ∧
      ∃ u, swap t a b = .ok u ∧ Owns u a ca ∧ Owns u b cb ∧
        toList ca.length u a = .ok (values ca) ∧ GetSize u a = .ok ca.length ∧
        toList cb.length u b = .ok (values cb) ∧ GetSize u b = .ok cb.length := by
  obtain ⟨t, ht, hta, htb, _, _⟩ := swap_Owns s a b ca cb ha hb
  obtain ⟨u, hu, hua, hub, _, _⟩ := swap_Owns t a b cb ca hta htb
  exact ⟨t, ht, ht, hta, htb,
    toList_of_Owns s b cb _ hb (le_refl _), toList_of_Owns t a cb _ hta (le_refl _),
    GetSize_of_Owns s b cb hb, GetSize_of_Owns t a cb hta,
    toList_of_Owns s a ca _ ha (le_refl _), toList_of_Owns t b ca _ htb (le_refl _),
    GetSize_of_Owns s a ca ha, GetSize_of_Owns t b ca htb,
    u, hu, hua, hub,
    toList_of_Owns u a ca _ hua (le_refl _), GetSize_of_Owns u a ca hua,
    toList_of_Owns u b cb _ hub (le_refl _), GetSize_of_Owns u b cb hub⟩

/-- Witness of `swap_exchanges`: swapping the lists `[1, 2]` and `[1, 2, 3]`. -/
theorem swap_exchanges_witness :
    Owns twoListsState 0 [(0, 1), (1, 2)] ∧
    Owns twoListsState 1 [(2, 1), (3, 2), (4, 3)] ∧
    ∃ t, swap twoListsState 0 1 = .ok t ∧ swap_free twoListsState 0 1 = .ok t ∧
      Owns t 0 [(2, 1), (3, 2), (4, 3)] ∧ Owns t 1 [(0, 1), (1, 2)] ∧
      toList 3 twoListsState 1 = .ok [1, 2, 3] ∧
      toList 3 t 0 = .ok [1, 2, 3] ∧
      GetSize twoListsState 1 = .ok 3 ∧
      GetSize t 0 = .ok 3 ∧
      toList 2 twoListsState 0 = .ok [1, 2] ∧
      toList 2 t 1 = .ok [1, 2] ∧
      GetSize twoListsState 0 = .ok 2 ∧
      GetSize t 1 = .ok 2 ∧
      ∃ u, swap t 0 1 = .ok u ∧ Owns u 0 [(0, 1), (1, 2)] ∧
        Owns u 1 [(2, 1), (3, 2), (4, 3)] ∧
        toList 2 u 0 = .ok [1, 2] ∧ GetSize u 0 = .ok 2 ∧
        toList 3 u 1 = .ok [1, 2, 3] ∧ GetSize u 1 = .ok 3 :=
  ⟨twoListsState_Owns_0, twoListsState_Owns_1,
    swap_exchanges twoListsState 0 1 [(0, 1), (1, 2)] [(2, 1), (3, 2), (4, 3)]
      twoListsState_Owns_0 twoListsState_Owns_1⟩

/-! ## Clear -/

theorem readList_empty_of_Owns {α : Type} (s : State α) (this : Nat)
    (h : Owns s this ([] : List (Nat × α))) : lookup s.lists this = some ⟨.null, 0⟩ := by
  obtain ⟨l, hl, hsz, hseg⟩ := h
  have hh : l.head_next_node = .null := hseg
  have hs : l.size_ = 0 := by simpa using hsz
  rw [hl]
  cases l
  simp_all

theorem Clear_empty {α : Type} (fuel : Nat) (s : State α) (this : Nat)
    (h : Owns s this ([] : List (Nat × α))) :
    ∃ t, Clear fuel s this = .ok t ∧ SameContents s t := by
  have hl := readList_empty_of_Owns s this h
  have hloop : Clear.loop this fuel s = .ok s := by
    cases fuel <;> simp [Clear.loop, getNext, readList, hl]
  refine ⟨writeList s this ⟨.null, 0⟩, by simp [Clear, hloop, readList, hl], fun _ => rfl, ?_⟩
  intro o
  by_cases ho : this = o
  · subst ho; simp [writeList, lookup, hl]
  · simp [writeList, lookup, ho]

/-- C12: on a well-formed list, `Clear()` returns and leaves the list object as the
default constructor makes it (null first link, `size_ = 0`), so `GetSize()` is `0`,
`begin()` equals `end()` and iteration yields nothing; a second `Clear()` returns and
leaves the memory contents as the first one left them; and on a list that is already
empty `Clear()` leaves the memory contents as they were. -/
theorem Clear_spec {α : Type} (fuel : Nat) (s : State α) (this : Nat) (cs : List (Nat × α))
    (h : Owns s this cs) (hfuel : cs.length ≤ fuel) :
    ∃ t, Clear fuel s this = .ok t ∧
      readList t this = .ok ⟨.null, 0⟩ ∧
      readList (construct s this) this = .ok ⟨.null, 0⟩ ∧
      GetSize t this = .ok 0 ∧
      IsEmpty t this = .ok true ∧
      begin_ t this = .ok (end_ this) ∧
      (begin_ t this >>= fun b => pure (b.eq (end_ this))) = .ok true ∧
      toList 0 t this = .ok [] ∧
      (∃ u, Clear fuel t this = .ok u ∧ SameContents t u) ∧
      (cs = [] → SameContents s t) := by
  obtain ⟨t, ht, hstep⟩ := Clear_step fuel s this cs h hfuel
  have hl := readList_empty_of_Owns t this hstep.1
  refine ⟨t, ht, by simp [readList, hl], by simp [readList, construct, writeList, lookup],
    by simp [GetSize, readList, hl], by simp [IsEmpty, readList, hl],
    by simp [begin_, getNext, readList, hl, end_],
    by simp [begin_, getNext, readList, hl, end_, BasicIterator.eq],
    by simpa [values] using toList_of_Owns t this [] 0 hstep.1 (le_refl _),
    Clear_empty fuel t this hstep.1, ?_⟩
  intro hcs
  subst hcs
  obtain ⟨t2, ht2, hsame⟩ := Clear_empty fuel s this h
  rw [ht] at ht2
  exact (Except.ok.inj ht2) ▸ hsame

/-- Witness of `Clear_spec`: clearing the list `[1, 2, 3]`. -/
theorem Clear_spec_witness :
    Owns exampleState 0 [(0, 1), (1, 2), (2, 3)] ∧
    ∃ t, Clear 3 exampleState 0 = .ok t ∧
      readList t 0 = .ok ⟨.null, 0⟩ ∧
      readList (construct exampleState 0) 0 = .ok ⟨.null, 0⟩ ∧
      GetSize t 0 = .ok 0 ∧
      IsEmpty t 0 = .ok true ∧
      begin_ t 0 = .ok (end_ 0) ∧
      (begin_ t 0 >>= fun b => pure (b.eq (end_ 0))) = .ok true ∧
      toList 0 t 0 = .ok [] ∧
      (∃ u, Clear 3 t 0 = .ok u ∧ SameContents t u) ∧
      (([(0, 1), (1, 2), (2, 3)] : List (Nat × Int)) = [] → SameContents exampleState t) :=
  ⟨exampleState_Owns,
    Clear_spec 3 exampleState 0 [(0, 1), (1, 2), (2, 3)] exampleState_Owns (by decide)⟩

/-- In every memory, `InsertAfter(before_begin(), v)` and `PushFront(v)` fail together or
leave the same memory. -/
theorem InsertAfter_head_memory {α : Type} (s : State α) (this : Nat) (v : α) :
    (InsertAfter s this (before_begin this) v).map Prod.snd = PushFront s this v := by
  cases hl : lookup s.lists this with
  | none =>
    simp [InsertAfter, PushFront, before_begin, getNext, readList, hl, Except.map]
  | some l =>
    rw [InsertAfter_eval_head s this l v hl, PushFront_eval s this l v hl]
    rfl

/-- C13: on a well-formed list, `InsertAfter(before_begin(), v)` and `PushFront(v)` both
return and leave the very same memory, hence the same element sequence (`v` followed by
the former elements) and the same `GetSize()`; and in any memory whatever the two calls
fail together or leave the same memory. -/
theorem InsertAfter_before_begin_is_PushFront {α : Type} (s : State α) (this : Nat)
    (cs : List (Nat × α)) (v : α) (h : Owns s this cs) :
    (∃ r t, InsertAfter s this (before_begin this) v = .ok (r, t) ∧
      PushFront s this v = .ok t ∧
      toList (cs.length + 1) t this = .ok (v :: values cs) ∧
      GetSize t this = .ok (cs.length + 1)) ∧
    ∀ (s0 : State α) (o : Nat) (w : α),
      (InsertAfter s0 o (before_begin o) w).map Prod.snd = PushFront s0 o w := by
  obtain ⟨t, hins, hpush, hstep, _⟩ := InsertAfter_step_head s this cs v h
  refine ⟨⟨_, t, hins, hpush, ?_, ?_⟩, InsertAfter_head_memory⟩
  · simpa [values] using toList_of_Owns t this _ (cs.length + 1) hstep.1 (by simp)
  · simpa using GetSize_of_Owns t this _ hstep.1

/-- Witness of `InsertAfter_before_begin_is_PushFront`: inserting `7` in front of the list
`[1, 2, 3]`. -/
theorem InsertAfter_before_begin_is_PushFront_witness :
    Owns exampleState 0 [(0, 1), (1, 2), (2, 3)] ∧
    (∃ r t, InsertAfter exampleState 0 (before_begin 0) 7 = .ok (r, t) ∧
      PushFront exampleState 0 7 = .ok t ∧
      toList 4 t 0 = .ok [7, 1, 2, 3] ∧
      GetSize t 0 = .ok 4) ∧
    ∀ (s0 : State Int) (o : Nat) (w : Int),
      (InsertAfter s0 o (before_begin o) w).map Prod.snd = PushFront s0 o w :=
  ⟨exampleState_Owns,
    InsertAfter_before_begin_is_PushFront exampleState 0 [(0, 1), (1, 2), (2, 3)] 7
      exampleState_Owns⟩

/-- C18: on a well-formed non-empty list, `EraseAfter(before_begin())` and `PopFront()`
both return and leave the very same memory, hence the same element sequence (the former
one without its first element) and the same `GetSize()`, and the iterator returned by
`EraseAfter` is `begin()` of the resulting list. -/
theorem EraseAfter_before_begin_is_PopFront {α : Type} (s : State α) (this : Nat) (a : Nat)
    (x : α) (cs : List (Nat × α)) (h : Owns s this ((a, x) :: cs)) :
    ∃ r t, EraseAfter s this (before_begin this) = .ok (r, t) ∧
      PopFront s this = .ok t ∧
      toList cs.length t this = .ok (values cs) ∧
      GetSize t this = .ok cs.length ∧
      begin_ t this = .ok r ∧
      (begin_ t this >>= fun b => pure (r.eq b)) = .ok true := by
  obtain ⟨r, t, hers, hpop, hstep, _, _, hbeg⟩ := EraseAfter_step_head s this a x cs h
  refine ⟨r, t, hers, hpop, toList_of_Owns t this cs _ hstep.1 (le_refl _),
    GetSize_of_Owns t this cs hstep.1, hbeg, ?_⟩
  simp [hbeg, BasicIterator.eq]

/-- Witness of `EraseAfter_before_begin_is_PopFront` on the list `[1, 2, 3]`. -/
theorem EraseAfter_before_begin_is_PopFront_witness :
    Owns exampleState 0 [(0, 1), (1, 2), (2, 3)] ∧
    ∃ r t, EraseAfter exampleState 0 (before_begin 0) = .ok (r, t) ∧
      PopFront exampleState 0 = .ok t ∧
      toList 2 t 0 = .ok [2, 3] ∧
      GetSize t 0 = .ok 2 ∧
      begin_ t 0 = .ok r ∧
      (begin_ t 0 >>= fun b => pure (r.eq b)) = .ok true :=
  ⟨exampleState_Owns,
    EraseAfter_before_begin_is_PopFront exampleState 0 0 1 [(1, 2), (2, 3)] exampleState_Owns⟩

/-- C15: the concrete scenario.  From the empty list, `PushFront(3)`, `PushFront(2)`,
`PushFront(1)` give the iteration `[1, 2, 3]` and size `3`; `InsertAfter(begin(), 99)`
then gives `[1, 99, 2, 3]`; `EraseAfter(begin())` then gives `[1, 2, 3]`; `PopFront()`
then gives `[2, 3]` and size `2`. -/
theorem scenario_spec :
    (scenarioPushed >>= fun s => toList 3 s 0) = .ok [1, 2, 3] ∧
    (scenarioPushed >>= fun s => GetSize s 0) = .ok 3 ∧
    (scenarioInserted >>= fun s => toList 4 s 0) = .ok [1, 99, 2, 3] ∧
    (scenarioInserted >>= fun s => GetSize s 0) = .ok 4 ∧
    (scenarioErased >>= fun s => toList 3 s 0) = .ok [1, 2, 3] ∧
    (scenarioErased >>= fun s => GetSize s 0) = .ok 3 ∧
    (scenarioPopped >>= fun s => toList 2 s 0) = .ok [2, 3] ∧
    (scenarioPopped >>= fun s => GetSize s 0) = .ok 2 :=
  ⟨rfl, rfl, rfl, rfl, rfl, rfl, rfl, rfl⟩

/-! ## The comparison operators -/

/-- On two null-terminated chains `std::equal` returns, with the value of the comparison
of the two value sequences. -/
theorem std_equal_of_Seg {α : Type} [DecidableEq α] (s : State α) (ca : List (Nat × α)) :
    ∀ (cb : List (Nat × α)) (fuel : Nat) (p q : NodePtr), Seg s p ca .null → Seg s q cb .null →
      min ca.length cb.length ≤ fuel →
      std_equal s fuel ⟨p⟩ ⟨.null⟩ ⟨q⟩ ⟨.null⟩ = .ok (decide (values ca = values cb)) := by
  induction ca with
  | nil =>
    intro cb fuel p q hp hq _
    have hpn : p = .null := hp
    subst hpn
    have hqn := Seg_null_iff s q cb hq
    have hv : values ([] : List (Nat × α)) = values cb ↔ q = .null := by
      rw [hqn]; cases cb <;> simp [values]
    cases fuel <;> simp [std_equal, BasicIterator.ne, BasicIterator.eq, hv]
  | cons c ca ih =>
    obtain ⟨a, x⟩ := c
    intro cb fuel p q hp hq hfuel
    obtain ⟨hpa, nx, hn, hrest⟩ := hp
    subst hpa
    cases cb with
    | nil =>
      have hqn : q = .null := hq
      subst hqn
      cases fuel <;> simp [std_equal, BasicIterator.ne, BasicIterator.eq, values]
    | cons d cb =>
      obtain ⟨b, y⟩ := d
      obtain ⟨hqb, ny, hm, hrest2⟩ := hq
      subst hqb
      cases fuel with
      | zero => simp at hfuel
      | succ fuel =>
        have hf : min ca.length cb.length ≤ fuel := by
          simp only [List.length_cons] at hfuel
          omega
        by_cases hxy : x = y
        · subst hxy
          simp [std_equal, BasicIterator.ne, BasicIterator.deref, getValue, readNode, hn, hm,
            BasicIterator.preInc, getNext, ih cb fuel nx ny hrest hrest2 hf, values]
        · simp [std_equal, BasicIterator.ne, BasicIterator.deref, getValue, readNode, hn, hm,
            hxy, values]

/-- On two null-terminated chains `std::lexicographical_compare` returns. -/
theorem std_lexicographical_compare_of_Seg {α : Type} [LT α]
    [DecidableRel (fun a b : α => a < b)] (s : State α) (ca : List (Nat × α)) :
    ∀ (cb : List (Nat × α)) (fuel : Nat) (p q : NodePtr), Seg s p ca .null → Seg s q cb .null →
      min ca.length cb.length ≤ fuel →
      ∃ r, std_lexicographical_compare s fuel ⟨p⟩ ⟨.null⟩ ⟨q⟩ ⟨.null⟩ = .ok r := by
  induction ca with
  | nil =>
    intro cb fuel p q hp hq _
    have hpn : p = .null := hp
    subst hpn
    cases fuel <;> simp [std_lexicographical_compare, BasicIterator.ne, BasicIterator.eq] <;>
      exact Decidable.em _
  | cons c ca ih =>
    obtain ⟨a, x⟩ := c
    intro cb fuel p q hp hq hfuel
    obtain ⟨hpa, nx, hn, hrest⟩ := hp
    subst hpa
    cases cb with
    | nil =>
      have hqn : q = .null := hq
      subst hqn
      cases fuel <;> simp [std_lexicographical_compare, BasicIterator.ne, BasicIterator.eq]
    | cons d cb =>
      obtain ⟨b, y⟩ := d
      obtain ⟨hqb, ny, hm, hrest2⟩ := hq
      subst hqb
      cases fuel with
      | zero => simp at hfuel
      | succ fuel =>
        have hf : min ca.length cb.length ≤ fuel := by
          simp only [List.length_cons] at hfuel
          omega
        obtain ⟨r, hr⟩ := ih cb fuel nx ny hrest hrest2 hf
        by_cases h1 : x < y
        · exact ⟨true, by
            simp [std_lexicographical_compare, BasicIterator.ne, BasicIterator.deref, getValue,
              readNode, hn, hm, h1]⟩
        · by_cases h2 : y < x
          · exact ⟨false, by
              simp [std_lexicographical_compare, BasicIterator.ne, BasicIterator.deref,
                getValue, readNode, hn, hm, h1, h2]⟩
          · exact ⟨r, by
              simp [std_lexicographical_compare, BasicIterator.ne, BasicIterator.deref,
                getValue, readNode, hn, hm, h1, h2, BasicIterator.preInc, getNext, hr]⟩

theorem operator_eq_true {α : Type} [DecidableEq α] (fuel : Nat) (s : State α) (a b : Nat)
    (ca cb : List (Nat × α)) (ha : Owns s a ca) (hb : Owns s b cb)
    (hfuel : min ca.length cb.length ≤ fuel) : operator_eq fuel s a b = .ok true := by
  obtain ⟨la, hla, _, hsa⟩ := ha
  obtain ⟨lb, hlb, _, hsb⟩ := hb
  simp [operator_eq, begin_, getNext, readList, hla, hlb, end_,
    std_equal_of_Seg s ca cb fuel _ _ hsa hsb hfuel]

theorem operator_lt_true {α : Type} [LT α] [DecidableRel (fun a b : α => a < b)]
    (fuel : Nat) (s : State α) (a b : Nat)
    (ca cb : List (Nat × α)) (ha : Owns s a ca) (hb : Owns s b cb)
    (hfuel : min ca.length cb.length ≤ fuel) : operator_lt fuel s a b = .ok true := by
  obtain ⟨la, hla, _, hsa⟩ := ha
  obtain ⟨lb, hlb, _, hsb⟩ := hb
  obtain ⟨r, hr⟩ := std_lexicographical_compare_of_Seg s ca cb fuel _ _ hsa hsb hfuel
  simp [operator_lt, begin_, getNext, readList, hla, hlb, end_, hr]

/-- C16: as implemented, on every pair of well-formed lists, whatever their lengths and
elements, `operator==` and `operator<` return `true`; hence `operator!=` returns `false`
and `operator<=`, `operator>` and `operator>=` return `true`. -/
theorem comparison_operators_constant {α : Type} [DecidableEq α] [LT α]
    [DecidableRel (fun a b : α => a < b)] (fuel : Nat) (s : State α) (a b : Nat)
    (ca cb : List (Nat × α)) (ha : Owns s a ca) (hb : Owns s b cb)
    (hfuel : min ca.length cb.length ≤ fuel) :
    operator_eq fuel s a b = .ok true ∧
    operator_lt fuel s a b = .ok true ∧
    operator_ne fuel s a b = .ok false ∧
    operator_le fuel s a b = .ok true ∧
    operator_gt fuel s a b = .ok true ∧
    operator_ge fuel s a b = .ok true := by
  have hf2 : min cb.length ca.length ≤ fuel := by rw [Nat.min_comm]; exact hfuel
  have heq := operator_eq_true fuel s a b ca cb ha hb hfuel
  have hlt := operator_lt_true fuel s a b ca cb ha hb hfuel
  have hgt := operator_lt_true fuel s b a cb ca hb ha hf2
  exact ⟨heq, hlt, by simp [operator_ne, heq], hgt, hgt, hgt⟩

/-- Witness of `comparison_operators_constant`: the lists `[1, 2]` and `[1, 2, 3]`. -/
theorem comparison_operators_constant_witness :
    Owns twoListsState 0 [(0, 1), (1, 2)] ∧
    Owns twoListsState 1 [(2, 1), (3, 2), (4, 3)] ∧
    operator_eq 2 twoListsState 0 1 = .ok true ∧
    operator_lt 2 twoListsState 0 1 = .ok true ∧
    operator_ne 2 twoListsState 0 1 = .ok false ∧
    operator_le 2 twoListsState 0 1 = .ok true ∧
    operator_gt 2 twoListsState 0 1 = .ok true ∧
    operator_ge 2 twoListsState 0 1 = .ok true :=
  ⟨twoListsState_Owns_0, twoListsState_Owns_1,
    comparison_operators_constant 2 twoListsState 0 1 [(0, 1), (1, 2)]
      [(2, 1), (3, 2), (4, 3)] twoListsState_Owns_0 twoListsState_Owns_1 (by decide)⟩

/-! ## Iterators -/

theorem postInc_iff_preInc {α : Type} (u : State α) (it old n : BasicIterator) :
    it.postInc u = .ok (old, n) ↔ (old = it ∧ it.preInc u = .ok n) := by
  obtain ⟨p⟩ := it
  cases p with
  | null =>
    simp [BasicIterator.postInc, BasicIterator.preInc, getNext]
  | head o =>
    cases h : readList u o with
    | error e => simp [BasicIterator.postInc, BasicIterator.preInc, getNext, h]
    | ok l =>
      simp [BasicIterator.postInc, BasicIterator.preInc, getNext, h]
      intro _
      exact eq_comm
  | heap a =>
    cases h : readNode u a with
    | error e => simp [BasicIterator.postInc, BasicIterator.preInc, getNext, h]
    | ok l =>
      simp [BasicIterator.postInc, BasicIterator.preInc, getNext, h]
      intro _
      exact eq_comm

theorem getElem?_split {β : Type} (pre post : List β) (c : β) :
    (pre ++ c :: post)[pre.length]? = some c := by
  induction pre with
  | nil => simp
  | cons p pre ih => simpa using ih

/-- C17: on a well-formed list with `n` cells, the chain visits no node twice; the
iterator started at `begin()` and incremented `k < n` times refers to the node of index
`k`, differs from `end()` and dereferences to the element of index `k`; after exactly
`n` increments it equals `end()`; and in any memory post-increment returns the position
it started from and moves to the iterator that pre-increment moves to. -/
theorem iterator_walk {α : Type} (s : State α) (this : Nat) (cs : List (Nat × α))
    (h : Owns s this cs) :
    (addrs cs).Nodup ∧
    ∃ b, begin_ s this = .ok b ∧
      (∀ (k a : Nat) (x : α), cs[k]? = some (a, x) →
        advance s k b = .ok ⟨.heap a⟩ ∧
        (⟨.heap a⟩ : BasicIterator).ne (end_ this) = true ∧
        (⟨.heap a⟩ : BasicIterator).eq (end_ this) = false ∧
        (⟨.heap a⟩ : BasicIterator).deref s = .ok x ∧
        (values cs)[k]? = some x) ∧
      advance s cs.length b = .ok (end_ this) ∧
      (end_ this).eq (end_ this) = true ∧
      ∀ (u : State α) (it old n : BasicIterator),
        it.postInc u = .ok (old, n) ↔ (old = it ∧ it.preInc u = .ok n) := by
  obtain ⟨l, hl, hsz, hseg⟩ := h
  refine ⟨Seg_null_nodup s cs _ hseg, ⟨l.head_next_node⟩,
    by simp [begin_, getNext, readList, hl], ?_, ?_, by simp [BasicIterator.eq],
    postInc_iff_preInc⟩
  · intro k a x hk
    have hlt : k < cs.length := by
      by_contra hge
      rw [List.getElem?_eq_none (by omega)] at hk
      simp at hk
    obtain ⟨pre, c, post, hsplit, hlen⟩ := split_at_index cs k hlt
    subst hsplit; subst hlen
    rw [getElem?_split] at hk
    have hc : c = (a, x) := Option.some.inj hk
    subst hc
    obtain ⟨m, h1, h2⟩ := (Seg_append s pre _ _ _).1 hseg
    obtain ⟨hm, nx, hn, _⟩ := h2
    subst hm
    refine ⟨advance_of_Seg s pre _ _ h1, by simp [BasicIterator.ne, end_],
      by simp [BasicIterator.eq, end_],
      by simp [BasicIterator.deref, getValue, readNode, hn], ?_⟩
    have e1 : values (pre ++ (a, x) :: post) = values pre ++ x :: values post := by
      simp [values]
    rw [e1, ← values_length pre, getElem?_split]
  · exact advance_of_Seg s cs _ _ hseg

/-- Witness of `iterator_walk`: the list `[1, 2, 3]`. -/
theorem iterator_walk_witness :
    Owns exampleState 0 [(0, 1), (1, 2), (2, 3)] ∧
    (addrs [(0, (1 : Int)), (1, 2), (2, 3)]).Nodup ∧
    ∃ b, begin_ exampleState 0 = .ok b ∧
      (∀ (k a : Nat) (x : Int), [(0, (1 : Int)), (1, 2), (2, 3)][k]? = some (a, x) →
        advance exampleState k b = .ok ⟨.heap a⟩ ∧
        (⟨.heap a⟩ : BasicIterator).ne (end_ 0) = true ∧
        (⟨.heap a⟩ : BasicIterator).eq (end_ 0) = false ∧
        (⟨.heap a⟩ : BasicIterator).deref exampleState = .ok x ∧
        (values [(0, (1 : Int)), (1, 2), (2, 3)])[k]? = some x) ∧
      advance exampleState 3 b = .ok (end_ 0) ∧
      (end_ 0).eq (end_ 0) = true ∧
      ∀ (u : State Int) (it old n : BasicIterator),
        it.postInc u = .ok (old, n) ↔ (old = it ∧ it.preInc u = .ok n) :=
  ⟨exampleState_Owns, iterator_walk exampleState 0 [(0, 1), (1, 2), (2, 3)] exampleState_Owns⟩

/-- The first pointer of a null-terminated chain is fixed by its cells. -/
theorem Seg_null_start {α : Type} (s t : State α) (p q : NodePtr) (cs : List (Nat × α))
    (h1 : Seg s p cs .null) (h2 : Seg t q cs .null) : p = q := by
  cases cs with
  | nil =>
    have e1 : p = .null := h1
    have e2 : q = .null := h2
    rw [e1, e2]
  | cons c cs =>
    obtain ⟨a, x⟩ := c
    rw [h1.1, h2.1]

/-- C19: on a well-formed list with cells `cs` and a valid position `pos`,
`InsertAfter(pos, v)` followed by `EraseAfter(pos)` both return; afterwards the list owns
exactly the cells it owned at the start, so it yields the original sequence and has the
original `GetSize()`; and the iterator returned by `EraseAfter` is the successor that
`pos` had at the start: iterating from it yields the original elements after `pos`, and
it equals `end()` exactly when `pos` had no successor. -/
theorem InsertAfter_EraseAfter_restores {α : Type} (s : State α) (this : Nat)
    (cs : List (Nat × α)) (pos : Position) (v : α) (h : Owns s this cs)
    (hpos : pos.index ≤ cs.length) :
    ∃ it r1 t r2 u, pos.iterator s this = .ok it ∧
      InsertAfter s this it v = .ok (r1, t) ∧
      EraseAfter t this it = .ok (r2, u) ∧
      Owns u this cs ∧
      toList cs.length s this = .ok (values cs) ∧
      toList cs.length u this = .ok (values cs) ∧
      GetSize s this = .ok cs.length ∧
      GetSize u this = .ok cs.length ∧
      it.preInc s = .ok r2 ∧
      iterate u cs.length r2 (end_ this) = .ok ((values cs).drop pos.index) ∧
      r2.eq (end_ this) = decide (pos.index = cs.length) := by
  have hbefore := toList_of_Owns s this cs _ h (le_refl _)
  have hsize := GetSize_of_Owns s this cs h
  cases pos with
  | beforeBegin =>
    obtain ⟨t, hins, _, hstep, _⟩ := InsertAfter_step_head s this cs v h
    obtain ⟨r2, u, hers, _, hstep2, hseg, _, _⟩ :=
      EraseAfter_step_head t this (fresh s.nodes) v cs hstep.1
    have hown := hstep2.1
    obtain ⟨l, hl, _, hsegs⟩ := h
    have hr2 : r2 = ⟨l.head_next_node⟩ := by
      obtain ⟨p⟩ := r2
      have := Seg_null_start u s p _ cs hseg hsegs
      simp at this
      rw [this]
    refine ⟨before_begin this, _, t, r2, u, rfl, hins, hers, hown, hbefore,
      toList_of_Owns u this cs _ hown (le_refl _), hsize, GetSize_of_Owns u this cs hown,
      ?_, ?_, ?_⟩
    · simp [BasicIterator.preInc, before_begin, getNext, readList, hl, hr2]
    · simpa [Position.index] using iterate_of_Seg u this cs cs.length _ hseg (le_refl _)
    · have e6 := Seg_null_iff u _ cs hseg
      cases cs with
      | nil => simp [BasicIterator.eq, end_, Position.index, e6]
      | cons c cs => simp [BasicIterator.eq, end_, Position.index, e6]
  | element k =>
    have hk : k < cs.length := by simp [Position.index] at hpos; omega
    obtain ⟨pre, c, post, hsplit, hlen⟩ := split_at_index cs k hk
    obtain ⟨a, x⟩ := c
    subst hsplit; subst hlen
    obtain ⟨t, hins, hstep, _⟩ := InsertAfter_step_heap s this pre post a x v h
    obtain ⟨r2, u, hers, hstep2, hseg, _⟩ :=
      EraseAfter_step_heap t this pre post a (fresh s.nodes) x v hstep.1
    have hown := hstep2.1
    obtain ⟨l, hl, _, hsegs⟩ := h
    obtain ⟨m, _, h2⟩ := (Seg_append s pre _ _ _).1 hsegs
    obtain ⟨_, nx, hn, hpost⟩ := h2
    have hr2 : r2 = ⟨nx⟩ := by
      obtain ⟨p⟩ := r2
      have := Seg_null_start u s p _ post hseg hpost
      simp at this
      rw [this]
    have e1 : values (pre ++ (a, x) :: post) = values pre ++ x :: values post := by
      simp [values]
    have e2 : (values pre).length = pre.length := values_length pre
    have hit : Position.iterator s this (.element pre.length) = .ok ⟨.heap a⟩ :=
      iterator_element s this pre post a x ⟨l, hl, by assumption, hsegs⟩
    refine ⟨⟨.heap a⟩, _, t, r2, u, hit, hins, hers, hown, hbefore,
      toList_of_Owns u this _ _ hown (le_refl _), hsize, GetSize_of_Owns u this _ hown,
      ?_, ?_, ?_⟩
    · simp [BasicIterator.preInc, getNext, readNode, hn, hr2]
    · have hl2 := iterate_of_Seg u this post (pre ++ (a, x) :: post).length _ hseg
        (by simp; omega)
      rw [hl2, e1]
      simp only [Position.index]
      rw [← e2, drop_split]
    · have e6 := Seg_null_iff u _ post hseg
      cases post with
      | nil => simp [BasicIterator.eq, end_, Position.index, e6]
      | cons p post => simp [BasicIterator.eq, end_, Position.index, e6]

/-- Witness of `InsertAfter_EraseAfter_restores`: inserting `99` after the last element of
the list `[1, 2, 3]` and erasing it again. -/
theorem InsertAfter_EraseAfter_restores_witness :
    Owns exampleState 0 [(0, 1), (1, 2), (2, 3)] ∧
    ∃ it r1 t r2 u, (Position.element 2).iterator exampleState 0 = .ok it ∧
      InsertAfter exampleState 0 it 99 = .ok (r1, t) ∧
      EraseAfter t 0 it = .ok (r2, u) ∧
      Owns u 0 [(0, 1), (1, 2), (2, 3)] ∧
      toList 3 exampleState 0 = .ok [1, 2, 3] ∧
      toList 3 u 0 = .ok [1, 2, 3] ∧
      GetSize exampleState 0 = .ok 3 ∧
      GetSize u 0 = .ok 3 ∧
      it.preInc exampleState = .ok r2 ∧
      iterate u 3 r2 (end_ 0) = .ok [] ∧
      r2.eq (end_ 0) = true :=
  ⟨exampleState_Owns,
    InsertAfter_EraseAfter_restores exampleState 0 [(0, 1), (1, 2), (2, 3)] (.element 2) 99
      exampleState_Owns (by decide)⟩

/-! ## The stages of Assign -/

theorem arrayOps_RangeSpec {α : Type} (s : State α) (vs : List α) :
    RangeSpec (arrayOps α) ⟨vs, vs.length⟩ [] s (arrayDelivers vs) := by
  refine ⟨?_, ?_, fun _ h => by simp at h⟩
  · rintro f ⟨_, h2, _⟩
    simp at h2
    simp [arrayOps, h2]
  · rintro t f v ws _ ⟨h1, h2, h3⟩
    have hidx : f.idx ≠ vs.length := by simp at h2; omega
    have hget : f.arr.get? f.idx = some v := by
      have := List.getElem?_drop vs f.idx 0
      rw [h3] at this
      rw [h1]; simpa using this.symm
    refine ⟨by simp [arrayOps, hidx], by simp only [arrayOps, hget], ⟨f.arr, f.idx + 1⟩,
      rfl, h1, by simp at h2 ⊢; omega, ?_⟩
    have := List.tail_drop vs f.idx
    rw [h3] at this
    simpa using this.symm

/-- The range from `begin()` to `end()` of a well-formed list, as the copy constructor
hands it to `Assign`, is a well-behaved input range. -/
theorem listOps_RangeSpec {α : Type} (s : State α) (other : Nat) (cs : List (Nat × α))
    (p : NodePtr) (hseg : Seg s p cs .null) :
    RangeSpec (listOps α) (end_ other) (addrs cs) s
      (fun f ws => ∃ ds, Seg s f.node_ ds .null ∧ values ds = ws ∧
        ∀ a ∈ addrs ds, a ∈ addrs cs) := by
  refine ⟨?_, ?_, fun a ha => Seg_live s cs _ _ hseg a ha⟩
  · rintro f ⟨ds, hs, hv, _⟩
    have hds : ds = [] := by simpa [values] using hv
    subst hds
    have hf : f.node_ = .null := hs
    simp [listOps, BasicIterator.ne, end_, hf]
  · rintro t f v ws hB ⟨ds, hs, hv, hsub⟩
    cases ds with
    | nil => simp [values] at hv
    | cons d ds =>
      obtain ⟨a, x⟩ := d
      obtain ⟨hf, nx, hn, hrest⟩ := hs
      have hxv : x = v ∧ values ds = ws := by simpa [values] using hv
      have hnt : lookup t.nodes a = some ⟨x, nx⟩ := by
        rw [hB a (hsub a (by simp [addrs]))]; exact hn
      refine ⟨by simp [listOps, BasicIterator.ne, end_, hf], ?_, ⟨nx⟩, ?_, ds, hrest,
        hxv.2, fun b hb => hsub b (by simp [addrs] at hb ⊢; exact Or.inr hb)⟩
      · simp [listOps, BasicIterator.deref, getValue, readNode, hf, hnt, hxv.1]
      · simp [listOps, BasicIterator.preInc, getNext, readNode, hf, hnt]

/-- C20: run `Assign` on a well-formed list `this` with cells `old` and a well-behaved input
range that delivers the values `vs`.  The loop returns, so the assertion
`*node_ptr == nullptr` never fires; at loop exit the temporary list owns new cells that
hold `vs` in input order, its `size_` is the number of values, and `node_ptr` addresses
its null tail link; the swap returns, after which the temporary owns the previous cells
of the list (its previous chain and size) and the list owns the new cells; and `Assign`
as a whole returns. -/
theorem Assign_stages {α I : Type} (ops : InputIterator α I) (to_ : I)
    (B : List Nat) (Good : I → List α → Prop) (s : State α) (this : Nat)
    (old : List (Nat × α)) (f : I) (vs : List α) (fuel : Nat)
    (hrange : RangeSpec ops to_ B s Good) (hg : Good f vs) (hown : Owns s this old)
    (hf1 : vs.length ≤ fuel) (hf2 : old.length ≤ fuel) :
    ∃ s1 new s2 t,
      Assign.loop ops (fresh s.lists) fuel (construct s (fresh s.lists))
        (.head (fresh s.lists)) f to_ = .ok s1 ∧
      Owns s1 (fresh s.lists) new ∧ values new = vs ∧
      GetSize s1 (fresh s.lists) = .ok vs.length ∧
      toList vs.length s1 (fresh s.lists) = .ok vs ∧
      getNext s1 (lastPtr (fresh s.lists) new) = .ok .null ∧
      swap s1 this (fresh s.lists) = .ok s2 ∧
      Owns s2 (fresh s.lists) old ∧ Owns s2 this new ∧
      GetSize s2 (fresh s.lists) = .ok old.length ∧
      toList old.length s2 (fresh s.lists) = .ok (values old) ∧
      Assign ops fuel s this f to_ = .ok t ∧ Owns t this new ∧
      toList vs.length t this = .ok vs ∧ GetSize t this = .ok vs.length := by
  obtain ⟨hnil, hcons, hBlive⟩ := hrange
  obtain ⟨lthis, hlthis, hszthis, hsegthis⟩ := hown
  have htmp : this ≠ fresh s.lists := ne_fresh_of_lookup _ _ _ hlthis
  obtain ⟨s1, new, hloop, hstep1, hval⟩ := Assign_loop_spec ops to_ (fresh s.lists) B s.nodes
    Good hnil hcons hBlive vs fuel (construct s (fresh s.lists)) [] f hf1 hg
    (Owns_construct s (fresh s.lists)) (fun _ _ => rfl) (fun _ _ => by simp [addrs])
  rw [lastPtr_nil] at hloop
  simp only [List.nil_append] at hstep1
  have hown1 := hstep1.1
  obtain ⟨⟨ltmp, hltmp, hsztmp, hsegtmp⟩, hfr1, hnew1⟩ := hstep1
  have hfr01 : Frame s s1 [fresh s.lists] [] := by
    simpa using Frame_trans _ _ _ _ _ _ (Frame_construct s (fresh s.lists)) hfr1
  have hnewfresh : ∀ a ∈ addrs new, lookup s.nodes a = none := by
    intro a ha
    rcases hnew1 a ha with h | h
    · simp [addrs] at h
    · exact h
  have hlthis1 : lookup s1.lists this = some lthis := by
    rw [hfr01.1 this (by simpa using htmp)]; exact hlthis
  obtain ⟨s2, hswap, hn2, hl2this, hl2tmp, _⟩ :=
    swap_spec s1 this (fresh s.lists) lthis ltmp htmp hlthis1 hltmp
  have hseg_old1 : Seg s1 lthis.head_next_node old .null :=
    Seg_frame_of_Frame s s1 _ [] old _ _ hfr01 (fun _ _ => by simp) hsegthis
  have hsame : ∀ (p q : NodePtr) (cs : List (Nat × α)), Seg s1 p cs q → Seg s2 p cs q :=
    fun p q cs h => Seg_frame s1 s2 cs p q (fun a _ => by rw [hn2]) h
  have hown2tmp : Owns s2 (fresh s.lists) old :=
    ⟨lthis, hl2tmp, hszthis, hsame _ _ _ hseg_old1⟩
  have hown2this : Owns s2 this new := ⟨ltmp, hl2this, hsztmp, hsame _ _ _ hsegtmp⟩
  obtain ⟨t, hdes, _, hfr3⟩ := destruct_spec fuel s2 (fresh s.lists) old hown2tmp hf2
  have hdisj : ∀ a ∈ addrs new, a ∉ addrs old := by
    intro a ha hold
    exact Seg_live s old _ _ hsegthis a hold (hnewfresh a ha)
  have hownt : Owns t this new :=
    Owns_frame s2 t [fresh s.lists] (addrs old) this new hfr3 (by simpa using htmp) hdisj
      hown2this
  have hlen : new.length = vs.length := by rw [← hval]; exact (values_length new).symm
  refine ⟨s1, new, s2, t, hloop, hown1, hval, ?_, ?_, getNext_lastPtr s1 _ new hown1, hswap,
    hown2tmp, hown2this, GetSize_of_Owns s2 _ old hown2tmp,
    toList_of_Owns s2 _ old _ hown2tmp (le_refl _), ?_, hownt, ?_, ?_⟩
  · rw [← hlen]; exact GetSize_of_Owns s1 _ new hown1
  · rw [← hlen, ← hval]; exact toList_of_Owns s1 _ new _ hown1 (le_refl _)
  · simp [Assign, hloop, hswap, hdes]
  · rw [← hlen, ← hval]; exact toList_of_Owns t this new _ hownt (le_refl _)
  · rw [← hlen]; exact GetSize_of_Owns t this new hownt

/-- Witness of `Assign_stages`: assigning the initializer list `{7, 8}` to the list
`[1, 2, 3]`; the temporary list lives at address `1`. -/
theorem Assign_stages_witness :
    RangeSpec (arrayOps Int) ⟨[7, 8], 2⟩ [] exampleState (arrayDelivers [7, 8]) ∧
    arrayDelivers [7, 8] ⟨[7, 8], 0⟩ [7, 8] ∧
    Owns exampleState 0 [(0, 1), (1, 2), (2, 3)] ∧
    ∃ s1 new s2 t,
      Assign.loop (arrayOps Int) 1 3 (construct exampleState 1) (.head 1)
        ⟨[7, 8], 0⟩ ⟨[7, 8], 2⟩ = .ok s1 ∧
      Owns s1 1 new ∧ values new = [7, 8] ∧
      GetSize s1 1 = .ok 2 ∧
      toList 2 s1 1 = .ok [7, 8] ∧
      getNext s1 (lastPtr 1 new) = .ok .null ∧
      swap s1 0 1 = .ok s2 ∧
      Owns s2 1 [(0, 1), (1, 2), (2, 3)] ∧ Owns s2 0 new ∧
      GetSize s2 1 = .ok 3 ∧
      toList 3 s2 1 = .ok [1, 2, 3] ∧
      Assign (arrayOps Int) 3 exampleState 0 ⟨[7, 8], 0⟩ ⟨[7, 8], 2⟩ = .ok t ∧
      Owns t 0 new ∧
      toList 2 t 0 = .ok [7, 8] ∧ GetSize t 0 = .ok 2 :=
  ⟨arrayOps_RangeSpec exampleState [7, 8], ⟨rfl, rfl, rfl⟩, exampleState_Owns,
    Assign_stages (arrayOps Int) ⟨[7, 8], 2⟩ [] (arrayDelivers [7, 8]) exampleState 0
      [(0, 1), (1, 2), (2, 3)] ⟨[7, 8], 0⟩ [7, 8] 3 (arrayOps_RangeSpec exampleState [7, 8])
      ⟨rfl, rfl, rfl⟩ exampleState_Owns (by decide) (by decide)⟩

/-! ## More fuel changes nothing -/

theorem bind_eq_ok {β γ : Type} (x : Except Fault β) (f : β → Except Fault γ) (c : γ) :
    (x >>= f) = .ok c ↔ ∃ b, x = .ok b ∧ f b = .ok c := by
  cases x with
  | error e => simp
  | ok b => simp

theorem Clear_loop_mono {α : Type} (this : Nat) :
    ∀ (fuel fuel2 : Nat) (s t : State α), fuel ≤ fuel2 →
      Clear.loop this fuel s = .ok t → Clear.loop this fuel2 s = .ok t := by
  intro fuel
  induction fuel with
  | zero =>
    intro fuel2 s t _ h
    simp only [Clear.loop, bind_eq_ok] at h
    obtain ⟨p, hp, h2⟩ := h
    by_cases hn : p = .null
    · subst hn
      simp at h2
      subst h2
      cases fuel2 <;> simp [Clear.loop, hp]
    · simp [hn] at h2
  | succ fuel ih =>
    intro fuel2 s t hle h
    cases fuel2 with
    | zero => omega
    | succ fuel2 =>
      simp only [Clear.loop, bind_eq_ok] at h
      obtain ⟨p, hp, h2⟩ := h
      by_cases hn : p = .null
      · subst hn
        simp at h2
        subst h2
        simp [Clear.loop, hp]
      · simp only [ne_eq, hn, not_false_eq_true, if_true, bind_eq_ok] at h2
        obtain ⟨nh, hnh, s1, hs1, s2, hs2, hrec⟩ := h2
        have := ih fuel2 s2 t (by omega) hrec
        simp [Clear.loop, hp, hn, hnh, hs1, hs2, this]

theorem Clear_mono {α : Type} (fuel fuel2 : Nat) (s t : State α) (this : Nat)
    (hle : fuel ≤ fuel2) (h : Clear fuel s this = .ok t) : Clear fuel2 s this = .ok t := by
  simp only [Clear, bind_eq_ok] at h
  obtain ⟨s1, hs1, l, hl, ht⟩ := h
  simp [Clear, Clear_loop_mono this fuel fuel2 s s1 hle hs1, hl]
  simpa using ht

theorem destruct_mono {α : Type} (fuel fuel2 : Nat) (s t : State α) (this : Nat)
    (hle : fuel ≤ fuel2) (h : destruct fuel s this = .ok t) :
    destruct fuel2 s this = .ok t := by
  simp only [destruct, bind_eq_ok] at h
  obtain ⟨s1, hs1, ht⟩ := h
  simp [destruct, Clear_mono fuel fuel2 s s1 this hle hs1]
  simpa using ht

theorem Assign_loop_mono {α I : Type} (ops : InputIterator α I) (tmp : Nat) (to_ : I) :
    ∀ (fuel fuel2 : Nat) (s t : State α) (np : NodePtr) (f : I), fuel ≤ fuel2 →
      Assign.loop ops tmp fuel s np f to_ = .ok t →
      Assign.loop ops tmp fuel2 s np f to_ = .ok t := by
  intro fuel
  induction fuel with
  | zero =>
    intro fuel2 s t np f _ h
    by_cases hne : ops.ne f to_ = true
    · simp [Assign.loop, hne] at h
    · simp only [Assign.loop, hne] at h
      cases fuel2 <;> simp only [Assign.loop, hne] <;> exact h
  | succ fuel ih =>
    intro fuel2 s t np f hle h
    cases fuel2 with
    | zero => omega
    | succ fuel2 =>
      by_cases hne : ops.ne f to_ = true
      · simp only [Assign.loop, hne, if_true, bind_eq_ok] at h
        obtain ⟨cur, hcur, h2⟩ := h
        by_cases hc : cur = .null
        · subst hc
          simp only [ne_eq, not_true_eq_false, if_false, bind_eq_ok] at h2
          obtain ⟨v, hv, s2, hs2, s3, hs3, np1, hnp1, h3⟩ := h2
          by_cases hn1 : np1 = .null
          · simp [hn1] at h3
          · simp only [hn1, if_false, bind_eq_ok] at h3
            obtain ⟨f1, hf1, hrec⟩ := h3
            have := ih fuel2 s3 t np1 f1 (by omega) hrec
            simp [Assign.loop, hne, hcur, hv, hs2, hs3, hnp1, hn1, hf1, this]
        · simp [hc] at h2
      · simp only [Assign.loop, hne] at h ⊢
        exact h

theorem Assign_mono {α I : Type} (ops : InputIterator α I) (fuel fuel2 : Nat) (s t : State α)
    (this : Nat) (f to_ : I) (hle : fuel ≤ fuel2) (h : Assign ops fuel s this f to_ = .ok t) :
    Assign ops fuel2 s this f to_ = .ok t := by
  simp only [Assign, bind_eq_ok] at h
  obtain ⟨s1, hs1, s2, hs2, hd⟩ := h
  simp [Assign, Assign_loop_mono ops _ to_ fuel fuel2 _ s1 _ f hle hs1, hs2,
    destruct_mono fuel fuel2 s2 t _ hle hd]

theorem construct_values_mono {α : Type} (fuel fuel2 : Nat) (s t : State α) (this : Nat)
    (vs : List α) (hle : fuel ≤ fuel2) (h : construct_values fuel s this vs = .ok t) :
    construct_values fuel2 s this vs = .ok t :=
  Assign_mono _ fuel fuel2 _ t this _ _ hle h

theorem construct_copy_mono {α : Type} (fuel fuel2 : Nat) (s t : State α) (this other : Nat)
    (hle : fuel ≤ fuel2) (h : construct_copy fuel s this other = .ok t) :
    construct_copy fuel2 s this other = .ok t := by
  simp only [construct_copy, bind_eq_ok] at h
  obtain ⟨b, hb, hass⟩ := h
  simp [construct_copy, hb, Assign_mono _ fuel fuel2 _ t this _ _ hle hass]

theorem copy_assign_mono {α : Type} (fuel fuel2 : Nat) (s t : State α) (this rhs : Nat)
    (hle : fuel ≤ fuel2) (h : copy_assign fuel s this rhs = .ok t) :
    copy_assign fuel2 s this rhs = .ok t := by
  by_cases hne : this = rhs
  · simpa [copy_assign, hne] using h
  · simp only [copy_assign, ne_eq, hne, not_false_eq_true, if_true, bind_eq_ok] at h
    obtain ⟨s1, hs1, s2, hs2, hd⟩ := h
    simp [copy_assign, hne, construct_copy_mono fuel fuel2 s s1 _ rhs hle hs1, hs2,
      destruct_mono fuel fuel2 s2 t _ hle hd]

/-! ## The invariant of reachable memories -/

theorem WellFormed_empty {α : Type} : WellFormed (State.empty : State α) := by
  refine ⟨fun o l h => ?_, fun o1 o2 c1 c2 _ h1 _ => ?_⟩
  · simp [State.empty, lookup] at h
  · obtain ⟨l, hl, _⟩ := h1
    simp [State.empty, lookup] at hl

/-- A step that works on one list inside the footprint `A`, which no other list touches,
keeps the memory well formed. -/
theorem WellFormed_step {α : Type} (s t : State α) (this : Nat) (A : List Nat)
    (ds : List (Nat × α)) (hwf : WellFormed s) (hfr : Frame s t [this] A)
    (hown : Owns t this ds) (hnew : ∀ a ∈ addrs ds, a ∈ A ∨ lookup s.nodes a = none)
    (hA : ∀ o c, o ≠ this → Owns s o c → ∀ a ∈ addrs c, a ∉ A) : WellFormed t := by
  have back : ∀ o c, o ≠ this → Owns t o c → Owns s o c := by
    intro o c ho hc
    obtain ⟨l, hl, _, _⟩ := hc
    have hc : Owns t o c := ⟨l, hl, by assumption, by assumption⟩
    rw [hfr.1 o (by simpa using ho)] at hl
    obtain ⟨c2, hc2⟩ := hwf.1 o l hl
    have ht := Owns_frame s t [this] A o c2 hfr (by simpa using ho) (hA o c2 ho hc2) hc2
    rw [Owns_unique t o c c2 hc ht]
    exact hc2
  have sep : ∀ o c, o ≠ this → Owns s o c → ∀ a ∈ addrs c, a ∉ addrs ds := by
    intro o c ho hc a ha hd
    rcases hnew a hd with h | h
    · exact hA o c ho hc a ha h
    · obtain ⟨l, _, _, hseg⟩ := hc
      exact Seg_live s c _ _ hseg a ha h
  refine ⟨fun o l hl => ?_, fun o1 o2 c1 c2 hne h1 h2 a ha1 ha2 => ?_⟩
  · by_cases ho : o = this
    · subst ho; exact ⟨ds, hown⟩
    · rw [hfr.1 o (by simpa using ho)] at hl
      obtain ⟨c, hc⟩ := hwf.1 o l hl
      exact ⟨c, Owns_frame s t [this] A o c hfr (by simpa using ho) (hA o c ho hc) hc⟩
  · by_cases ho1 : o1 = this
    · subst ho1
      have e := Owns_unique t o1 c1 ds h1 hown
      subst e
      exact sep o2 c2 (Ne.symm hne) (back o2 c2 (Ne.symm hne) h2) a ha2 ha1
    · by_cases ho2 : o2 = this
      · subst ho2
        have e := Owns_unique t o2 c2 ds h2 hown
        subst e
        exact sep o1 c1 ho1 (back o1 c1 ho1 h1) a ha1 ha2
      · exact hwf.2 o1 o2 c1 c2 hne (back o1 c1 ho1 h1) (back o2 c2 ho2 h2) a ha1 ha2

theorem Mutation_run_live {α : Type} (s t : State α) (this : Nat) (m : Mutation α)
    (h : m.run s this = .ok t) : ∃ l, lookup s.lists this = some l := by
  cases hl : lookup s.lists this with
  | some l => exact ⟨l, rfl⟩
  | none =>
    exfalso
    cases m with
    | pushFront v => simp [Mutation.run, PushFront, getNext, readList, hl] at h
    | popFront => simp [Mutation.run, PopFront, IsEmpty, readList, hl] at h
    | insertAfter pos v =>
      cases pos with
      | beforeBegin =>
        simp [Mutation.run, Position.iterator, InsertAfter, before_begin, getNext, readList,
          hl] at h
      | element k => simp [Mutation.run, Position.iterator, begin_, getNext, readList, hl] at h
    | eraseAfter pos =>
      cases pos with
      | beforeBegin =>
        simp [Mutation.run, Position.iterator, EraseAfter, before_begin, getNext, readList,
          hl] at h
      | element k => simp [Mutation.run, Position.iterator, begin_, getNext, readList, hl] at h
    | clear fuel =>
      cases fuel <;> simp [Mutation.run, Clear, Clear.loop, getNext, readList, hl] at h

theorem WellFormed_mutation {α : Type} (s t : State α) (this : Nat) (m : Mutation α)
    (hwf : WellFormed s) (h : m.run s this = .ok t) : WellFormed t := by
  obtain ⟨l, hl⟩ := Mutation_run_live s t this m h
  obtain ⟨cs, hown⟩ := hwf.1 this l hl
  obtain ⟨ds, hstep⟩ := Mutation_run_step s t this cs m hown h
  exact WellFormed_step s t this (addrs cs) ds hwf hstep.2.1 hstep.1 hstep.2.2
    (fun o c ho hc => hwf.2 o this c cs ho hc hown)

theorem WellFormed_construct {α : Type} (s : State α) (this : Nat) (hwf : WellFormed s) :
    WellFormed (construct s this) :=
  WellFormed_step s _ this [] [] hwf (Frame_construct s this) (Owns_construct s this)
    (fun _ h => by simp [addrs] at h) (fun _ _ _ _ _ _ => by simp)

theorem WellFormed_construct_values {α : Type} (fuel : Nat) (s t : State α) (this : Nat)
    (vs : List α) (hwf : WellFormed s) (h : construct_values fuel s this vs = .ok t) :
    WellFormed t := by
  have h2 := construct_values_mono fuel (max fuel vs.length) s t this vs (le_max_left _ _) h
  obtain ⟨t2, new, ht2, hown, _, hfr, hfresh⟩ :=
    construct_values_spec (max fuel vs.length) s this vs (le_max_right _ _)
  rw [h2] at ht2
  have e : t = t2 := Except.ok.inj ht2
  subst e
  exact WellFormed_step s t this [] new hwf hfr hown (fun a ha => Or.inr (hfresh a ha))
    (fun _ _ _ _ _ _ => by simp)

theorem WellFormed_construct_copy {α : Type} (fuel : Nat) (s t : State α) (this other : Nat)
    (hwf : WellFormed s) (hthis : lookup s.lists this = none)
    (hother : lookup s.lists other ≠ none) (h : construct_copy fuel s this other = .ok t) :
    WellFormed t := by
  cases hl : lookup s.lists other with
  | none => exact absurd hl hother
  | some l =>
    obtain ⟨cs, hcs⟩ := hwf.1 other l hl
    have hne : this ≠ other := by
      intro e; rw [e, hl] at hthis; simp at hthis
    have h2 := construct_copy_mono fuel (max fuel cs.length) s t this other (le_max_left _ _) h
    obtain ⟨t2, new, ht2, hown, _, _, _, hfr, hfresh⟩ :=
      construct_copy_spec (max fuel cs.length) s this other cs hne hcs (le_max_right _ _)
    rw [h2] at ht2
    have e : t = t2 := Except.ok.inj ht2
    subst e
    exact WellFormed_step s t this [] new hwf hfr hown (fun a ha => Or.inr (hfresh a ha))
      (fun _ _ _ _ _ _ => by simp)

theorem WellFormed_copy_assign {α : Type} (fuel : Nat) (s t : State α) (this rhs : Nat)
    (hwf : WellFormed s) (hthis : lookup s.lists this ≠ none)
    (hrhs : lookup s.lists rhs ≠ none) (h : copy_assign fuel s this rhs = .ok t) :
    WellFormed t := by
  by_cases hne : this = rhs
  · subst hne
    rw [copy_assign_self] at h
    exact (Except.ok.inj h) ▸ hwf
  · cases hla : lookup s.lists this with
    | none => exact absurd hla hthis
    | some la =>
      cases hlb : lookup s.lists rhs with
      | none => exact absurd hlb hrhs
      | some lb =>
        obtain ⟨ca, hca⟩ := hwf.1 this la hla
        obtain ⟨cb, hcb⟩ := hwf.1 rhs lb hlb
        have hle : fuel ≤ max fuel (max ca.length cb.length) := le_max_left _ _
        have hfa : ca.length ≤ max fuel (max ca.length cb.length) :=
          le_trans (le_max_left _ _) (le_max_right _ _)
        have hfb : cb.length ≤ max fuel (max ca.length cb.length) :=
          le_trans (le_max_right _ _) (le_max_right _ _)
        have h2 := copy_assign_mono fuel _ s t this rhs hle h
        obtain ⟨t2, new, ht2, hown, _, _, _, hfr, hfresh⟩ :=
          copy_assign_step _ s this rhs ca cb hne hca hcb
            (hwf.2 this rhs ca cb hne hca hcb) hfa hfb
        rw [h2] at ht2
        have e : t = t2 := Except.ok.inj ht2
        subst e
        exact WellFormed_step s t this (addrs ca) new hwf hfr hown
          (fun a ha => Or.inr (hfresh a ha))
          (fun o c ho hc => hwf.2 o this c ca ho hc hca)

theorem swap_live {α : Type} (s t : State α) (a b : Nat) (h : swap s a b = .ok t) :
    (∃ la, lookup s.lists a = some la) ∧ ∃ lb, lookup s.lists b = some lb := by
  cases hb : lookup s.lists b with
  | none => simp [swap, getNext, readList, hb] at h
  | some lb =>
    cases ha : lookup s.lists a with
    | none => simp [swap, getNext, readList, hb, ha] at h
    | some la => exact ⟨⟨la, rfl⟩, ⟨lb, rfl⟩⟩

theorem WellFormed_swap {α : Type} (s t : State α) (a b : Nat) (hwf : WellFormed s)
    (h : swap s a b = .ok t) : WellFormed t := by
  obtain ⟨⟨la, hla⟩, ⟨lb, hlb⟩⟩ := swap_live s t a b h
  obtain ⟨ca, hca⟩ := hwf.1 a la hla
  obtain ⟨cb, hcb⟩ := hwf.1 b lb hlb
  obtain ⟨t2, ht2, hta, htb, hnodes, hlists⟩ := swap_Owns s a b ca cb hca hcb
  rw [h] at ht2
  have e : t = t2 := Except.ok.inj ht2
  subst e
  have fwd : ∀ o c, o ≠ a → o ≠ b → Owns s o c → Owns t o c := by
    intro o c h1 h2 hc
    obtain ⟨l, hl, hsz, hseg⟩ := hc
    exact ⟨l, by rw [hlists o h1 h2]; exact hl, hsz,
      Seg_frame s t c _ _ (fun x _ => hnodes x) hseg⟩
  have bwd : ∀ o c, o ≠ a → o ≠ b → Owns t o c → Owns s o c := by
    intro o c h1 h2 hc
    obtain ⟨l, hl, hsz, hseg⟩ := hc
    exact ⟨l, by rw [← hlists o h1 h2]; exact hl, hsz,
      Seg_frame t s c _ _ (fun x _ => (hnodes x).symm) hseg⟩
  have src : ∀ o c, Owns t o c → ∃ o2, Owns s o2 c ∧
      ((o = a ∧ o2 = b) ∨ (o = b ∧ o2 = a) ∨ (o ≠ a ∧ o ≠ b ∧ o2 = o)) := by
    intro o c hc
    by_cases h1 : o = a
    · subst h1
      rw [Owns_unique t o c cb hc hta]
      exact ⟨b, hcb, Or.inl ⟨rfl, rfl⟩⟩
    · by_cases h2 : o = b
      · subst h2
        rw [Owns_unique t o c ca hc htb]
        exact ⟨a, hca, Or.inr (Or.inl ⟨rfl, rfl⟩)⟩
      · exact ⟨o, bwd o c h1 h2 hc, Or.inr (Or.inr ⟨h1, h2, rfl⟩)⟩
  refine ⟨fun o l hl => ?_, fun o1 o2 c1 c2 hne h1 h2 => ?_⟩
  · by_cases h1 : o = a
    · subst h1; exact ⟨cb, hta⟩
    · by_cases h2 : o = b
      · subst h2; exact ⟨ca, htb⟩
      · rw [hlists o h1 h2] at hl
        obtain ⟨c, hc⟩ := hwf.1 o l hl
        exact ⟨c, fwd o c h1 h2 hc⟩
  · obtain ⟨p1, hp1, hcase1⟩ := src o1 c1 h1
    obtain ⟨p2, hp2, hcase2⟩ := src o2 c2 h2
    apply hwf.2 p1 p2 c1 c2 ?_ hp1 hp2
    rcases hcase1 with ⟨e1, f1⟩ | ⟨e1, f1⟩ | ⟨e1, e1b, f1⟩ <;>
      rcases hcase2 with ⟨e2, f2⟩ | ⟨e2, f2⟩ | ⟨e2, e2b, f2⟩ <;> omega

theorem WellFormed_destruct {α : Type} (fuel : Nat) (s t : State α) (this : Nat)
    (hwf : WellFormed s) (h : destruct fuel s this = .ok t) : WellFormed t := by
  simp only [destruct, bind_eq_ok] at h
  obtain ⟨s1, hs1, ht⟩ := h
  have hwf1 : WellFormed s1 := WellFormed_mutation s s1 this (.clear fuel) hwf hs1
  have e : t = ⟨s1.nodes, remove s1.lists this⟩ := by
    simpa using (Except.ok.inj ht).symm
  subst e
  have bwd : ∀ o c, Owns (⟨s1.nodes, remove s1.lists this⟩ : State α) o c → Owns s1 o c := by
    intro o c hc
    obtain ⟨l, hl, hsz, hseg⟩ := hc
    have ho : this ≠ o := by
      intro e; subst e; simp [lookup_remove_same] at hl
    simp only [lookup_remove_other _ this o ho] at hl
    exact ⟨l, hl, hsz,
      Seg_frame (⟨s1.nodes, remove s1.lists this⟩ : State α) s1 c _ _ (fun _ _ => rfl) hseg⟩
  refine ⟨fun o l hl => ?_, fun o1 o2 c1 c2 hne h1 h2 =>
    hwf1.2 o1 o2 c1 c2 hne (bwd o1 c1 h1) (bwd o2 c2 h2)⟩
  have ho : this ≠ o := by
    intro e; subst e; simp [lookup_remove_same] at hl
  have hl1 : lookup s1.lists o = some l := by
    simpa only [lookup_remove_other _ this o ho] using hl
  obtain ⟨c, l2, hl2, hsz, hseg⟩ := hwf1.1 o l hl1
  exact ⟨c, l2, by simp only [lookup_remove_other _ this o ho]; exact hl2, hsz,
    Seg_frame s1 _ c _ _ (fun _ _ => rfl) hseg⟩

/-- Every reachable memory is well formed. -/
theorem Reachable_WellFormed {α : Type} (s : State α) (h : Reachable s) : WellFormed s := by
  induction h with
  | empty => exact WellFormed_empty
  | construct s this _ _ ih => exact WellFormed_construct s this ih
  | construct_values fuel s this vs t _ _ hrun ih =>
    exact WellFormed_construct_values fuel s t this vs ih hrun
  | construct_copy fuel s this other t _ hthis hother hrun ih =>
    exact WellFormed_construct_copy fuel s t this other ih hthis hother hrun
  | mutation s this m t _ hrun ih => exact WellFormed_mutation s t this m ih hrun
  | swap s this other t _ hrun ih => exact WellFormed_swap s t this other ih hrun
  | copy_assign fuel s this rhs t _ hthis hrhs hrun ih =>
    exact WellFormed_copy_assign fuel s t this rhs ih hthis hrhs hrun
  | destruct fuel s this t _ hrun ih => exact WellFormed_destruct fuel s t this ih hrun

theorem exampleState_Reachable : Reachable exampleState :=
  Reachable.construct_values 3 State.empty 0 [1, 2, 3] exampleState Reachable.empty rfl rfl

/-- C14: in every reachable memory, every live list object has a null-terminated chain
of nodes whose number is `size_`, so that `GetSize()` is the number of nodes that forward
iteration visits; its `head_.next_node` is null exactly when it has no element;
`IsEmpty()` is true exactly when `GetSize()` is `0`; and no two lists share a node. -/
theorem reachable_invariant {α : Type} (s : State α) (this : Nat) (l : SingleLinkedList)
    (h : Reachable s) (hl : lookup s.lists this = some l) :
    WellFormed s ∧
    ∃ cs, Owns s this cs ∧
      Seg s l.head_next_node cs .null ∧
      l.size_ = cs.length ∧
      GetSize s this = .ok cs.length ∧
      toList l.size_ s this = .ok (values cs) ∧
      (toList l.size_ s this >>= fun xs => pure xs.length) = .ok l.size_ ∧
      (l.head_next_node = .null ↔ cs = []) ∧
      IsEmpty s this = .ok (decide (cs.length = 0)) ∧
      ∃ e n, IsEmpty s this = .ok e ∧ GetSize s this = .ok n ∧ (e = true ↔ n = 0) := by
  have hwf := Reachable_WellFormed s h
  obtain ⟨cs, hown⟩ := hwf.1 this l hl
  obtain ⟨l2, hl2, hsz, hseg⟩ := hown
  have hown : Owns s this cs := ⟨l2, hl2, hsz, hseg⟩
  rw [hl] at hl2
  have e : l = l2 := Option.some.inj hl2
  subst e
  have htl : toList l.size_ s this = .ok (values cs) := by
    rw [hsz]; exact toList_of_Owns s this cs _ hown (le_refl _)
  refine ⟨hwf, cs, hown, hseg, hsz, GetSize_of_Owns s this cs hown, htl, ?_,
    Seg_null_iff s _ cs hseg, ?_, decide (cs.length = 0), cs.length, ?_,
    GetSize_of_Owns s this cs hown, by simp⟩
  · rw [htl]; simp [values_length, hsz]
  · simp [IsEmpty, readList, hl, hsz]
  · simp [IsEmpty, readList, hl, hsz]

/-- Witness of `reachable_invariant`: the memory holding the list `[1, 2, 3]`. -/
theorem reachable_invariant_witness :
    Reachable exampleState ∧
    lookup exampleState.lists 0 = some ⟨.heap 0, 3⟩ ∧
    WellFormed exampleState ∧
    ∃ cs, Owns exampleState 0 cs ∧
      Seg exampleState (.heap 0) cs .null ∧
      3 = cs.length ∧
      GetSize exampleState 0 = .ok cs.length ∧
      toList 3 exampleState 0 = .ok (values cs) ∧
      (toList 3 exampleState 0 >>= fun xs => pure xs.length) = .ok 3 ∧
      (NodePtr.heap 0 = .null ↔ cs = []) ∧
      IsEmpty exampleState 0 = .ok (decide (cs.length = 0)) ∧
      ∃ e n, IsEmpty exampleState 0 = .ok e ∧ GetSize exampleState 0 = .ok n ∧
        (e = true ↔ n = 0) :=
  ⟨exampleState_Reachable, rfl,
    reachable_invariant exampleState 0 ⟨.heap 0, 3⟩ exampleState_Reachable rfl⟩

end SLL
